import Mathlib

/-!
# File-Compressor: a Huffman coder (`code.cpp`)

A shallow embedding of `code.cpp` and theorems about it.

Conventions of the embedding.

* A `char` / `unsigned char` is a natural number below 256; an `int` that is
  only ever 0 or 1 (a code bit) is a natural number; other `int`s are integers.
  The sum `left->freq + right->freq` of two frequencies is the 32-bit sum
  `addInt`: a sum outside the range of `int` wraps around in two's complement.
* A `std::shared_ptr<Node>` is a value of `Node`; the null pointer is
  `Node.nil`.  The same holds for `Tree`.
* Undefined behaviour (dereferencing a null pointer, indexing a vector out of
  bounds, `top()` of an empty queue) and thrown C++ exceptions are explicit
  `Error` results.
* Files are lists of bytes.  `int`s are written and read back in the byte
  order of the machine; the embedding fixes little-endian, 4-byte `int`s.
-/

namespace FileCompressor

/-- The ways in which a run of the program can go wrong. -/
inductive Error where
  /-- Dereferencing a null `shared_ptr`. -/
  | nullDeref
  /-- Calling `top()` or `pop()` on an empty `std::priority_queue`. -/
  | emptyQueue
  /-- Indexing a `std::vector` past its size. -/
  | outOfBounds
  /-- The exception `std::invalid_argument`, thrown by the `std::bitset` string constructor. -/
  | invalidArgument
  /-- The exception `std::out_of_range`, thrown by `std::map::at` and `std::string::substr`. -/
  | outOfRange
  deriving DecidableEq, Repr

/-- The `struct Node` of the source, seen through a `std::shared_ptr<Node>`:
`nil` is the null pointer. -/
inductive Node where
  | nil : Node
  | node (character : Nat) (freq : Int) (left right : Node) : Node
  deriving DecidableEq, Repr

namespace Node

/-- The constructor `Node(character, freq)`: both children null. -/
def leaf (character : Nat) (freq : Int) : Node := node character freq nil nil

/-- The field access `p->freq`.  It is only applied to pointers obtained from
`std::make_shared`, which are never null; on `nil` it yields 0. -/
def getFreq : Node → Int
  | nil => 0
  | node _ f _ _ => f

/-- A pointer tested as a condition: `if (p)`. -/
def isNull : Node → Bool
  | nil => true
  | node _ _ _ _ => false

end Node

/-- The functor `Compare`: `l->freq > r->freq`. -/
def Compare (l r : Node) : Bool := decide (l.getFreq > r.getFreq)

/-- Modelled from the spec: `std::priority_queue` is library code, and the order
in which it hands out elements of equal priority is not fixed by the source.
The queue is the list of its elements in insertion order, and `top` is the
element no other element precedes under `Compare`, the first inserted among
equals (spec 4.1: "first-inserted-first-extracted among equal keys"). -/
abbrev MinHeap := List Node

namespace MinHeap

/-- The call `minHeap.push(x)`. -/
def push (h : MinHeap) (x : Node) : MinHeap := h ++ [x]

/-- The call `minHeap.top()` followed by `minHeap.pop()`: the first element of
least frequency and the queue without it; `none` on an empty queue. -/
def popTop : MinHeap → Option (Node × MinHeap)
  | [] => none
  | x :: xs =>
    match popTop xs with
    | none => some (x, [])
    | some (y, rest) =>
      if Compare x y then some (y, x :: rest) else some (x, xs)

/-- The call `minHeap.top()`. -/
def top (h : MinHeap) : Option Node := (popTop h).map Prod.fst

end MinHeap

/-- The function `createAndBuildMinHeap`, from position `i` on: one leaf per index of `arr`,
pushed in index order.  Reading `freq[i]` past the end of `freq` is an
error. -/
def createAndBuildMinHeapFrom : List Nat → List Int → MinHeap → Except Error MinHeap
  | [], _, h => .ok h
  | _ :: _, [], _ => .error .outOfBounds
  | a :: arr, f :: freq, h => createAndBuildMinHeapFrom arr freq (h.push (Node.leaf a f))

/-- The function `createAndBuildMinHeap`. -/
def createAndBuildMinHeap (arr : List Nat) (freq : List Int) : Except Error MinHeap :=
  createAndBuildMinHeapFrom arr freq []

/-- Popping shortens the queue by one element. -/
theorem MinHeap.popTop_length :
    ∀ (h : MinHeap) (x : Node) (r : MinHeap), MinHeap.popTop h = some (x, r) →
      r.length + 1 = h.length
  | [], _, _, e => by simp [MinHeap.popTop] at e
  | a :: xs, x, r, e => by
    unfold MinHeap.popTop at e
    cases hp : MinHeap.popTop xs with
    | none =>
      rw [hp] at e
      simp only [Option.some.injEq, Prod.mk.injEq] at e
      obtain ⟨-, rfl⟩ := e
      cases xs with
      | nil => rfl
      | cons b ys =>
        unfold MinHeap.popTop at hp
        cases hq : MinHeap.popTop ys with
        | none => rw [hq] at hp; simp at hp
        | some q =>
          rw [hq] at hp
          obtain ⟨y, rest⟩ := q
          by_cases c : Compare b y <;> simp [c] at hp
    | some q =>
      obtain ⟨y, rest⟩ := q
      rw [hp] at e
      have ih := MinHeap.popTop_length xs y rest hp
      by_cases c : Compare a y
      · simp only [c, if_true, Option.some.injEq, Prod.mk.injEq] at e
        obtain ⟨-, rfl⟩ := e
        simp only [List.length_cons]
        omega
      · simp only [c, Bool.false_eq_true, if_false, Option.some.injEq, Prod.mk.injEq] at e
        obtain ⟨-, rfl⟩ := e
        rfl

/-- The sum `a + b` of two `int`s, as in `left->freq + right->freq`: the exact
sum when it fits 32 bits; a sum that does not (undefined behaviour in C++)
wraps around in two's complement, as the machine addition does. -/
def addInt (a b : Int) : Int := (a + b + 2147483648) % 4294967296 - 2147483648

/-- The loop `while (minHeap.size() != 1)` of `buildHuffmanTree` followed by
`return minHeap.top()`. -/
def mergeLoop (h : MinHeap) : Except Error Node :=
  if h.length = 1 then
    match MinHeap.top h with
    | some t => .ok t
    | none => .error .emptyQueue
  else
    match hl : MinHeap.popTop h with
    | none => .error .emptyQueue
    | some (left, h1) =>
      match hr : MinHeap.popTop h1 with
      | none => .error .emptyQueue
      | some (right, h2) =>
        mergeLoop (MinHeap.push h2 (Node.node 36 (addInt left.getFreq right.getFreq) left right))
termination_by h.length
decreasing_by
  have e1 := MinHeap.popTop_length h left h1 hl
  have e2 := MinHeap.popTop_length h1 right h2 hr
  simp only [MinHeap.push, List.length_append, List.length_singleton]
  omega

/-- The function `buildHuffmanTree`. -/
def buildHuffmanTree (arr : List Nat) (freq : List Int) : Except Error Node :=
  match createAndBuildMinHeap arr freq with
  | .error e => .error e
  | .ok minHeap => mergeLoop minHeap

/-- The function `isLeaf`, applied to a non-null node with these children. -/
def isLeaf (left right : Node) : Bool := left.isNull && right.isNull

/-- The 4 bytes of an `int` as `write(reinterpret_cast<const char*>(&v), 4)`
puts them in the file (little-endian two's complement). -/
def intBytes (v : Int) : List Nat :=
  let n := (v % 4294967296).toNat
  [n % 256, n / 256 % 256, n / 65536 % 256, n / 16777216 % 256]

/-- The conversion of an `unsigned long` below `2^32` to `int`. -/
def toInt32 (n : Nat) : Int :=
  if n % 4294967296 < 2147483648 then (n % 4294967296 : Nat) else (n % 4294967296 : Nat) - 4294967296

/-- The C string behind `std::string(first, last).c_str()` where the range
holds `int`s: every `int` is converted to a `char`, and the C string ends at
the first NUL character. -/
def cStr (v : List Nat) : List Nat := (v.map (· % 256)).takeWhile (· ≠ 0)

/-- The constructor `std::bitset<32>(const char*)` followed by `to_ulong()`:
the first 32 characters are read as binary digits, the first one the most
significant; a character other than `'0'` (48) and `'1'` (49) throws
`std::invalid_argument`. -/
def bitset32OfCStr (s : List Nat) : Except Error Nat :=
  if (s.take 32).all (fun c => c = 48 || c = 49) then
    .ok ((s.take 32).foldl (fun acc c => 2 * acc + (c - 48)) 0)
  else .error .invalidArgument

/-- The container `std::map<char, std::vector<int>>` as an association list. -/
abbrev CodeMap := List (Nat × List Nat)

namespace CodeMap

/-- The assignment `m[k] = v`. -/
def assign : CodeMap → Nat → List Nat → CodeMap
  | [], k, v => [(k, v)]
  | (k1, v1) :: m, k, v => if k1 = k then (k, v) :: m else (k1, v1) :: assign m k v

/-- The lookup `m.at(k)`: `none` stands for the thrown `std::out_of_range`. -/
def at? : CodeMap → Nat → Option (List Nat)
  | [], _ => none
  | (k1, v1) :: m, k => if k1 = k then some v1 else at? m k

end CodeMap

/-- What `printCodesIntoFile` reads and writes through its reference
parameters: the bytes written to `outFile` so far, the buffer `code`, and the
map `huffmanCode`. -/
structure PrintState where
  outFile : List Nat
  code : List Nat
  huffmanCode : CodeMap
  deriving DecidableEq, Repr

/-- The body of `if (isLeaf(root))` in `printCodesIntoFile`.  A thrown
exception comes with the state at the throw. -/
def printLeaf (character top : Nat) (s : PrintState) : Except (Error × PrintState) PrintState :=
  if s.code.length < top then .error (.outOfBounds, s) else
  let s1 : PrintState := { s with huffmanCode := s.huffmanCode.assign character (s.code.take top) }
  let s2 : PrintState := { s1 with outFile := s1.outFile ++ [character] }
  let s3 : PrintState := { s2 with outFile := s2.outFile ++ intBytes top }
  match bitset32OfCStr (cStr (s.code.take top)) with
  | .error e => .error (e, s3)
  | .ok v => .ok { s3 with outFile := s3.outFile ++ intBytes (toInt32 v) }

/-- The function `printCodesIntoFile`.  The result is the state after the
call, or the exception (or undefined behaviour) that ended it together with
the state reached. -/
def printCodesIntoFile : Node → Nat → PrintState → Except (Error × PrintState) PrintState
  | .nil, _, s => .error (.nullDeref, s)
  | .node character _ left right, top, s =>
    let afterLeft : Except (Error × PrintState) PrintState :=
      if left.isNull then .ok s
      else if s.code.length ≤ top then .error (.outOfBounds, s)
      else printCodesIntoFile left (top + 1) { s with code := s.code.set top 0 }
    match afterLeft with
    | .error e => .error e
    | .ok s1 =>
      let afterRight : Except (Error × PrintState) PrintState :=
        if right.isNull then .ok s1
        else if s1.code.length ≤ top then .error (.outOfBounds, s1)
        else printCodesIntoFile right (top + 1) { s1 with code := s1.code.set top 1 }
      match afterRight with
      | .error e => .error e
      | .ok s2 => if isLeaf left right then printLeaf character top s2 else .ok s2

/-- The inner loop `for (int bit : code)` of `compressFile` on the
accumulator `a` (an `unsigned char`), the bit count `h` and the output. -/
def packCode : List Nat → Nat → Nat → List Nat → Nat × Nat × List Nat
  | [], a, h, outFile => (a, h, outFile)
  | bit :: code, a, h, outFile =>
    if h < 7 then packCode code ((a <<< 1 ||| bit) % 256) (h + 1) outFile
    else packCode code 0 0 (outFile ++ [(a <<< 1 ||| bit) % 256])

/-- The loop `while (inFile.get(n))` of `compressFile`; `huffmanCode.at(n)`
throws `std::out_of_range` for a byte without an entry. -/
def packInput (huffmanCode : CodeMap) :
    List Nat → Nat → Nat → List Nat → Except Error (Nat × Nat × List Nat)
  | [], a, h, outFile => .ok (a, h, outFile)
  | n :: inFile, a, h, outFile =>
    match huffmanCode.at? n with
    | none => .error .outOfRange
    | some code =>
      match packCode code a h outFile with
      | (a1, h1, out1) => packInput huffmanCode inFile a1 h1 out1

/-- The loop `for (int i = 0; i < 7 - h; i++) a = a << 1;` of `compressFile`. -/
def padShift : Nat → Nat → Nat
  | 0, a => a
  | n + 1, a => padShift n ((a <<< 1) % 256)

/-- The function `compressFile`: `inFile` is the input still to be read, the
result is `outFile` after the call. -/
def compressFile (inFile : List Nat) (outFile : List Nat) (huffmanCode : CodeMap) :
    Except Error (List Nat) :=
  match packInput huffmanCode inFile 0 0 outFile with
  | .error e => .error e
  | .ok (a, h, out1) => .ok (out1 ++ [padShift (7 - h) a])

/-- The `struct Tree` of the source, seen through a `std::shared_ptr<Tree>`:
`nil` is the null pointer. -/
inductive Tree where
  | nil : Tree
  | node (g : Nat) (len dec : Int) (left right : Tree) : Tree
  deriving DecidableEq, Repr

namespace Tree

/-- The constructor `Tree()`. -/
def new : Tree := node 0 0 0 nil nil

/-- A pointer tested as a condition: `if (p)`. -/
def isNull : Tree → Bool
  | nil => true
  | node _ _ _ _ _ => false

/-- The child pointer after `if (!temp->left) temp->left = std::make_shared<Tree>();`. -/
def orNew : Tree → Tree
  | nil => new
  | t => t

end Tree

/-- An `std::ifstream`: the bytes not yet read and the fail flag. -/
structure IFStream where
  data : List Nat
  fail : Bool
  deriving DecidableEq, Repr

namespace IFStream

/-- The call `inFile.get(c)`: the byte read, if any, and the stream after. -/
def get (s : IFStream) : Option Nat × IFStream :=
  if s.fail then (none, s) else
  match s.data with
  | [] => (none, { s with fail := true })
  | b :: rest => (some b, { s with data := rest })

/-- The call `inFile.read(buf, n)`: the bytes stored into `buf` and the
stream after; the stream fails when fewer than `n` bytes are left. -/
def read (s : IFStream) (n : Nat) : List Nat × IFStream :=
  if s.fail then ([], s) else
  if s.data.length < n then (s.data, { data := [], fail := true })
  else (s.data.take n, { s with data := s.data.drop n })

end IFStream

/-- The value of a zero-initialised `int` after `read` stored the bytes `bs`
over its first bytes (little-endian). -/
def intOfBytes (bs : List Nat) : Int :=
  toInt32 (bs.getD 0 0 + 256 * bs.getD 1 0 + 65536 * bs.getD 2 0 + 16777216 * bs.getD 3 0)

/-- The function `extractCodesFromFile` on a freshly constructed `Tree t`:
the fields `g`, `len`, `dec` read, and the stream after. -/
def extractCodesFromFile (inFile : IFStream) : (Nat × Int × Int) × IFStream :=
  let (c, s1) := inFile.get
  let (lenBytes, s2) := s1.read 4
  let (decBytes, s3) := s2.read 4
  ((c.getD 0, intOfBytes lenBytes, intOfBytes decBytes), s3)

/-- The call `std::bitset<32>(dec).to_string()`: the 32 low bits of `dec` as
characters `'0'` (48) and `'1'` (49), the most significant first. -/
def bitset32ToString (dec : Int) : List Nat :=
  (List.range 32).map (fun i => 48 + (dec % 4294967296).toNat / 2 ^ (31 - i) % 2)

/-- The call `s.substr(32 - len)` on a string of 32 characters; a start past
the end throws `std::out_of_range`. -/
def substrFrom (s : List Nat) (len : Int) : Except Error (List Nat) :=
  if 0 ≤ len ∧ len ≤ 32 then .ok (s.drop (32 - len).toNat) else .error .outOfRange

/-- The loop `for (char bit : bin_str)` of `rebuildHuffmanTree` followed by
the three assignments through `temp`, as a change of the subtree `temp` points
into.  `temp` is never null there. -/
def insertCode : Tree → List Nat → Nat → Int → Int → Tree
  | .nil, _, _, _, _ => .nil
  | .node _ _ _ left right, [], g, len, dec => .node g len dec left right
  | .node g0 len0 dec0 left right, bit :: bits, g, len, dec =>
    if bit = 48 then .node g0 len0 dec0 (insertCode left.orNew bits g len dec) right
    else .node g0 len0 dec0 left (insertCode right.orNew bits g len dec)

/-- The loop `for (int k = 0; k < size; k++)` of `rebuildHuffmanTree`, with
`size - k` iterations to go. -/
def rebuildLoop : Nat → IFStream → Tree → Except Error (IFStream × Tree)
  | 0, inFile, tree => .ok (inFile, tree)
  | n + 1, inFile, tree =>
    match extractCodesFromFile inFile with
    | ((g, len, dec), s1) =>
      match substrFrom (bitset32ToString dec) len with
      | .error e => .error e
      | .ok bin_str => rebuildLoop n s1 (insertCode tree bin_str g len dec)

/-- The function `rebuildHuffmanTree`: the stream after the table and the
tree built. -/
def rebuildHuffmanTree (inFile : IFStream) (size : Int) : Except Error (IFStream × Tree) :=
  rebuildLoop size.toNat inFile Tree.new

/-- The function `isRoot`, applied to a non-null node with these children. -/
def isRoot (left right : Tree) : Bool := left.isNull && right.isNull

/-- The bit `inp[i]` of `std::bitset<8> inp(p)`: position 0 is the least
significant bit. -/
def bitAt (p i : Nat) : Nat := p / 2 ^ i % 2

/-- The loop `for (int i = 0; i < 8 && k < fileLength; ++i)` of
`decompressFile` from the state `(i, k, temp)`; on emitting, `i--` and the
`++i` of the loop leave `i` as it is.  The result is `k`, `temp` and the
output after the loop. -/
def decodeByte (tree : Tree) (p : Nat) (fileLength : Int) (i : Nat) (k : Int) (temp : Tree)
    (outFile : List Nat) : Except Error (Int × Tree × List Nat) :=
  if i < 8 ∧ k < fileLength then
    match temp with
    | .nil => .error .nullDeref
    | .node g _ _ left right =>
      if !isRoot left right then
        decodeByte tree p fileLength (i + 1) k (if bitAt p i = 0 then left else right) outFile
      else
        decodeByte tree p fileLength i (k + 1) tree (outFile ++ [g])
  else .ok (k, temp, outFile)
termination_by (8 - i) + (fileLength - k).toNat
decreasing_by
  all_goals simp_wf
  all_goals omega

/-- The loop `while (inFile.read(&p, 1))` of `decompressFile` over the bytes
left in the stream. -/
def decodeLoop (tree : Tree) (fileLength : Int) :
    List Nat → Int → Tree → List Nat → Except Error (List Nat)
  | [], _, _, outFile => .ok outFile
  | p :: rest, k, temp, outFile =>
    match decodeByte tree p fileLength 0 k temp outFile with
    | .error e => .error e
    | .ok (k1, temp1, out1) => decodeLoop tree fileLength rest k1 temp1 out1

/-- The function `decompressFile`: the result is `outFile` after the call.  A
stream that has already failed yields no byte. -/
def decompressFile (inFile : IFStream) (outFile : List Nat) (tree : Tree) (fileLength : Int) :
    Except Error (List Nat) :=
  decodeLoop tree fileLength (if inFile.fail then [] else inFile.data) 0 tree outFile

/-- The body of `main` with the table `arr`, `freq`, the content `sample` of
the input file and the constant `fileLength` as parameters: the content of
the decompressed file. -/
def mainWith (arr : List Nat) (freq : List Int) (sample : List Nat) (fileLength : Int) :
    Except Error (List Nat) :=
  match buildHuffmanTree arr freq with
  | .error e => .error e
  | .ok root =>
    match printCodesIntoFile root 0 ⟨[], List.replicate 100 0, []⟩ with
    | .error (e, _) => .error e
    | .ok st =>
      match compressFile sample st.outFile st.huffmanCode with
      | .error e => .error e
      | .ok compressed =>
        match rebuildHuffmanTree ⟨compressed, false⟩ arr.length with
        | .error e => .error e
        | .ok (rest, tree) => decompressFile rest [] tree fileLength

/-! ## Vocabulary of the specification -/

/-- Every non-terminal node of a decoder tree has both children. -/
def Tree.Full : Tree → Prop
  | .nil => False
  | .node _ _ _ left right => (left = .nil ∧ right = .nil) ∨ (Tree.Full left ∧ Tree.Full right)

/-- The symbol of the terminal node at which the bit path `w` from the node
`t` ends (left on 0, right otherwise); `none` when the path leaves the tree,
stops at a non-terminal node or goes on below a terminal one. -/
def Tree.symbolAt : Tree → List Nat → Option Nat
  | .nil, _ => none
  | .node g _ _ left right, [] => if isRoot left right then some g else none
  | .node _ _ _ left right, b :: w =>
    if isRoot left right then none else Tree.symbolAt (if b = 0 then left else right) w

/-- The bits of the byte `p` at the positions `i`, `i + 1`, ..., 7, in the
order in which `decompressFile` reads them. -/
def bitsFrom (p i : Nat) : List Nat := (List.range' i (8 - i)).map (bitAt p)

/-- The bits of a payload in the order in which `decompressFile` reads them. -/
def payloadBits (payload : List Nat) : List Nat := payload.flatMap (fun p => bitsFrom p 0)

/-- The tree walk of `decompressFile` on a sequence of bits, with `n` symbols
still to emit: a terminal node is emitted at a bit position that it does not
consume, a non-terminal node consumes the bit.  The result is the count left,
the node reached and the output. -/
def walk (tree : Tree) : List Nat → Nat → Tree → List Nat → Except Error (Nat × Tree × List Nat)
  | [], n, temp, outFile => .ok (n, temp, outFile)
  | _ :: _, 0, temp, outFile => .ok (0, temp, outFile)
  | b :: bs, n + 1, temp, outFile =>
    match temp with
    | .nil => .error .nullDeref
    | .node g _ _ left right =>
      if !isRoot left right then walk tree bs (n + 1) (if b = 0 then left else right) outFile
      else walk tree (b :: bs) n tree (outFile ++ [g])
termination_by bits n => bits.length + n

/-- The concatenation of the codes of the input bytes, in input order; `none`
when a byte has no entry in the mapping. -/
def codeBits (huffmanCode : CodeMap) : List Nat → Option (List Nat)
  | [] => some []
  | n :: inFile =>
    match huffmanCode.at? n, codeBits huffmanCode inFile with
    | some code, some rest => some (code ++ rest)
    | _, _ => none

/-- The leaves of a tree in the order in which `printCodesIntoFile` reaches
them, each with its symbol and the bits of its path from the root (0 for
left, 1 for right), after the bits `path` that lead to the tree. -/
def Node.leafCodes : Node → List Nat → List (Nat × List Nat)
  | .nil, _ => []
  | .node character _ left right, path =>
    if isLeaf left right then [(character, path)]
    else Node.leafCodes left (path ++ [0]) ++ Node.leafCodes right (path ++ [1])

/-- The state in which a call of `printCodesIntoFile` ended, by returning or
by an exception. -/
def finalState : Except (Error × PrintState) PrintState → PrintState
  | .ok s => s
  | .error (_, s) => s

/-- The map after the assignments `m[k] = v` for the entries of a list, in order. -/
def CodeMap.assignAll (m : CodeMap) (entries : List (Nat × List Nat)) : CodeMap :=
  entries.foldl (fun m e => m.assign e.1 e.2) m

/-- What a call of `printCodesIntoFile` on `root` at depth `top` that started
in the state `s` and ended as `r` has done: the buffer `code` has its length
and its first `top` entries, and `huffmanCode` received the codes of the
leaves of `root` reached, in order: all of them when the call returned. -/
def Traces (root : Node) (path : List Nat) (top : Nat) (s : PrintState)
    (r : Except (Error × PrintState) PrintState) : Prop :=
  (finalState r).code.length = s.code.length ∧
  (finalState r).code.take top = s.code.take top ∧
  ∃ done, done <+: root.leafCodes path ∧
    (finalState r).huffmanCode = s.huffmanCode.assignAll done ∧
    (∀ s1, r = .ok s1 → done = root.leafCodes path)

/-- The tree of the table `a:5, b:9, c:12, d:13, e:16, f:45` of `main`. -/
def exampleRoot : Node :=
  .node 36 100 (Node.leaf 102 45)
    (.node 36 55 (.node 36 25 (Node.leaf 99 12) (Node.leaf 100 13))
      (.node 36 30 (.node 36 14 (Node.leaf 97 5) (Node.leaf 98 9)) (Node.leaf 101 16)))

/-- The state in which `printCodesIntoFile` ends on `exampleRoot`. -/
def exampleEnd : PrintState :=
  ⟨[102, 1, 0, 0, 0, 0, 0, 0, 0, 99, 3, 0, 0, 0], 1 :: List.replicate 99 0,
    [(102, [0]), (99, [1, 0, 0])]⟩

/-- The sum of the frequencies of the leaves of a tree. -/
def Node.weight : Node → Int
  | .nil => 0
  | .node _ freq left right =>
    if isLeaf left right then freq else Node.weight left + Node.weight right

/-- The weighted path length of a tree: the sum over its leaves of frequency
times depth. -/
def Node.cost : Node → Int
  | .nil => 0
  | .node _ _ left right =>
    if isLeaf left right then 0
    else Node.cost left + Node.cost right + Node.weight left + Node.weight right

/-- The (symbol, frequency) pairs of the leaves of a tree, left to right. -/
def Node.entries : Node → List (Nat × Int)
  | .nil => []
  | .node character freq left right =>
    if isLeaf left right then [(character, freq)] else Node.entries left ++ Node.entries right

/-- A tree as `buildHuffmanTree` makes them: not null, every node a leaf or a
node with two such trees as children. -/
def Node.Wf : Node → Prop
  | .nil => False
  | .node _ _ left right =>
    (left = .nil ∧ right = .nil) ∨ (Node.Wf left ∧ Node.Wf right)

/-- The frequency of every internal node of the tree is the exact sum of the
frequencies of the leaves below it: no addition has overflowed. -/
def Node.Exact : Node → Prop
  | .nil => True
  | .node _ freq left right =>
    isLeaf left right = true ∨
      (freq = Node.weight left + Node.weight right ∧ Node.Exact left ∧ Node.Exact right)

/-- The sum of the absolute values of the frequencies of the leaves of a tree. -/
def Node.absWeight (t : Node) : Int := (t.entries.map (fun e => |e.2|)).sum

/-- The length of the code of the symbol `s` in a tree: the length of the
path to the first leaf that carries `s`, in the order of `printCodesIntoFile`
(0 when no leaf carries `s`). -/
def Node.codeLength (root : Node) (s : Nat) : Nat :=
  match (root.leafCodes []).find? (fun e => e.1 = s) with
  | some e => e.2.length
  | none => 0

/-- The Kraft sum of a list of code lengths: the sum of `2 ^ (-l)`. -/
def kraft (L : List Nat) : ℚ := (L.map (fun l => (1 / 2 : ℚ) ^ l)).sum

/-- The weighted length of an assignment of lengths to weights. -/
def wsum (P : List (Int × Nat)) : Int := (P.map (fun e => e.1 * (e.2 : Int))).sum

/-- Two code words of which neither is a prefix of the other. -/
def Incomparable (x y : List Bool) : Prop := ¬ x <+: y ∧ ¬ y <+: x

/-- The tails of the code words that start with the bit `b`. -/
def tailsOf (b : Bool) (C : List (List Bool)) : List (List Bool) :=
  C.filterMap (fun c => match c with
    | [] => none
    | x :: t => if x = b then some t else none)

/-- The weighted code length of a table under code lengths `L`: the sum over
the entries of frequency times length. -/
def weightedLength (table : List (Nat × Int)) (L : Nat → Nat) : Int :=
  (table.map (fun e => e.2 * (L e.1 : Int))).sum

/-- A fixed-length code for the symbols `a` ... `f`: the three low bits of the
byte, least significant first. -/
def threeBitCode (s : Nat) : List Bool := [s % 2 = 1, s / 2 % 2 = 1, s / 4 % 2 = 1]

/-- The number of leaves of a tree. -/
def Node.leafCount : Node → Nat
  | .nil => 0
  | .node _ _ left right =>
    if isLeaf left right then 1 else Node.leafCount left + Node.leafCount right

/-- The number of internal (non-leaf) nodes of a tree. -/
def Node.internalCount : Node → Nat
  | .nil => 0
  | .node _ _ left right =>
    if isLeaf left right then 0 else 1 + Node.internalCount left + Node.internalCount right

/-- Every internal node of the tree has both a left and a right child, and its
frequency is the sum of the frequencies of its two children. -/
def Node.Shape : Node → Prop
  | .nil => True
  | .node _ freq left right =>
    isLeaf left right = true ∨
      (left ≠ .nil ∧ right ≠ .nil ∧ freq = left.getFreq + right.getFreq
        ∧ Node.Shape left ∧ Node.Shape right)

/-- The body of the loop of `buildHuffmanTree`, one merge: two nodes are
popped and their parent is pushed. -/
def mergeOnce (minHeap : MinHeap) : Except Error MinHeap :=
  match MinHeap.popTop minHeap with
  | none => .error .emptyQueue
  | some (left, h1) =>
    match MinHeap.popTop h1 with
    | none => .error .emptyQueue
    | some (right, h2) =>
      .ok (MinHeap.push h2 (Node.node 36 (addInt left.getFreq right.getFreq) left right))

/-- The queue after `k` executions of the body of the loop. -/
def mergeTimes : Nat → MinHeap → Except Error MinHeap
  | 0, minHeap => .ok minHeap
  | k + 1, minHeap =>
    match mergeOnce minHeap with
    | .error e => .error e
    | .ok h1 => mergeTimes k h1

/-- The symbols stored at the childless (terminal) nodes of a decoder tree. -/
def Tree.symbols : Tree → List Nat
  | .nil => []
  | .node g _ _ left right =>
    if isRoot left right then [g] else Tree.symbols left ++ Tree.symbols right

/-- The bits of a list read as a binary number, the first bit the most
significant. -/
def bitsVal (bits : List Nat) : Nat := bits.foldl (fun acc b => 2 * acc + b) 0

/-- The full bytes of a bit sequence `B`: for each `j < |B| / 8` the bits
`B[8j] ... B[8j+7]` read as a binary number with `B[8j]` the most significant. -/
def fullBytes (B : List Nat) : List Nat :=
  (List.range (B.length / 8)).map (fun j => bitsVal ((B.drop (8 * j)).take 8))

/-- A code-table record: symbol, code length, code value. -/
structure CodeRecord where
  g : Nat
  len : Int
  dec : Int
  deriving DecidableEq, Repr

/-- The 9 bytes of a record in the file: the symbol, then the 4 bytes of the
length, then the 4 bytes of the value. -/
def CodeRecord.bytes (r : CodeRecord) : List Nat := r.g :: (intBytes r.len ++ intBytes r.dec)

/-- The bit path of a record: the low `len` bits of `dec`, the most
significant first. -/
def CodeRecord.path (r : CodeRecord) : List Nat :=
  (List.range r.len.toNat).map
    (fun i => (r.dec % 4294967296).toNat / 2 ^ (r.len.toNat - 1 - i) % 2)

/-- A record that the file format can hold and `rebuildHuffmanTree` can
follow: a length from 0 to 32 and a value that fits an `int`. -/
def CodeRecord.Valid (r : CodeRecord) : Prop :=
  0 ≤ r.len ∧ r.len ≤ 32 ∧ -2147483648 ≤ r.dec ∧ r.dec < 2147483648

/-- The change that one round of the loop of `rebuildHuffmanTree` makes to
the tree for the record `r`. -/
def insertRecord (tree : Tree) (r : CodeRecord) : Tree :=
  insertCode tree (r.path.map (fun b => 48 + b)) r.g r.len r.dec

/-- The childless (terminal) nodes of a decoder tree: for each its bit path
from the root (0 for left, 1 for right) and the symbol it holds. -/
def Tree.terminals : Tree → List (List Nat × Nat)
  | .nil => []
  | .node g _ _ left right =>
    if isRoot left right then [([], g)]
    else (Tree.terminals left).map (fun e => (0 :: e.1, e.2))
      ++ (Tree.terminals right).map (fun e => (1 :: e.1, e.2))

/-- The record that carries the true length and bits of a code: the symbol,
the length of the path, and the path read as a binary number, held in an
`int`. -/
def trueRecord (e : Nat × List Nat) : CodeRecord := ⟨e.1, e.2.length, toInt32 (bitsVal e.2)⟩

/-- The code table of a tree: one true record per leaf, in the order of
`printCodesIntoFile`. -/
def Node.records (root : Node) : List CodeRecord := (root.leafCodes []).map trueRecord

/-- The decoder tree that mirrors a tree of `buildHuffmanTree` placed at the
path `pre`: a leaf becomes a childless node with the fields of its true
record, an internal node a node, with the fields `g0`, `len0`, `dec0` it was
created with, whose children mirror the children. -/
def Node.decoder : Node → List Nat → Nat → Int → Int → Tree
  | .nil, _, _, _, _ => .nil
  | .node character _ left right, pre, g0, len0, dec0 =>
    if isLeaf left right then .node character pre.length (toInt32 (bitsVal pre)) .nil .nil
    else .node g0 len0 dec0 (Node.decoder left (pre ++ [0]) 0 0 0)
      (Node.decoder right (pre ++ [1]) 0 0 0)

/-- The insertion of the true record of the entry `e` into the subtree that
sits `k` bits down the path of `e`. -/
def insertBelow (k : Nat) (t : Tree) (e : Nat × List Nat) : Tree :=
  insertCode t ((e.2.drop k).map (fun b => 48 + b)) e.1 e.2.length (toInt32 (bitsVal e.2))

end FileCompressor

namespace FileCompressor

/-! ## Single-symbol tables -/

/-- Packing bytes whose code is empty leaves the accumulator and the output
untouched. -/
theorem packInput_empty_code (s : Nat) (a h : Nat) (outFile : List Nat) :
    ∀ n : Nat, packInput [(s, [])] (List.replicate n s) a h outFile = .ok (a, h, outFile)
  | 0 => by simp [packInput]
  | n + 1 => by
    simp only [List.replicate_succ, packInput, CodeMap.at?, if_true, packCode]
    exact packInput_empty_code s a h outFile n

/-- At a tree that is a single terminal node the inner loop of `decompressFile`
emits its symbol until `fileLength` symbols are out, without leaving bit 0. -/
theorem decodeByte_single (s : Nat) (len dec : Int) (p : Nat) (fileLength : Int) :
    ∀ (j : Nat) (k : Int) (outFile : List Nat), k + j = fileLength →
      decodeByte (.node s len dec .nil .nil) p fileLength 0 k (.node s len dec .nil .nil) outFile
        = .ok (fileLength, .node s len dec .nil .nil, outFile ++ List.replicate j s)
  | 0, k, outFile, hk => by
    have : ¬ k < fileLength := by omega
    rw [decodeByte]
    simp only [this, and_false, if_false, List.replicate_zero, List.append_nil]
    have : k = fileLength := by omega
    rw [this]
  | j + 1, k, outFile, hk => by
    have hlt : k < fileLength := by omega
    rw [decodeByte]
    simp only [hlt, and_true, Nat.zero_lt_succ, isRoot, Tree.isNull, Bool.and_self, Bool.not_true,
      Bool.false_eq_true, if_false, if_true, Nat.lt_add_one]
    have ih := decodeByte_single s len dec p fileLength j (k + 1) (outFile ++ [s]) (by push_cast at hk ⊢; omega)
    simpa [List.replicate_succ] using ih

/-- The table part of the pipeline for a single symbol: one record of length 0
is read back as a root that is itself the terminal node. -/
theorem rebuild_single (s : Nat) :
    rebuildHuffmanTree ⟨[s, 0, 0, 0, 0, 0, 0, 0, 0, 0], false⟩ 1
      = .ok (⟨[0], false⟩, .node s 0 0 .nil .nil) := by
  have h : substrFrom (bitset32ToString 0) 0 = .ok [] := by
    simp [substrFrom, bitset32ToString]
  simp [rebuildHuffmanTree, rebuildLoop, extractCodesFromFile, IFStream.get, IFStream.read,
    intOfBytes, toInt32, h, insertCode, Tree.new]

/-- C5. Single-symbol boundary: for a table with the one entry `(s, c)` and an
input `x` of bytes `s` (non-empty or not), `buildHuffmanTree` returns a single leaf,
`printCodesIntoFile` gives `s` the empty code and writes one record of length
0, `compressFile` packs `x` (into one byte), `rebuildHuffmanTree` with size 1
makes the root the terminal node of `s`, `decompressFile` with
`fileLength = |x|` emits exactly `x`, and so does the whole of `main`. -/
theorem single_symbol_round_trip (s : Nat) (c : Int) (x code : List Nat)
    (hx : ∀ b ∈ x, b = s) :
    buildHuffmanTree [s] [c] = .ok (Node.leaf s c)
    ∧ printCodesIntoFile (Node.leaf s c) 0 ⟨[], code, []⟩
        = .ok ⟨[s, 0, 0, 0, 0, 0, 0, 0, 0], code, [(s, [])]⟩
    ∧ compressFile x [s, 0, 0, 0, 0, 0, 0, 0, 0] [(s, [])]
        = .ok [s, 0, 0, 0, 0, 0, 0, 0, 0, 0]
    ∧ rebuildHuffmanTree ⟨[s, 0, 0, 0, 0, 0, 0, 0, 0, 0], false⟩ 1
        = .ok (⟨[0], false⟩, .node s 0 0 .nil .nil)
    ∧ decompressFile ⟨[0], false⟩ [] (.node s 0 0 .nil .nil) x.length = .ok x
    ∧ mainWith [s] [c] x x.length = .ok x := by
  have hrep : x = List.replicate x.length s := List.eq_replicate_iff.mpr ⟨rfl, hx⟩
  have hbuild : buildHuffmanTree [s] [c] = .ok (Node.leaf s c) := by
    simp [buildHuffmanTree, createAndBuildMinHeap, createAndBuildMinHeapFrom, mergeLoop,
      MinHeap.push, MinHeap.top, MinHeap.popTop]
  have hprint : ∀ code0 : List Nat, printCodesIntoFile (Node.leaf s c) 0 ⟨[], code0, []⟩
      = .ok ⟨[s, 0, 0, 0, 0, 0, 0, 0, 0], code0, [(s, [])]⟩ := by
    intro code0
    simp [Node.leaf, printCodesIntoFile, printLeaf, Node.isNull, isLeaf, bitset32OfCStr, cStr,
      CodeMap.assign, intBytes, toInt32]
  have hpack : compressFile x [s, 0, 0, 0, 0, 0, 0, 0, 0] [(s, [])]
      = .ok [s, 0, 0, 0, 0, 0, 0, 0, 0, 0] := by
    rw [hrep]
    simp [compressFile, packInput_empty_code, padShift]
  have hdec : decompressFile ⟨[0], false⟩ [] (.node s 0 0 .nil .nil) x.length = .ok x := by
    have h := decodeByte_single s 0 0 0 x.length x.length 0 [] (by simp)
    simp only [decompressFile, Bool.false_eq_true, if_false, decodeLoop, h, List.nil_append]
    rw [← hrep]
  refine ⟨hbuild, hprint code, hpack, rebuild_single s, hdec, ?_⟩
  simp only [mainWith, hbuild, hprint, hpack, List.length_singleton, Nat.cast_one,
    rebuild_single, hdec]

/-- C5 at the table `a:7` and the input `"aaa"`. -/
theorem single_symbol_round_trip_witness :
    (∀ b ∈ ([97, 97, 97] : List Nat), b = 97)
    ∧ mainWith [97] [7] [97, 97, 97] 3 = .ok [97, 97, 97] :=
  ⟨by decide,
    (single_symbol_round_trip 97 7 [97, 97, 97] (List.replicate 100 0) (by decide)).2.2.2.2.2⟩

/-! ## The unpacker as a walk over bits -/

theorem bitsFrom_lt (p i : Nat) (h : i < 8) : bitsFrom p i = bitAt p i :: bitsFrom p (i + 1) := by
  have e : 8 - i = (8 - (i + 1)) + 1 := by omega
  simp only [bitsFrom]
  rw [e, List.range'_succ, List.map_cons]

theorem bitsFrom_ge (p i : Nat) (h : 8 ≤ i) : bitsFrom p i = [] := by
  have e : 8 - i = 0 := by omega
  simp [bitsFrom, e]

/-- The inner loop of `decompressFile` is the walk over the bits of the byte
from position `i` on. -/
theorem decodeByte_eq_walk (tree : Tree) (p : Nat) (fileLength : Int) :
    ∀ (m i : Nat) (k : Int) (temp : Tree) (outFile : List Nat),
      (8 - i) + (fileLength - k).toNat ≤ m →
      (decodeByte tree p fileLength i k temp outFile).map
          (fun r => ((fileLength - r.1).toNat, r.2.1, r.2.2))
        = walk tree (bitsFrom p i) (fileLength - k).toNat temp outFile := by
  intro m
  induction m with
  | zero =>
    intro i k temp outFile hm
    have hi : ¬ i < 8 := by omega
    rw [decodeByte.eq_def, bitsFrom_ge p i (by omega)]
    simp [hi, walk, Except.map]
  | succ m ih =>
    intro i k temp outFile hm
    rw [decodeByte.eq_def]
    by_cases hi : i < 8
    · by_cases hk : k < fileLength
      · obtain ⟨n, hn⟩ : ∃ n, (fileLength - k).toNat = n + 1 := ⟨(fileLength - k).toNat - 1, by omega⟩
        rw [bitsFrom_lt p i hi, hn]
        simp only [hi, hk, and_self, if_true]
        cases temp with
        | nil => simp [walk, Except.map]
        | node g len dec left right =>
          rw [walk]
          by_cases hr : isRoot left right
          · simp only [hr, Bool.not_true, Bool.false_eq_true, if_false]
            have h1 := ih i (k + 1) tree (outFile ++ [g]) (by omega)
            have e : (fileLength - (k + 1)).toNat = n := by omega
            rw [h1, e, bitsFrom_lt p i hi]
          · simp only [hr, Bool.not_false, if_true]
            have h1 := ih (i + 1) k (if bitAt p i = 0 then left else right) outFile (by omega)
            rw [h1, hn]
      · have e : (fileLength - k).toNat = 0 := by omega
        rw [bitsFrom_lt p i hi, e]
        simp [hk, walk, Except.map, e]
    · rw [bitsFrom_ge p i (by omega)]
      simp [hi, walk, Except.map]

/-- A walk over two bit sequences in a row is the walk over the first followed
by the walk over the second. -/
theorem walk_append (tree : Tree) (bs2 : List Nat) :
    ∀ (m : Nat) (bs1 : List Nat) (n : Nat) (temp : Tree) (outFile : List Nat),
      bs1.length + n ≤ m →
      walk tree (bs1 ++ bs2) n temp outFile
        = match walk tree bs1 n temp outFile with
          | .error e => .error e
          | .ok (n1, temp1, out1) => walk tree bs2 n1 temp1 out1 := by
  intro m
  induction m with
  | zero =>
    intro bs1 n temp outFile hm
    have h1 : bs1 = [] := List.length_eq_zero.mp (by omega)
    subst h1
    simp [walk]
  | succ m ih =>
    intro bs1 n temp outFile hm
    cases bs1 with
    | nil => simp [walk]
    | cons b bs =>
      cases n with
      | zero =>
        simp only [List.cons_append, walk]
        cases bs2 <;> simp [walk]
      | succ n =>
        cases temp with
        | nil => simp [walk]
        | node g len dec left right =>
          simp only [List.cons_append]
          rw [walk, walk]
          by_cases hr : isRoot left right
          · simp only [hr, Bool.not_true, Bool.false_eq_true, if_false]
            have h1 := ih (b :: bs) n tree (outFile ++ [g]) (by simp only [List.length_cons] at hm ⊢; omega)
            simpa using h1
          · simp only [hr, Bool.not_false, if_true]
            exact ih bs (n + 1) _ outFile (by simp only [List.length_cons] at hm; omega)

/-- The outer loop of `decompressFile` is the walk over the bits of the payload. -/
theorem decodeLoop_eq_walk (tree : Tree) (fileLength : Int) :
    ∀ (payload : List Nat) (k : Int) (temp : Tree) (outFile : List Nat),
      decodeLoop tree fileLength payload k temp outFile
        = (walk tree (payloadBits payload) (fileLength - k).toNat temp outFile).map (fun r => r.2.2)
  | [], k, temp, outFile => by simp [decodeLoop, payloadBits, walk, Except.map]
  | p :: rest, k, temp, outFile => by
    have hA := decodeByte_eq_walk tree p fileLength _ 0 k temp outFile (le_refl _)
    have hB := walk_append tree (payloadBits rest) _ (bitsFrom p 0) (fileLength - k).toNat temp
      outFile (le_refl _)
    have hP : payloadBits (p :: rest) = bitsFrom p 0 ++ payloadBits rest := by
      simp [payloadBits]
    rw [decodeLoop, hP, hB, ← hA]
    cases hd : decodeByte tree p fileLength 0 k temp outFile with
    | error e => simp [Except.map]
    | ok r =>
      obtain ⟨k1, temp1, out1⟩ := r
      simp only [Except.map]
      exact decodeLoop_eq_walk tree fileLength rest k1 temp1 out1

/-- The function `decompressFile` on a fresh stream is the walk over the bits
of the payload, from the root, with `fileLength` symbols to emit. -/
theorem decompressFile_eq_walk (tree : Tree) (fileLength : Int) (payload outFile : List Nat) :
    decompressFile ⟨payload, false⟩ outFile tree fileLength
      = (walk tree (payloadBits payload) fileLength.toNat tree outFile).map (fun r => r.2.2) := by
  simp only [decompressFile, Bool.false_eq_true, if_false, decodeLoop_eq_walk, sub_zero]

/-- In a tree whose non-terminal nodes have both children the walk never
meets a null pointer. -/
theorem walk_full (tree : Tree) (hT : tree.Full) :
    ∀ (m : Nat) (bs : List Nat) (n : Nat) (temp : Tree) (outFile : List Nat),
      bs.length + n ≤ m → temp.Full →
      ∃ n1 temp1 out1, walk tree bs n temp outFile = .ok (n1, temp1, out1) ∧ temp1.Full := by
  intro m
  induction m with
  | zero =>
    intro bs n temp outFile hm hF
    have h1 : bs = [] := List.length_eq_zero.mp (by omega)
    subst h1
    exact ⟨n, temp, outFile, by simp [walk], hF⟩
  | succ m ih =>
    intro bs n temp outFile hm hF
    cases bs with
    | nil => exact ⟨n, temp, outFile, by simp [walk], hF⟩
    | cons b bs =>
      cases n with
      | zero => exact ⟨0, temp, outFile, by simp [walk], hF⟩
      | succ n =>
        cases temp with
        | nil => exact absurd hF (by simp [Tree.Full])
        | node g len dec left right =>
          rw [walk]
          by_cases hr : isRoot left right
          · simp only [hr, Bool.not_true, Bool.false_eq_true, if_false]
            exact ih (b :: bs) n tree (outFile ++ [g])
              (by simp only [List.length_cons] at hm ⊢; omega) hT
          · simp only [hr, Bool.not_false, if_true]
            have hch : (if b = 0 then left else right).Full := by
              simp only [Tree.Full] at hF
              rcases hF with ⟨h1, h2⟩ | ⟨h1, h2⟩
              · subst h1; subst h2; simp [isRoot, Tree.isNull] at hr
              · split <;> assumption
            exact ih bs (n + 1) _ outFile (by simp only [List.length_cons] at hm; omega) hch

/-- One code word followed by at least one more bit: the walk emits its symbol
and is back at the root. -/
theorem walk_word (tree : Tree) (more : List Nat) (hmore : more ≠ []) (n : Nat) (g : Nat) :
    ∀ (w : List Nat) (temp : Tree) (outFile : List Nat), temp.symbolAt w = some g →
      walk tree (w ++ more) (n + 1) temp outFile = walk tree more n tree (outFile ++ [g])
  | _, .nil, _, h => by simp [Tree.symbolAt] at h
  | [], .node g0 len dec left right, outFile, h => by
    obtain ⟨b, bs, rfl⟩ := List.exists_cons_of_ne_nil hmore
    simp only [Tree.symbolAt] at h
    by_cases hr : isRoot left right
    · simp only [hr, if_true, Option.some.injEq] at h
      subst h
      rw [List.nil_append, walk]
      simp [hr]
    · simp [hr] at h
  | b :: w, .node g0 len dec left right, outFile, h => by
    simp only [Tree.symbolAt] at h
    by_cases hr : isRoot left right
    · simp [hr] at h
    · simp only [hr, Bool.false_eq_true, if_false] at h
      rw [List.cons_append, walk]
      simp only [hr, Bool.not_false, if_true]
      exact walk_word tree more hmore n g w _ outFile h

/-- A run of code words followed by at least one more bit: the walk emits the
symbol of each word. -/
theorem walk_words (tree : Tree) (more : List Nat) (hmore : more ≠ []) :
    ∀ (ws : List (List Nat)) (syms : List Nat) (outFile : List Nat),
      List.Forall₂ (fun w g => tree.symbolAt w = some g) ws syms →
      walk tree (ws.flatten ++ more) ws.length tree outFile = .ok (0, tree, outFile ++ syms)
  | [], _, outFile, h => by
    cases h
    obtain ⟨b, bs, rfl⟩ := List.exists_cons_of_ne_nil hmore
    simp [walk]
  | w :: ws, _, outFile, h => by
    cases h with
    | cons hw hws =>
      rename_i g syms
      have hne : ws.flatten ++ more ≠ [] := by simp [hmore]
      rw [List.flatten_cons, List.append_assoc, List.length_cons,
        walk_word tree _ hne ws.length g w tree outFile hw,
        walk_words tree more hmore ws syms (outFile ++ [g]) hws]
      simp

/-! ## The unpacker: truncation, symbol count, bit order -/

/-- C6, as stated, fails: on the empty payload with `fileLength = 1` the
function `decompressFile` does not fail, it returns the empty output. -/
theorem truncated_payload_not_detected :
    decompressFile ⟨[], false⟩ []
      (.node 0 0 0 (.node 97 1 0 .nil .nil) (.node 98 1 1 .nil .nil)) 1 = .ok [] := by
  simp [decompressFile, decodeLoop]

/-- C6, amended: for every decoder tree whose non-terminal nodes have both
children, every `fileLength` and every payload, also one that is exhausted
before `fileLength` symbols are out, `decompressFile` returns normally: its
result is the output of the tree walk over the bits of the payload, whatever
count `n` of symbols is still missing at the end. -/
theorem decompress_returns_on_any_payload (tree : Tree) (fileLength : Int)
    (payload outFile : List Nat) (hT : tree.Full) :
    ∃ n temp out, walk tree (payloadBits payload) fileLength.toNat tree outFile = .ok (n, temp, out)
      ∧ decompressFile ⟨payload, false⟩ outFile tree fileLength = .ok out := by
  obtain ⟨n, temp, out, h, -⟩ :=
    walk_full tree hT _ (payloadBits payload) fileLength.toNat tree outFile (le_refl _) hT
  exact ⟨n, temp, out, h, by rw [decompressFile_eq_walk, h]; rfl⟩

/-- C6, amended, at the two-leaf tree, the empty payload and `fileLength = 1`. -/
theorem decompress_returns_on_any_payload_witness :
    ∃ n temp out,
      walk (.node 0 0 0 (.node 97 1 0 .nil .nil) (.node 98 1 1 .nil .nil)) (payloadBits [])
          (1 : Int).toNat (.node 0 0 0 (.node 97 1 0 .nil .nil) (.node 98 1 1 .nil .nil)) []
        = .ok (n, temp, out)
      ∧ decompressFile ⟨[], false⟩ []
          (.node 0 0 0 (.node 97 1 0 .nil .nil) (.node 98 1 1 .nil .nil)) 1 = .ok out :=
  decompress_returns_on_any_payload _ 1 [] [] (by simp [Tree.Full])

/-- C7, as stated, fails: the payload `0x00` holds eight code words `0` of the
symbol `a`, and with `fileLength = 8` only seven symbols are emitted. -/
theorem last_code_word_on_last_bit_lost :
    payloadBits [0] = List.flatten (List.replicate 8 [0])
    ∧ Tree.symbolAt (.node 0 0 0 (.node 97 1 0 .nil .nil) (.node 98 1 1 .nil .nil)) [0] = some 97
    ∧ decompressFile ⟨[0], false⟩ []
        (.node 0 0 0 (.node 97 1 0 .nil .nil) (.node 98 1 1 .nil .nil)) 8
      = .ok [97, 97, 97, 97, 97, 97, 97] := by
  refine ⟨by decide, by decide, ?_⟩
  simp [decompressFile, decodeLoop, decodeByte, isRoot, Tree.isNull, bitAt]

/-- C7, amended: when the bits of the payload, in the order the unpacker reads
them, are `M` code words of the tree followed by at least one more bit,
`decompressFile` with `fileLength = M` emits exactly the `M` symbols of these
words. -/
theorem decompress_emits_all_words (tree : Tree) (payload outFile : List Nat)
    (ws : List (List Nat)) (syms more : List Nat)
    (hws : List.Forall₂ (fun w g => tree.symbolAt w = some g) ws syms)
    (hbits : payloadBits payload = ws.flatten ++ more) (hmore : more ≠ []) :
    decompressFile ⟨payload, false⟩ outFile tree ws.length = .ok (outFile ++ syms)
    ∧ syms.length = ws.length := by
  refine ⟨?_, hws.length_eq.symm⟩
  rw [decompressFile_eq_walk, hbits, Int.toNat_ofNat, walk_words tree more hmore ws syms outFile hws]
  rfl

/-- C7, amended, at the two-leaf tree and the payload `0x00 0x00` with eight
code words `0`: all eight symbols are emitted. -/
theorem decompress_emits_all_words_witness :
    decompressFile ⟨[0, 0], false⟩ []
        (.node 0 0 0 (.node 97 1 0 .nil .nil) (.node 98 1 1 .nil .nil))
        (List.replicate 8 [0]).length
      = .ok ([] ++ List.replicate 8 97)
    ∧ (List.replicate 8 97).length = (List.replicate 8 [0]).length :=
  decompress_emits_all_words _ [0, 0] [] (List.replicate 8 [0]) (List.replicate 8 97)
    (bitsFrom 0 0) (by simp [List.replicate, Tree.symbolAt, isRoot, Tree.isNull])
    (by decide) (by decide)

/-- C8 fails on the code: on the payload `0x80 0x00` with `fileLength = 1` the
first bit read is bit 0 of `0x80`, a 0, and the output is `a`, where the
most-significant-first order of `compressFile` gives `b`. -/
theorem decompress_reads_least_significant_bit_first :
    bitAt 128 0 = 0 ∧ bitAt 128 7 = 1
    ∧ decompressFile ⟨[128, 0], false⟩ []
        (.node 0 0 0 (.node 97 1 0 .nil .nil) (.node 98 1 1 .nil .nil)) 1 = .ok [97] := by
  refine ⟨by decide, by decide, ?_⟩
  simp [decompressFile, decodeLoop, decodeByte, isRoot, Tree.isNull, bitAt]

/-! ## The packer: padding and payload size -/

/-- C9 fails on the code: with the mapping `a ↦ 1` and the input `"a"` the
final byte is `0x40`: the one code bit sits in bit 6, not in bit 7. -/
theorem final_byte_shifted_one_short :
    compressFile [97] [] [(97, [1])] = .ok [64] := by
  simp [compressFile, packInput, packCode, padShift, CodeMap.at?]

/-- The bytes put and the bit count kept by the inner loop of `compressFile`. -/
theorem packCode_length :
    ∀ (code : List Nat) (a h : Nat) (outFile : List Nat), h ≤ 7 →
      (packCode code a h outFile).2.2.length = outFile.length + (h + code.length) / 8
      ∧ (packCode code a h outFile).2.1 = (h + code.length) % 8
  | [], a, h, outFile, hh => by
    simp only [packCode, List.length_nil, Nat.add_zero]
    omega
  | bit :: code, a, h, outFile, hh => by
    simp only [packCode, List.length_cons]
    by_cases h7 : h < 7
    · simp only [h7, if_true]
      have ih := packCode_length code ((a <<< 1 ||| bit) % 256) (h + 1) outFile (by omega)
      rw [ih.1, ih.2]
      constructor <;> congr 1 <;> omega
    · simp only [h7, if_false]
      have ih := packCode_length code 0 0 (outFile ++ [(a <<< 1 ||| bit) % 256]) (by omega)
      rw [ih.1, ih.2, List.length_append, List.length_singleton]
      have e : h = 7 := by omega
      subst e
      omega

/-- The bytes put and the bit count kept by the main loop of `compressFile`. -/
theorem packInput_length (huffmanCode : CodeMap) :
    ∀ (inFile : List Nat) (a h : Nat) (outFile B : List Nat), h ≤ 7 →
      codeBits huffmanCode inFile = some B →
      ∃ a1 h1 out1, packInput huffmanCode inFile a h outFile = .ok (a1, h1, out1)
        ∧ out1.length = outFile.length + (h + B.length) / 8 ∧ h1 = (h + B.length) % 8
  | [], a, h, outFile, B, hh, hB => by
    simp only [codeBits, Option.some.injEq] at hB
    subst hB
    refine ⟨a, h, outFile, by simp [packInput], ?_, ?_⟩ <;> simp only [List.length_nil] <;> omega
  | n :: inFile, a, h, outFile, B, hh, hB => by
    simp only [codeBits] at hB
    cases hc : huffmanCode.at? n with
    | none => simp [hc] at hB
    | some code =>
      cases hr : codeBits huffmanCode inFile with
      | none => simp [hc, hr] at hB
      | some rest =>
        simp only [hc, hr, Option.some.injEq] at hB
        subst hB
        have h1 := packCode_length code a h outFile hh
        obtain ⟨a2, h2, out2, e2, l2, m2⟩ := packInput_length huffmanCode inFile
          (packCode code a h outFile).1 (packCode code a h outFile).2.1
          (packCode code a h outFile).2.2 rest (by rw [h1.2]; omega) hr
        refine ⟨a2, h2, out2, by simp only [packInput, hc]; exact e2, ?_, ?_⟩
        · rw [l2, h1.1, h1.2, List.length_append]; omega
        · rw [m2, h1.2, List.length_append]; omega

/-- C10, as stated, fails: with the mapping `a ↦ 0` and eight bytes `a` the
payload has 2 bytes, not 1: after the byte of the eight code bits a final
byte `0x00` is put. -/
theorem extra_byte_on_full_last_byte :
    codeBits [(97, [0])] [97, 97, 97, 97, 97, 97, 97, 97] = some [0, 0, 0, 0, 0, 0, 0, 0]
    ∧ compressFile [97, 97, 97, 97, 97, 97, 97, 97] [] [(97, [0])] = .ok [0, 0] := by
  refine ⟨by decide, ?_⟩
  simp [compressFile, packInput, packCode, padShift, CodeMap.at?]

/-- C10, amended: for every input and mapping covering it, with `T` the total
number of code bits, `compressFile` puts one byte per 8 accumulated bits and
then always one final byte: it appends exactly `T / 8 + 1` bytes to `outFile`. -/
theorem payload_size (huffmanCode : CodeMap) (inFile outFile B : List Nat)
    (hB : codeBits huffmanCode inFile = some B) :
    ∃ out, compressFile inFile outFile huffmanCode = .ok out
      ∧ out.length = outFile.length + (B.length / 8 + 1) := by
  obtain ⟨a1, h1, out1, e, l, -⟩ := packInput_length huffmanCode inFile 0 0 outFile B (by omega) hB
  refine ⟨out1 ++ [padShift (7 - h1) a1], by simp only [compressFile, e], ?_⟩
  rw [List.length_append, List.length_singleton, l]
  omega

/-- C10, amended, at the mapping `a ↦ 0` and eight bytes `a`: 2 bytes. -/
theorem payload_size_witness :
    ∃ out, compressFile [97, 97, 97, 97, 97, 97, 97, 97] [] [(97, [0])] = .ok out
      ∧ out.length = ([] : List Nat).length + (([0, 0, 0, 0, 0, 0, 0, 0] : List Nat).length / 8 + 1) :=
  payload_size [(97, [0])] [97, 97, 97, 97, 97, 97, 97, 97] [] [0, 0, 0, 0, 0, 0, 0, 0] (by decide)

/-! ## The example table of `main` -/

theorem buildHuffmanTree_example :
    buildHuffmanTree [97, 98, 99, 100, 101, 102] [5, 9, 12, 13, 16, 45] = .ok exampleRoot := by
  simp [buildHuffmanTree, createAndBuildMinHeap, createAndBuildMinHeapFrom, mergeLoop,
    MinHeap.push, MinHeap.top, MinHeap.popTop, Compare, Node.getFreq, Node.leaf, exampleRoot,
    addInt]

theorem printCodes_example :
    printCodesIntoFile exampleRoot 0 ⟨[], List.replicate 100 0, []⟩
      = .error (.invalidArgument, exampleEnd) := by
  simp [exampleRoot, exampleEnd, Node.leaf, printCodesIntoFile, printLeaf, Node.isNull, isLeaf,
    bitset32OfCStr, cStr, CodeMap.assign, intBytes, toInt32, List.replicate]

/-- C4 fails on the code: for the table `a:5, b:9, c:12, d:13, e:16, f:45`
`printCodesIntoFile` writes the record of `f` (code 0), then the symbol and
the length of `c` (code 100), and throws `std::invalid_argument` when it
converts the code of `c`: no table is left to read back. -/
theorem example_table_not_written :
    ∃ root, buildHuffmanTree [97, 98, 99, 100, 101, 102] [5, 9, 12, 13, 16, 45] = .ok root
      ∧ printCodesIntoFile root 0 ⟨[], List.replicate 100 0, []⟩
        = .error (.invalidArgument,
            ⟨[102, 1, 0, 0, 0, 0, 0, 0, 0, 99, 3, 0, 0, 0], 1 :: List.replicate 99 0,
              [(102, [0]), (99, [1, 0, 0])]⟩) :=
  ⟨exampleRoot, buildHuffmanTree_example, printCodes_example⟩

/-- C1 fails on the code: with the table `a:5, b:9, c:12, d:13, e:16, f:45`,
the input `"abcdef"` and `fileLength = 6` the run ends with the exception
`std::invalid_argument` thrown in `printCodesIntoFile`; nothing is decoded. -/
theorem example_round_trip_throws :
    mainWith [97, 98, 99, 100, 101, 102] [5, 9, 12, 13, 16, 45] [97, 98, 99, 100, 101, 102] 6
      = .error .invalidArgument := by
  simp only [mainWith, buildHuffmanTree_example, printCodes_example]

/-! ## The code mapping filled by `printCodesIntoFile` -/

theorem take_succ_set (a : Nat) : ∀ (l : List Nat) (i : Nat), i < l.length →
    (l.set i a).take (i + 1) = l.take i ++ [a]
  | [], _, h => by simp at h
  | _ :: l, 0, _ => by simp
  | x :: l, i + 1, h => by
    simp only [List.set_cons_succ, List.take_succ_cons, List.cons_append, List.cons.injEq, true_and]
    exact take_succ_set a l i (by simpa using h)

theorem take_of_take_succ {l1 : List Nat} {i : Nat} {p : List Nat} {a : Nat}
    (h1 : l1.take (i + 1) = p ++ [a]) (hp : p.length = i) : l1.take i = p := by
  have h := congrArg (List.take i) h1
  rw [List.take_take, Nat.min_eq_left (Nat.le_succ i)] at h
  rw [h, List.take_append_of_le_length (by omega), ← hp, List.take_length]

/-- An entry of the map after a run of assignments was assigned in the run or
was there before. -/
theorem CodeMap.at?_assign (m : CodeMap) (k : Nat) (v : List Nat) (k1 : Nat) :
    (m.assign k v).at? k1 = if k = k1 then some v else m.at? k1 := by
  induction m with
  | nil => simp [CodeMap.assign, CodeMap.at?]
  | cons e m ih =>
    obtain ⟨k0, v0⟩ := e
    by_cases h0 : k0 = k
    · subst h0
      by_cases h1 : k0 = k1 <;> simp [CodeMap.assign, CodeMap.at?, h1]
    · simp only [CodeMap.assign, h0, if_false, CodeMap.at?, ih]
      by_cases h1 : k0 = k1
      · have : ¬ k = k1 := fun e => h0 (h1.trans e.symm)
        simp [h1, this]
      · simp [h1]

theorem CodeMap.at?_assignAll (entries : List (Nat × List Nat)) :
    ∀ (m : CodeMap) (k : Nat) (v : List Nat), (m.assignAll entries).at? k = some v →
      (k, v) ∈ entries ∨ m.at? k = some v := by
  induction entries with
  | nil => intro m k v h; exact Or.inr h
  | cons e entries ih =>
    intro m k v h
    simp only [CodeMap.assignAll, List.foldl_cons] at h
    rcases ih _ k v h with h1 | h1
    · exact Or.inl (List.mem_cons_of_mem _ h1)
    · rw [CodeMap.at?_assign] at h1
      by_cases hk : e.1 = k
      · simp only [hk, if_true, Option.some.injEq] at h1
        left
        rw [← hk, ← h1]
        exact List.mem_cons_self _ _
      · simp only [hk, if_false] at h1
        exact Or.inr h1

theorem CodeMap.assignAll_append (m : CodeMap) (e1 e2 : List (Nat × List Nat)) :
    m.assignAll (e1 ++ e2) = (m.assignAll e1).assignAll e2 := by
  simp [CodeMap.assignAll, List.foldl_append]

/-- Every path of `leafCodes` extends the path given. -/
theorem Node.leafCodes_prefix : ∀ (t : Node) (path : List Nat) (a : Nat) (ca : List Nat),
    (a, ca) ∈ t.leafCodes path → path <+: ca
  | .nil, _, _, _, h => by simp [Node.leafCodes] at h
  | .node c f left right, path, a, ca, h => by
    simp only [Node.leafCodes] at h
    split at h
    · simp only [List.mem_singleton, Prod.mk.injEq] at h
      rw [h.2]
    · rcases List.mem_append.mp h with h1 | h1
      · exact (List.prefix_append path [0]).trans (Node.leafCodes_prefix left _ a ca h1)
      · exact (List.prefix_append path [1]).trans (Node.leafCodes_prefix right _ a ca h1)

/-- Two leaves of a tree of which one has a path that is a prefix of the
path of the other are the same leaf. -/
theorem Node.leafCodes_prefix_free : ∀ (t : Node) (path : List Nat) (a b : Nat) (ca cb : List Nat),
    (a, ca) ∈ t.leafCodes path → (b, cb) ∈ t.leafCodes path → ca <+: cb → a = b
  | .nil, _, _, _, _, _, h, _, _ => by simp [Node.leafCodes] at h
  | .node c f left right, path, a, b, ca, cb, ha, hb, hpre => by
    simp only [Node.leafCodes] at ha hb
    by_cases hl : isLeaf left right
    · simp only [hl, if_true, List.mem_singleton, Prod.mk.injEq] at ha hb
      rw [ha.1, hb.1]
    · simp only [hl, Bool.false_eq_true, if_false] at ha hb
      have hdiff : ∀ (x y : List Nat), path ++ [0] <+: x → path ++ [1] <+: y →
          ¬ x <+: y ∧ ¬ y <+: x := by
        intro x y hx hy
        constructor
        · intro hxy
          have h1 := List.prefix_of_prefix_length_le (hx.trans hxy) hy (by simp)
          have := List.IsPrefix.eq_of_length h1 (by simp)
          simp at this
        · intro hyx
          have h1 := List.prefix_of_prefix_length_le hx (hy.trans hyx) (by simp)
          have := List.IsPrefix.eq_of_length h1 (by simp)
          simp at this
      rcases List.mem_append.mp ha with ha1 | ha1 <;> rcases List.mem_append.mp hb with hb1 | hb1
      · exact Node.leafCodes_prefix_free left _ a b ca cb ha1 hb1 hpre
      · exact absurd hpre (hdiff ca cb (Node.leafCodes_prefix left _ a ca ha1)
          (Node.leafCodes_prefix right _ b cb hb1)).1
      · exact absurd hpre (hdiff cb ca (Node.leafCodes_prefix left _ b cb hb1)
          (Node.leafCodes_prefix right _ a ca ha1)).2
      · exact Node.leafCodes_prefix_free right _ a b ca cb ha1 hb1 hpre

/-- The step `if (root->child) { code[top] = bit; printCodesIntoFile(child, top + 1); }`. -/
theorem child_traces (child : Node) (bit top : Nat) (s : PrintState)
    (ih : ∀ (top : Nat) (s : PrintState), top ≤ s.code.length →
      Traces child (s.code.take top) top s (printCodesIntoFile child top s)) :
    Traces child (s.code.take top ++ [bit]) top s
      (if child.isNull then .ok s
       else if s.code.length ≤ top then .error (.outOfBounds, s)
       else printCodesIntoFile child (top + 1) { s with code := s.code.set top bit }) := by
  cases child with
  | nil => exact ⟨rfl, rfl, [], by simp [Node.leafCodes], rfl, by simp [Node.leafCodes]⟩
  | node c f l r =>
    simp only [Node.isNull, Bool.false_eq_true, if_false]
    by_cases hlen : s.code.length ≤ top
    · simp only [hlen, if_true]
      exact ⟨rfl, rfl, [], List.nil_prefix, rfl, by simp⟩
    · simp only [hlen, if_false]
      have hlt : top < s.code.length := by omega
      obtain ⟨h1, h2, done, h3, h4, h5⟩ := ih (top + 1) { s with code := s.code.set top bit }
        (by simp only [List.length_set]; omega)
      simp only [List.length_set, take_succ_set bit s.code top hlt] at h1 h2 h3 h4 h5
      refine ⟨h1, ?_, done, h3, h4, h5⟩
      exact take_of_take_succ h2 (by rw [List.length_take]; omega)

/-- The function `printCodesIntoFile` assigns to `huffmanCode` the codes of the
leaves of `root`, in traversal order, up to the point where it ends. -/
theorem printCodes_traces : ∀ (root : Node) (top : Nat) (s : PrintState), top ≤ s.code.length →
    Traces root (s.code.take top) top s (printCodesIntoFile root top s)
  | .nil, top, s, _ => ⟨rfl, rfl, [], by simp [Node.leafCodes], rfl, by simp [Node.leafCodes]⟩
  | .node c f left right, top, s, htop => by
    have hL := child_traces left 0 top s (printCodes_traces left)
    by_cases hleaf : isLeaf left right
    · have hl : left = .nil := by
        cases left <;> simp_all [isLeaf, Node.isNull]
      have hr : right = .nil := by
        cases right <;> simp_all [isLeaf, Node.isNull]
      subst hl; subst hr
      have hlen : ¬ s.code.length < top := by omega
      simp only [printCodesIntoFile, Node.isNull, if_true, isLeaf, Bool.and_self, printLeaf, hlen,
        if_false, Traces, Node.leafCodes]
      cases bitset32OfCStr (cStr (List.take top s.code)) with
      | error e =>
        exact ⟨rfl, rfl, [(c, s.code.take top)], List.prefix_refl _, rfl, by simp⟩
      | ok v =>
        exact ⟨rfl, rfl, [(c, s.code.take top)], List.prefix_refl _, rfl, by simp⟩
    · simp only [printCodesIntoFile, hleaf, Bool.false_eq_true, if_false]
      simp only [Traces, Node.leafCodes, hleaf, Bool.false_eq_true, if_false]
      generalize hr1 : (if left.isNull then Except.ok s
         else if s.code.length ≤ top then Except.error (Error.outOfBounds, s)
         else printCodesIntoFile left (top + 1) { s with code := s.code.set top 0 }) = r1 at hL ⊢
      obtain ⟨h1, h2, done1, h3, h4, h5⟩ := hL
      cases r1 with
      | error e =>
        exact ⟨h1, h2, done1, h3.trans (List.prefix_append _ _), h4, by simp⟩
      | ok s1 =>
        simp only [finalState] at h1 h2 h4
        have hR := child_traces right 1 top s1 (printCodes_traces right)
        rw [h2] at hR
        simp only
        generalize hr2 : (if right.isNull then Except.ok s1
           else if s1.code.length ≤ top then Except.error (Error.outOfBounds, s1)
           else printCodesIntoFile right (top + 1) { s1 with code := s1.code.set top 1 }) = r2
           at hR ⊢
        obtain ⟨g1, g2, done2, g3, g4, g5⟩ := hR
        have hd1 := h5 s1 rfl
        subst hd1
        cases r2 with
        | error e =>
          refine ⟨g1.trans h1, g2.trans h2, _ ++ done2, (List.prefix_append_right_inj _).mpr g3, ?_,
            by simp⟩
          rw [CodeMap.assignAll_append, ← h4]
          exact g4
        | ok s2 =>
          refine ⟨g1.trans h1, g2.trans h2, _ ++ done2, (List.prefix_append_right_inj _).mpr g3, ?_,
            ?_⟩
          · rw [CodeMap.assignAll_append, ← h4]
            exact g4
          · intro _ _
            rw [g5 s2 rfl]

/-- Two entries of the map that `printCodesIntoFile` leaves, when it starts
with an empty map, are codes of two leaves of the tree: for distinct symbols
neither is a prefix of the other. -/
theorem huffmanCode_entries_prefix_free (root : Node) (outFile code : List Nat)
    (a b : Nat) (ca cb : List Nat) (hab : a ≠ b)
    (ha : (finalState (printCodesIntoFile root 0 ⟨outFile, code, []⟩)).huffmanCode.at? a = some ca)
    (hb : (finalState (printCodesIntoFile root 0 ⟨outFile, code, []⟩)).huffmanCode.at? b = some cb) :
    ¬ ca <+: cb := by
  obtain ⟨-, -, done, h3, h4, -⟩ := printCodes_traces root 0 ⟨outFile, code, []⟩ (Nat.zero_le _)
  simp only [List.take_zero] at h3 h4
  rw [h4] at ha hb
  have ha1 : (a, ca) ∈ root.leafCodes [] := by
    rcases CodeMap.at?_assignAll done [] a ca ha with h | h
    · exact h3.subset h
    · simp [CodeMap.at?] at h
  have hb1 : (b, cb) ∈ root.leafCodes [] := by
    rcases CodeMap.at?_assignAll done [] b cb hb with h | h
    · exact h3.subset h
    · simp [CodeMap.at?] at h
  exact fun hpre => hab (Node.leafCodes_prefix_free root [] a b ca cb ha1 hb1 hpre)

/-! ## The priority queue -/

/-- Popping yields an element of the queue and leaves the others. -/
theorem MinHeap.popTop_perm :
    ∀ (h : MinHeap) (x : Node) (r : MinHeap), MinHeap.popTop h = some (x, r) →
      List.Perm h (x :: r)
  | [], _, _, e => by simp [MinHeap.popTop] at e
  | a :: xs, x, r, e => by
    unfold MinHeap.popTop at e
    cases hp : MinHeap.popTop xs with
    | none =>
      rw [hp] at e
      simp only [Option.some.injEq, Prod.mk.injEq] at e
      obtain ⟨rfl, rfl⟩ := e
      have hl := MinHeap.popTop_length xs
      cases xs with
      | nil => exact List.Perm.refl _
      | cons b ys =>
        exfalso
        unfold MinHeap.popTop at hp
        cases hq : MinHeap.popTop ys with
        | none => rw [hq] at hp; simp at hp
        | some q =>
          rw [hq] at hp
          obtain ⟨y, rest⟩ := q
          by_cases c : Compare b y <;> simp [c] at hp
    | some q =>
      obtain ⟨y, rest⟩ := q
      rw [hp] at e
      have ih := MinHeap.popTop_perm xs y rest hp
      by_cases c : Compare a y
      · simp only [c, if_true, Option.some.injEq, Prod.mk.injEq] at e
        obtain ⟨rfl, rfl⟩ := e
        exact (List.Perm.cons a ih).trans (List.Perm.swap _ _ _)
      · simp only [c, Bool.false_eq_true, if_false, Option.some.injEq, Prod.mk.injEq] at e
        obtain ⟨rfl, rfl⟩ := e
        exact List.Perm.refl _

/-- The element popped has the least frequency of the queue. -/
theorem MinHeap.popTop_min :
    ∀ (h : MinHeap) (x : Node) (r : MinHeap), MinHeap.popTop h = some (x, r) →
      ∀ y ∈ h, x.getFreq ≤ y.getFreq
  | [], _, _, e => by simp [MinHeap.popTop] at e
  | a :: xs, x, r, e => by
    unfold MinHeap.popTop at e
    cases hp : MinHeap.popTop xs with
    | none =>
      rw [hp] at e
      simp only [Option.some.injEq, Prod.mk.injEq] at e
      obtain ⟨rfl, rfl⟩ := e
      cases xs with
      | nil => intro y hy; simp only [List.mem_singleton] at hy; rw [hy]
      | cons b ys =>
        exfalso
        unfold MinHeap.popTop at hp
        cases hq : MinHeap.popTop ys with
        | none => rw [hq] at hp; simp at hp
        | some q =>
          rw [hq] at hp
          obtain ⟨y, rest⟩ := q
          by_cases c : Compare b y <;> simp [c] at hp
    | some q =>
      obtain ⟨y, rest⟩ := q
      rw [hp] at e
      have ih := MinHeap.popTop_min xs y rest hp
      by_cases c : Compare a y
      · simp only [c, if_true, Option.some.injEq, Prod.mk.injEq] at e
        obtain ⟨rfl, rfl⟩ := e
        simp only [Compare, gt_iff_lt, decide_eq_true_eq] at c
        intro z hz
        rcases List.mem_cons.mp hz with rfl | hz
        · exact le_of_lt c
        · exact ih z hz
      · simp only [c, Bool.false_eq_true, if_false, Option.some.injEq, Prod.mk.injEq] at e
        obtain ⟨rfl, rfl⟩ := e
        simp only [Compare, gt_iff_lt, decide_eq_true_eq, not_lt] at c
        intro z hz
        rcases List.mem_cons.mp hz with rfl | hz
        · exact le_refl _
        · exact le_trans c (ih z hz)

/-- A queue that is not empty can be popped. -/
theorem MinHeap.popTop_isSome : ∀ (h : MinHeap), h ≠ [] → ∃ x r, MinHeap.popTop h = some (x, r)
  | [], hne => absurd rfl hne
  | a :: xs, _ => by
    unfold MinHeap.popTop
    cases hp : MinHeap.popTop xs with
    | none => exact ⟨_, _, rfl⟩
    | some q =>
      obtain ⟨y, rest⟩ := q
      by_cases c : Compare a y
      · exact ⟨y, a :: rest, by simp [c]⟩
      · exact ⟨a, xs, by simp [c]⟩

/-! ## Kraft sums and the exchange argument -/

theorem kraft_cons (l : Nat) (L : List Nat) : kraft (l :: L) = (1 / 2 : ℚ) ^ l + kraft L := by
  simp [kraft]

theorem kraft_perm {L1 L2 : List Nat} (h : List.Perm L1 L2) : kraft L1 = kraft L2 :=
  (h.map _).sum_eq

theorem wsum_cons (w : Int) (l : Nat) (P : List (Int × Nat)) :
    wsum ((w, l) :: P) = w * (l : Int) + wsum P := by
  simp [wsum]

theorem wsum_perm {P1 P2 : List (Int × Nat)} (h : List.Perm P1 P2) : wsum P1 = wsum P2 :=
  (h.map _).sum_eq

theorem half_pow_mul (l D : Nat) (h : l ≤ D) : (1 / 2 : ℚ) ^ l * 2 ^ D = 2 ^ (D - l) := by
  obtain ⟨k, rfl⟩ := Nat.exists_eq_add_of_le h
  rw [Nat.add_sub_cancel_left, pow_add, ← mul_assoc, ← mul_pow]
  norm_num

/-- Scaled by a power of two that bounds the lengths, a Kraft sum is a
natural number. -/
theorem kraft_scaled (D : Nat) : ∀ (L : List Nat), (∀ l ∈ L, l ≤ D) →
    ∃ n : Nat, kraft L * 2 ^ D = (n : ℚ)
  | [], _ => ⟨0, by simp [kraft]⟩
  | l :: L, h => by
    obtain ⟨n, hn⟩ := kraft_scaled D L (fun x hx => h x (List.mem_cons_of_mem _ hx))
    refine ⟨2 ^ (D - l) + n, ?_⟩
    rw [kraft_cons, add_mul, hn, half_pow_mul l D (h l (List.mem_cons_self _ _))]
    push_cast
    ring

/-- The longest length can be given to the least weight without raising the
weighted length. -/
theorem bubble_max : ∀ (P : List (Int × Nat)) (w : Int) (l : Nat), (∀ e ∈ P, w ≤ e.1) →
    ∃ (l1 : Nat) (P1 : List (Int × Nat)), P1.map Prod.fst = P.map Prod.fst
      ∧ List.Perm (l1 :: P1.map Prod.snd) (l :: P.map Prod.snd)
      ∧ (∀ e ∈ P1, e.2 ≤ l1) ∧ w * (l1 : Int) + wsum P1 ≤ w * (l : Int) + wsum P
  | [], w, l, _ => ⟨l, [], rfl, List.Perm.refl _, by simp, le_refl _⟩
  | (r, lr) :: Q, w, l, h => by
    obtain ⟨l1, Q1, h1, h2, h3, h4⟩ :=
      bubble_max Q w l (fun e he => h e (List.mem_cons_of_mem _ he))
    have hr : w ≤ r := h (r, lr) (List.mem_cons_self _ _)
    by_cases hc : lr ≤ l1
    · refine ⟨l1, (r, lr) :: Q1, by simp [h1], ?_, ?_, ?_⟩
      · simp only [List.map_cons]
        exact (List.Perm.swap _ _ _).trans ((h2.cons lr).trans (List.Perm.swap _ _ _))
      · intro e he
        rcases List.mem_cons.mp he with rfl | he
        · exact hc
        · exact h3 e he
      · rw [wsum_cons, wsum_cons]
        linarith
    · have hlt : l1 < lr := Nat.lt_of_not_le hc
      refine ⟨lr, (r, l1) :: Q1, by simp [h1], ?_, ?_, ?_⟩
      · simp only [List.map_cons]
        exact (h2.cons lr).trans (List.Perm.swap _ _ _)
      · intro e he
        rcases List.mem_cons.mp he with rfl | he
        · exact le_of_lt hlt
        · exact le_trans (h3 e he) (le_of_lt hlt)
      · rw [wsum_cons, wsum_cons]
        have h5 : (0 : Int) ≤ (r - w) * ((lr : Int) - (l1 : Int)) :=
          mul_nonneg (by linarith) (by have : (l1 : Int) < lr := by exact_mod_cast hlt
                                       linarith)
        nlinarith

/-- Two longest lengths `la ≥ lb` of a Kraft-bounded list can be replaced by
the one length `lb - 1`. -/
theorem kraft_merge (la lb : Nat) (L : List Nat) (hL : ∀ l ∈ L, l ≤ lb)
    (hk : kraft (la :: lb :: L) ≤ 1) : 1 ≤ lb ∧ kraft ((lb - 1) :: L) ≤ 1 := by
  obtain ⟨n, hn⟩ := kraft_scaled lb L hL
  have hpos : (0 : ℚ) < 2 ^ lb := by positivity
  have hla : (0 : ℚ) < (1 / 2 : ℚ) ^ la := by positivity
  rw [kraft_cons, kraft_cons] at hk
  have h1 : ((1 / 2 : ℚ) ^ la + ((1 / 2 : ℚ) ^ lb + kraft L)) * 2 ^ lb ≤ 1 * 2 ^ lb :=
    mul_le_mul_of_nonneg_right hk (le_of_lt hpos)
  rw [add_mul, add_mul, hn, half_pow_mul lb lb (le_refl _), Nat.sub_self, pow_zero, one_mul] at h1
  have h2 : (0 : ℚ) < (1 / 2 : ℚ) ^ la * 2 ^ lb := mul_pos hla hpos
  have h3 : ((n : ℚ) + 1) < 2 ^ lb := by linarith
  have h4 : n + 1 < 2 ^ lb := by exact_mod_cast h3
  have hlb : 1 ≤ lb := by
    rcases Nat.eq_zero_or_pos lb with h0 | h0
    · rw [h0] at h4; simp at h4
    · exact h0
  refine ⟨hlb, ?_⟩
  rw [kraft_cons]
  have h5 : ((1 / 2 : ℚ) ^ (lb - 1) + kraft L) * 2 ^ lb ≤ 1 * 2 ^ lb := by
    rw [add_mul, hn, half_pow_mul (lb - 1) lb (Nat.sub_le _ _), one_mul]
    have e : lb - (lb - 1) = 1 := by omega
    rw [e]
    have h6 : ((n + 2 : Nat) : ℚ) ≤ ((2 ^ lb : Nat) : ℚ) := by exact_mod_cast h4
    push_cast at h6
    linarith
  exact le_of_mul_le_mul_right h5 hpos

/-- The merging step of the optimality argument: lengths for the weights
`a ≤ b ≤` all others that satisfy the Kraft bound give lengths for the weights
with `a`, `b` replaced by `a + b` that satisfy it too and cost at least
`a + b` less. -/
theorem merge_lengths (a b : Int) (la lb : Nat) (P : List (Int × Nat)) (ha : 0 ≤ a)
    (hab : a ≤ b) (hP : ∀ e ∈ P, b ≤ e.1) (hk : kraft (la :: lb :: P.map Prod.snd) ≤ 1) :
    ∃ (lm : Nat) (P2 : List (Int × Nat)), P2.map Prod.fst = P.map Prod.fst
      ∧ kraft (lm :: P2.map Prod.snd) ≤ 1
      ∧ (a + b) * (lm : Int) + wsum P2 + a + b ≤ a * (la : Int) + b * (lb : Int) + wsum P := by
  obtain ⟨la1, P1, h1, h2, h3, h4⟩ := bubble_max ((b, lb) :: P) a la (by
    intro e he
    rcases List.mem_cons.mp he with rfl | he
    · exact hab
    · exact le_trans hab (hP e he))
  cases P1 with
  | nil => simp at h1
  | cons e1 Q1 =>
    obtain ⟨b1, lb1⟩ := e1
    simp only [List.map_cons, List.cons.injEq] at h1
    obtain ⟨rfl, h1⟩ := h1
    have hQ1 : ∀ e ∈ Q1, b1 ≤ e.1 := by
      intro e he
      have : e.1 ∈ P.map Prod.fst := h1 ▸ List.mem_map_of_mem Prod.fst he
      obtain ⟨e0, he0, he1⟩ := List.mem_map.mp this
      exact he1 ▸ hP e0 he0
    obtain ⟨lb2, P2, g1, g2, g3, g4⟩ := bubble_max Q1 b1 lb1 hQ1
    have hle : lb2 ≤ la1 := by
      have hm : lb2 ∈ lb1 :: Q1.map Prod.snd := g2.subset (List.mem_cons_self _ _)
      rcases List.mem_cons.mp hm with rfl | hm
      · exact h3 (b1, lb2) (List.mem_cons_self _ _)
      · obtain ⟨e0, he0, he1⟩ := List.mem_map.mp hm
        exact he1 ▸ h3 e0 (List.mem_cons_of_mem _ he0)
    have hk1 : kraft (la1 :: lb2 :: P2.map Prod.snd) ≤ 1 := by
      have hp : List.Perm (la1 :: lb2 :: P2.map Prod.snd) (la :: lb :: P.map Prod.snd) :=
        (g2.cons la1).trans h2
      rw [kraft_perm hp]
      exact hk
    have hL : ∀ l ∈ P2.map Prod.snd, l ≤ lb2 := by
      intro l hl
      obtain ⟨e0, he0, he1⟩ := List.mem_map.mp hl
      exact he1 ▸ g3 e0 he0
    obtain ⟨hpos, hk2⟩ := kraft_merge la1 lb2 (P2.map Prod.snd) hL hk1
    refine ⟨lb2 - 1, P2, g1.trans h1, hk2, ?_⟩
    rw [wsum_cons, wsum_cons] at h4
    have c1 : ((lb2 - 1 : Nat) : Int) = (lb2 : Int) - 1 := by
      rw [Nat.cast_sub hpos]; simp
    have c2 : a * (lb2 : Int) ≤ a * (la1 : Int) :=
      mul_le_mul_of_nonneg_left (by exact_mod_cast hle) ha
    rw [c1]
    nlinarith

/-! ## The tree built by `buildHuffmanTree` -/

theorem Node.getFreq_eq_weight : ∀ (t : Node), t.Exact → t.getFreq = t.weight
  | .nil, _ => rfl
  | .node c f left right, h => by
    simp only [Node.Exact] at h
    rcases h with hl | ⟨hf, -, -⟩
    · simp [Node.getFreq, Node.weight, hl]
    · by_cases hl : isLeaf left right
      · simp [Node.getFreq, Node.weight, hl]
      · simp [Node.getFreq, Node.weight, hl, hf]

theorem Node.weight_eq_sum : ∀ (t : Node), t.weight = (t.entries.map Prod.snd).sum
  | .nil => by simp [Node.weight, Node.entries]
  | .node c f left right => by
    simp only [Node.weight, Node.entries]
    by_cases hl : isLeaf left right
    · simp [hl]
    · simp [hl, Node.weight_eq_sum left, Node.weight_eq_sum right]

/-- The node that one round of the loop of `buildHuffmanTree` makes of the two
trees popped, whatever frequency it gets. -/
theorem Node.merge_facts (x y : Node) (f : Int) (hx : x.Wf) (hy : y.Wf) :
    (Node.node 36 f x y).Wf
    ∧ (Node.node 36 f x y).weight = x.weight + y.weight
    ∧ (Node.node 36 f x y).cost = x.cost + y.cost + x.weight + y.weight
    ∧ (Node.node 36 f x y).entries = x.entries ++ y.entries := by
  have hleaf : isLeaf x y = false := by
    cases x with
    | nil => simp [Node.Wf] at hx
    | node _ _ _ _ => simp [isLeaf, Node.isNull]
  refine ⟨?_, ?_, ?_, ?_⟩
  · simp only [Node.Wf]
    exact Or.inr ⟨hx, hy⟩
  · simp [Node.weight, hleaf]
  · simp [Node.cost, hleaf]
  · simp [Node.entries, hleaf]

/-- An `int` addition whose exact sum fits 32 bits is exact. -/
theorem addInt_exact (a b : Int) (h1 : -2147483648 ≤ a + b) (h2 : a + b < 2147483648) :
    addInt a b = a + b := by
  simp only [addInt]
  omega

theorem List.abs_sum_le (l : List Int) : |l.sum| ≤ (l.map (fun v => |v|)).sum := by
  induction l with
  | nil => simp
  | cons v l ih =>
    simp only [List.sum_cons, List.map_cons]
    exact le_trans (abs_add v l.sum) (by linarith)

theorem Node.abs_weight_le (t : Node) : |t.weight| ≤ t.absWeight := by
  rw [Node.weight_eq_sum, Node.absWeight]
  have h := List.abs_sum_le (t.entries.map Prod.snd)
  simpa [List.map_map] using h

theorem Node.absWeight_nonneg (t : Node) : 0 ≤ t.absWeight :=
  le_trans (abs_nonneg _) (Node.abs_weight_le t)

theorem List.sum_absWeight_nonneg (h : List Node) : 0 ≤ (h.map Node.absWeight).sum := by
  apply List.sum_nonneg
  intro v hv
  obtain ⟨t, -, rfl⟩ := List.mem_map.mp hv
  exact Node.absWeight_nonneg t

/-- From lengths assigned to a permutation of `w :: W`, the entry of `w` can
be taken out. -/
theorem perm_extract (P : List (Int × Nat)) (w : Int) (W : List Int)
    (h : List.Perm (P.map Prod.fst) (w :: W)) :
    ∃ (l : Nat) (P1 : List (Int × Nat)), List.Perm P ((w, l) :: P1)
      ∧ List.Perm (P1.map Prod.fst) W := by
  have hw : w ∈ P.map Prod.fst := h.symm.subset (List.mem_cons_self _ _)
  obtain ⟨e, he, hew⟩ := List.mem_map.mp hw
  obtain ⟨w0, l⟩ := e
  simp only at hew
  subst hew
  obtain ⟨s1, s2, rfl⟩ := List.append_of_mem he
  have hp : List.Perm (s1 ++ (w0, l) :: s2) ((w0, l) :: (s1 ++ s2)) := List.perm_middle
  refine ⟨l, s1 ++ s2, hp, ?_⟩
  have h2 : List.Perm (w0 :: (s1 ++ s2).map Prod.fst) (w0 :: W) := by
    have := (hp.map Prod.fst).symm.trans h
    simpa using this
  exact h2.cons_inv

/-- One round of the loop of `buildHuffmanTree`. -/
theorem mergeLoop_step (h : MinHeap) (x y : Node) (h1 h2 : MinHeap) (hlen : h.length ≠ 1)
    (hx : MinHeap.popTop h = some (x, h1)) (hy : MinHeap.popTop h1 = some (y, h2)) :
    mergeLoop h = mergeLoop (MinHeap.push h2 (Node.node 36 (addInt x.getFreq y.getFreq) x y)) := by
  rw [mergeLoop]
  simp only [hlen, if_false]
  split
  · next hn => rw [hx] at hn; simp at hn
  · next left r1 hl =>
    rw [hx] at hl
    simp only [Option.some.injEq, Prod.mk.injEq] at hl
    obtain ⟨rfl, rfl⟩ := hl
    split
    · next hn => rw [hy] at hn; simp at hn
    · next right r2 hr =>
      rw [hy] at hr
      simp only [Option.some.injEq, Prod.mk.injEq] at hr
      obtain ⟨rfl, rfl⟩ := hr
      rfl

theorem mergeLoop_single (t : Node) : mergeLoop [t] = .ok t := by
  rw [mergeLoop]
  simp [MinHeap.top, MinHeap.popTop]

/-- The loop of `buildHuffmanTree` on a queue of `n + 1` trees returns a tree
with the leaves of the queue.  When the frequencies in the queue are exact
and their absolute values sum to less than `2 ^ 31`, no addition overflows:
the frequencies of the tree are exact, and for weights that are not negative
its weighted path length is at most that of any lengths, assigned to the
trees of the queue, that satisfy the Kraft bound. -/
theorem mergeLoop_optimal : ∀ (n : Nat) (heap : MinHeap), heap.length = n + 1 →
    (∀ t ∈ heap, t.Wf) →
    ∃ root, mergeLoop heap = .ok root ∧ root.Wf
      ∧ List.Perm root.entries (heap.flatMap Node.entries)
      ∧ ((∀ t ∈ heap, t.Exact) → (heap.map Node.absWeight).sum < 2147483648 →
          root.Exact ∧ ((∀ t ∈ heap, 0 ≤ t.weight) →
            ∀ P : List (Int × Nat), List.Perm (P.map Prod.fst) (heap.map Node.weight) →
              kraft (P.map Prod.snd) ≤ 1 → root.cost ≤ (heap.map Node.cost).sum + wsum P))
  | 0, heap, hlen, hwf => by
    obtain ⟨t, rfl⟩ := List.length_eq_one.mp hlen
    refine ⟨t, mergeLoop_single t, hwf t (List.mem_singleton_self t), by simp, ?_⟩
    intro hex _
    refine ⟨hex t (List.mem_singleton_self t), ?_⟩
    intro hnn P hP _
    have hl : P.length = 1 := by simpa using hP.length_eq
    obtain ⟨e, rfl⟩ := List.length_eq_one.mp hl
    obtain ⟨w, l⟩ := e
    simp only [List.map_cons, List.map_nil, List.perm_singleton, List.cons.injEq, and_true] at hP
    have h0 := hnn t (List.mem_singleton_self t)
    have h1 : (0 : Int) ≤ w * (l : Int) := mul_nonneg (hP ▸ h0) (Int.natCast_nonneg l)
    simp only [List.map_cons, List.map_nil, List.sum_cons, List.sum_nil, wsum]
    linarith
  | n + 1, heap, hlen, hwf => by
    have hne : heap ≠ [] := by intro h; simp [h] at hlen
    obtain ⟨x, h1, hx⟩ := MinHeap.popTop_isSome heap hne
    have hl1 := MinHeap.popTop_length heap x h1 hx
    have hne1 : h1 ≠ [] := by intro h; simp [h] at hl1; omega
    obtain ⟨y, h2, hy⟩ := MinHeap.popTop_isSome h1 hne1
    have hl2 := MinHeap.popTop_length h1 y h2 hy
    have hp1 := MinHeap.popTop_perm heap x h1 hx
    have hp2 := MinHeap.popTop_perm h1 y h2 hy
    have hp : List.Perm heap (x :: y :: h2) := hp1.trans (hp2.cons x)
    have hxm : x ∈ heap := hp.symm.subset (List.mem_cons_self _ _)
    have hym : y ∈ heap := hp.symm.subset (List.mem_cons_of_mem _ (List.mem_cons_self _ _))
    have h2m : ∀ z ∈ h2, z ∈ heap := fun z hz =>
      hp.symm.subset (List.mem_cons_of_mem _ (List.mem_cons_of_mem _ hz))
    obtain ⟨m1, m2, m3, m4⟩ :=
      Node.merge_facts x y (addInt x.getFreq y.getFreq) (hwf x hxm) (hwf y hym)
    have hlen2 :
        (MinHeap.push h2 (Node.node 36 (addInt x.getFreq y.getFreq) x y)).length = n + 1 := by
      simp only [MinHeap.push, List.length_append, List.length_singleton]; omega
    obtain ⟨root, r1, r2, r3, r4⟩ := mergeLoop_optimal n _ hlen2
      (by
        intro t ht
        rcases List.mem_append.mp ht with ht | ht
        · exact hwf t (h2m t ht)
        · rw [List.mem_singleton.mp ht]; exact m1)
    refine ⟨root, ?_, r2, ?_, ?_⟩
    · rw [mergeLoop_step heap x y h1 h2 (by omega) hx hy]
      exact r1
    · refine r3.trans ?_
      simp only [MinHeap.push, List.flatMap_append, List.flatMap_cons, List.flatMap_nil,
        List.append_nil, m4]
      refine (List.perm_append_comm).trans ?_
      have := (List.Perm.flatMap_right Node.entries hp).symm
      simpa [List.flatMap_cons, List.append_assoc] using this
    · intro hex hb
      have gx := Node.getFreq_eq_weight x (hex x hxm)
      have gy := Node.getFreq_eq_weight y (hex y hym)
      have htot : (heap.map Node.absWeight).sum
          = x.absWeight + y.absWeight + (h2.map Node.absWeight).sum := by
        rw [(hp.map Node.absWeight).sum_eq]
        simp only [List.map_cons, List.sum_cons]
        ring
      have hrest := List.sum_absWeight_nonneg h2
      have hadd : addInt x.getFreq y.getFreq = x.weight + y.weight := by
        rw [gx, gy]
        have hax := Node.abs_weight_le x
        have hay := Node.abs_weight_le y
        have h3 := abs_add x.weight y.weight
        have h4 := neg_abs_le (x.weight + y.weight)
        have h5 := le_abs_self (x.weight + y.weight)
        apply addInt_exact <;> linarith
      have hnewabs : (Node.node 36 (addInt x.getFreq y.getFreq) x y).absWeight
          = x.absWeight + y.absWeight := by
        simp [Node.absWeight, m4]
      have hex2 : ∀ t ∈ MinHeap.push h2 (Node.node 36 (addInt x.getFreq y.getFreq) x y),
          t.Exact := by
        intro t ht
        rcases List.mem_append.mp ht with ht | ht
        · exact hex t (h2m t ht)
        · rw [List.mem_singleton.mp ht]
          simp only [Node.Exact]
          exact Or.inr ⟨hadd, hex x hxm, hex y hym⟩
      have hb2 : ((MinHeap.push h2 (Node.node 36 (addInt x.getFreq y.getFreq) x y)).map
          Node.absWeight).sum < 2147483648 := by
        simp only [MinHeap.push, List.map_append, List.map_cons, List.map_nil, List.sum_append,
          List.sum_cons, List.sum_nil, hnewabs]
        linarith
      obtain ⟨rex, rcost⟩ := r4 hex2 hb2
      refine ⟨rex, ?_⟩
      intro hnn P hP hk
      have hnn2 : ∀ t ∈ MinHeap.push h2 (Node.node 36 (addInt x.getFreq y.getFreq) x y),
          0 ≤ t.weight := by
        intro t ht
        rcases List.mem_append.mp ht with ht | ht
        · exact hnn t (h2m t ht)
        · rw [List.mem_singleton.mp ht, m2]
          exact add_nonneg (hnn x hxm) (hnn y hym)
      have hP1 : List.Perm (P.map Prod.fst) (x.weight :: y.weight :: h2.map Node.weight) := by
        simpa using hP.trans (hp.map Node.weight)
      obtain ⟨lx, P1, e1, f1⟩ := perm_extract P _ _ hP1
      obtain ⟨ly, P2, e2, f2⟩ := perm_extract P1 _ _ f1
      have eP : List.Perm P ((x.weight, lx) :: (y.weight, ly) :: P2) := e1.trans (e2.cons _)
      have hxy : x.weight ≤ y.weight := by
        rw [← gx, ← gy]
        exact MinHeap.popTop_min heap x h1 hx y hym
      have hyP : ∀ e ∈ P2, y.weight ≤ e.1 := by
        intro e he
        have : e.1 ∈ h2.map Node.weight := f2.subset (List.mem_map_of_mem Prod.fst he)
        obtain ⟨z, hz, hzw⟩ := List.mem_map.mp this
        rw [← hzw, ← gy, ← Node.getFreq_eq_weight z (hex z (h2m z hz))]
        exact MinHeap.popTop_min h1 y h2 hy z (hp2.symm.subset (List.mem_cons_of_mem _ hz))
      have hk1 : kraft (lx :: ly :: P2.map Prod.snd) ≤ 1 := by
        have := kraft_perm (eP.map Prod.snd)
        simp only [List.map_cons] at this
        rw [← this]
        exact hk
      obtain ⟨lm, P3, g1, g2, g3⟩ :=
        merge_lengths x.weight y.weight lx ly P2 (hnn x hxm) hxy hyP hk1
      have hnew := rcost hnn2 ((x.weight + y.weight, lm) :: P3)
        (by
          simp only [MinHeap.push, List.map_cons, List.map_append, List.map_nil, m2]
          exact ((g1 ▸ f2).cons _).trans (List.perm_append_singleton _ _).symm)
        (by simpa using g2)
      have hc : (heap.map Node.cost).sum = x.cost + y.cost + (h2.map Node.cost).sum := by
        rw [(hp.map Node.cost).sum_eq]
        simp only [List.map_cons, List.sum_cons]
        ring
      have hw : wsum P = x.weight * (lx : Int) + y.weight * (ly : Int) + wsum P2 := by
        rw [wsum_perm eP, wsum_cons, wsum_cons]
        ring
      simp only [MinHeap.push, List.map_append, List.map_cons, List.map_nil, List.sum_append,
        List.sum_cons, List.sum_nil, m3, wsum_cons] at hnew
      rw [hc, hw]
      linarith

/-! ## The Kraft bound of a prefix-free code -/

theorem tailsOf_incomparable (b : Bool) (C : List (List Bool))
    (h : C.Pairwise Incomparable) : (tailsOf b C).Pairwise Incomparable := by
  refine List.Pairwise.filterMap _ ?_ h
  intro x y hxy t ht u hu
  cases x with
  | nil => simp at ht
  | cons x0 xt =>
    cases y with
    | nil => simp at hu
    | cons y0 yt =>
      simp only [Option.mem_def] at ht hu
      by_cases hx : x0 = b
      · by_cases hy : y0 = b
        · simp only [hx, if_true, Option.some.injEq] at ht
          simp only [hy, if_true, Option.some.injEq] at hu
          subst ht; subst hu; subst hx; subst hy
          simpa [Incomparable, List.cons_prefix_cons] using hxy
        · simp [hy] at hu
      · simp [hx] at ht

theorem tailsOf_length (b : Bool) (D : Nat) (C : List (List Bool))
    (h : ∀ c ∈ C, c.length ≤ D + 1) : ∀ t ∈ tailsOf b C, t.length ≤ D := by
  intro t ht
  obtain ⟨c, hc, hct⟩ := List.mem_filterMap.mp ht
  cases c with
  | nil => simp at hct
  | cons x0 xt =>
    by_cases hx : x0 = b
    · simp only [hx, if_true, Option.some.injEq] at hct
      subst hct
      have := h _ hc
      simp only [List.length_cons] at this
      omega
    · simp [hx] at hct

theorem kraft_split : ∀ (C : List (List Bool)), (∀ c ∈ C, c ≠ []) →
    kraft (C.map List.length)
      = (kraft ((tailsOf false C).map List.length) + kraft ((tailsOf true C).map List.length)) / 2
  | [], _ => by simp [kraft, tailsOf]
  | c :: C, h => by
    have ih := kraft_split C (fun x hx => h x (List.mem_cons_of_mem _ hx))
    cases c with
    | nil => exact absurd rfl (h [] (List.mem_cons_self _ _))
    | cons x t =>
      rw [List.map_cons, kraft_cons, ih]
      cases x
      · have e1 : tailsOf false ((false :: t) :: C) = t :: tailsOf false C := by
          simp [tailsOf, List.filterMap_cons]
        have e2 : tailsOf true ((false :: t) :: C) = tailsOf true C := by
          simp [tailsOf, List.filterMap_cons]
        rw [e1, e2, List.map_cons, kraft_cons, List.length_cons, pow_succ]
        ring
      · have e1 : tailsOf false ((true :: t) :: C) = tailsOf false C := by
          simp [tailsOf, List.filterMap_cons]
        have e2 : tailsOf true ((true :: t) :: C) = t :: tailsOf true C := by
          simp [tailsOf, List.filterMap_cons]
        rw [e1, e2, List.map_cons, kraft_cons, List.length_cons, pow_succ]
        ring

/-- A prefix-free list of code words that holds the empty word holds nothing else. -/
theorem incomparable_nil_mem : ∀ (C : List (List Bool)), C.Pairwise Incomparable → [] ∈ C →
    C = [[]]
  | [], _, h => by simp at h
  | c :: C, hp, h => by
    rw [List.pairwise_cons] at hp
    cases C with
    | nil => simpa using h
    | cons d C =>
      exfalso
      rcases List.mem_cons.mp h with h | h
      · have := (hp.1 d (List.mem_cons_self _ _)).1
        rw [← h] at this
        exact this List.nil_prefix
      · exact (hp.1 [] h).2 List.nil_prefix

/-- Kraft's inequality for a prefix-free list of binary code words. -/
theorem kraft_of_prefix_free : ∀ (D : Nat) (C : List (List Bool)), (∀ c ∈ C, c.length ≤ D) →
    C.Pairwise Incomparable → kraft (C.map List.length) ≤ 1
  | 0, C, hD, hp => by
    cases C with
    | nil => simp [kraft]
    | cons c C =>
      have hc : c = [] := List.length_eq_zero.mp (Nat.le_zero.mp (hD c (List.mem_cons_self _ _)))
      have := incomparable_nil_mem (c :: C) hp (hc ▸ List.mem_cons_self _ _)
      rw [this]
      simp [kraft]
  | D + 1, C, hD, hp => by
    by_cases hnil : [] ∈ C
    · rw [incomparable_nil_mem C hp hnil]
      simp [kraft]
    · rw [kraft_split C (fun c hc e => hnil (e ▸ hc))]
      have h0 := kraft_of_prefix_free D (tailsOf false C) (tailsOf_length false D C hD)
        (tailsOf_incomparable false C hp)
      have h1 := kraft_of_prefix_free D (tailsOf true C) (tailsOf_length true D C hD)
        (tailsOf_incomparable true C hp)
      linarith

/-! ## Optimality of the tree of `buildHuffmanTree` -/

theorem createAndBuildMinHeapFrom_ok : ∀ (arr : List Nat) (freq : List Int) (h heap : MinHeap),
    createAndBuildMinHeapFrom arr freq h = .ok heap →
      arr.length ≤ freq.length ∧ heap = h ++ (arr.zip freq).map (fun e => Node.leaf e.1 e.2)
  | [], freq, h, heap, e => by
    simp only [createAndBuildMinHeapFrom, Except.ok.injEq] at e
    simp [e]
  | a :: arr, [], h, heap, e => by simp [createAndBuildMinHeapFrom] at e
  | a :: arr, f :: freq, h, heap, e => by
    simp only [createAndBuildMinHeapFrom] at e
    obtain ⟨h1, h2⟩ := createAndBuildMinHeapFrom_ok arr freq _ heap e
    refine ⟨by simp only [List.length_cons]; omega, ?_⟩
    rw [h2]
    simp [MinHeap.push]

theorem mergeLoop_nil : mergeLoop [] = .error .emptyQueue := by
  rw [mergeLoop]
  simp [MinHeap.popTop]

/-- What `buildHuffmanTree` returns for a table: a well-formed tree with the
entries of the table as leaves.  When the absolute values of the counts sum
to less than `2 ^ 31` its frequencies are exact, and for counts that are not
negative its weighted path length is one that no Kraft-bounded assignment of
lengths beats. -/
theorem buildHuffmanTree_facts (arr : List Nat) (freq : List Int) (root : Node)
    (hroot : buildHuffmanTree arr freq = .ok root) :
    arr.length ≤ freq.length ∧ root.Wf ∧ List.Perm root.entries (arr.zip freq)
      ∧ (((arr.zip freq).map (fun e => |e.2|)).sum < 2147483648 →
          root.Exact ∧ ((∀ f ∈ freq, 0 ≤ f) →
            ∀ P : List (Int × Nat), List.Perm (P.map Prod.fst) ((arr.zip freq).map Prod.snd) →
              kraft (P.map Prod.snd) ≤ 1 → root.cost ≤ wsum P)) := by
  simp only [buildHuffmanTree, createAndBuildMinHeap] at hroot
  cases hc : createAndBuildMinHeapFrom arr freq [] with
  | error e => rw [hc] at hroot; simp at hroot
  | ok heap =>
    rw [hc] at hroot
    simp only at hroot
    obtain ⟨hlen, hheap⟩ := createAndBuildMinHeapFrom_ok arr freq [] heap hc
    rw [List.nil_append] at hheap
    have hleaf : ∀ t ∈ heap, ∃ c f, t = Node.leaf c f ∧ f ∈ freq := by
      intro t ht
      rw [hheap] at ht
      obtain ⟨e, he, rfl⟩ := List.mem_map.mp ht
      exact ⟨e.1, e.2, rfl, (List.of_mem_zip he).2⟩
    cases hn : heap.length with
    | zero =>
      rw [List.length_eq_zero.mp hn, mergeLoop_nil] at hroot
      simp at hroot
    | succ n =>
      obtain ⟨r, r1, r2, r3, r4⟩ := mergeLoop_optimal n heap hn
        (by
          intro t ht
          obtain ⟨c, f, rfl, -⟩ := hleaf t ht
          simp [Node.leaf, Node.Wf])
      rw [r1] at hroot
      simp only [Except.ok.injEq] at hroot
      subst hroot
      have e1 : heap.flatMap Node.entries = arr.zip freq := by
        rw [hheap]
        generalize arr.zip freq = Z
        induction Z with
        | nil => rfl
        | cons e Z ih =>
          simp only [List.map_cons, List.flatMap_cons, ih]
          simp [Node.leaf, Node.entries, isLeaf, Node.isNull]
      have e2 : heap.map Node.weight = (arr.zip freq).map Prod.snd := by
        rw [hheap, List.map_map]
        apply List.map_congr_left
        intro e _
        simp [Node.leaf, Node.weight, isLeaf, Node.isNull]
      have e3 : (heap.map Node.cost).sum = 0 := by
        rw [hheap, List.map_map]
        apply List.sum_eq_zero
        intro x hx
        obtain ⟨e, -, rfl⟩ := List.mem_map.mp hx
        simp [Node.leaf, Node.cost, isLeaf, Node.isNull]
      refine ⟨hlen, r2, e1 ▸ r3, ?_⟩
      intro hb
      have hex : ∀ t ∈ heap, t.Exact := by
        intro t ht
        obtain ⟨c, f, rfl, -⟩ := hleaf t ht
        simp [Node.leaf, Node.Exact, isLeaf, Node.isNull]
      have e4 : heap.map Node.absWeight = (arr.zip freq).map (fun e => |e.2|) := by
        rw [hheap, List.map_map]
        apply List.map_congr_left
        intro e _
        simp [Node.leaf, Node.absWeight, Node.entries, isLeaf, Node.isNull]
      obtain ⟨rex, rcost⟩ := r4 hex (by rw [e4]; exact hb)
      refine ⟨rex, ?_⟩
      intro hnn P hP hk
      have hw : ∀ t ∈ heap, 0 ≤ t.weight := by
        intro t ht
        obtain ⟨c, f, rfl, hf⟩ := hleaf t ht
        simpa [Node.leaf, Node.weight, isLeaf, Node.isNull] using hnn f hf
      have := rcost hw P (e2 ▸ hP) hk
      rw [e3] at this
      linarith

theorem Node.leafCodes_map_fst : ∀ (t : Node) (path : List Nat),
    (t.leafCodes path).map Prod.fst = t.entries.map Prod.fst
  | .nil, _ => rfl
  | .node c f left right, path => by
    simp only [Node.leafCodes, Node.entries]
    by_cases hl : isLeaf left right
    · simp [hl]
    · simp [hl, Node.leafCodes_map_fst left, Node.leafCodes_map_fst right]

/-- With lengths `L` that agree with the paths of a tree, the weighted length
of its leaves is its cost plus its weight times the length of the path to it. -/
theorem Node.weightedLength_entries (L : Nat → Nat) : ∀ (t : Node) (path : List Nat),
    (∀ e ∈ t.leafCodes path, L e.1 = e.2.length) →
      weightedLength t.entries L = t.cost + (path.length : Int) * t.weight
  | .nil, _, _ => by simp [weightedLength, Node.entries, Node.cost, Node.weight]
  | .node c f left right, path, h => by
    simp only [Node.leafCodes] at h
    simp only [Node.entries, Node.cost, Node.weight]
    by_cases hl : isLeaf left right
    · simp only [hl, if_true, List.mem_singleton, forall_eq] at h
      simp only [hl, if_true, weightedLength, List.map_cons, List.map_nil, List.sum_cons,
        List.sum_nil, h]
      ring
    · simp only [hl, Bool.false_eq_true, if_false] at h ⊢
      have h1 := Node.weightedLength_entries L left (path ++ [0])
        (fun e he => h e (List.mem_append_left _ he))
      have h2 := Node.weightedLength_entries L right (path ++ [1])
        (fun e he => h e (List.mem_append_right _ he))
      simp only [weightedLength, List.length_append, List.length_singleton, Nat.cast_add,
        Nat.cast_one] at h1 h2
      simp only [weightedLength, List.map_append, List.sum_append, h1, h2]
      ring

theorem find?_of_nodup_keys : ∀ (Ls : List (Nat × List Nat)), (Ls.map Prod.fst).Nodup →
    ∀ e ∈ Ls, Ls.find? (fun x => x.1 = e.1) = some e
  | [], _, e, he => by simp at he
  | x :: Ls, hn, e, he => by
    simp only [List.map_cons, List.nodup_cons] at hn
    rcases List.mem_cons.mp he with rfl | he
    · simp
    · have hne : x.1 ≠ e.1 := fun h => hn.1 (h ▸ List.mem_map_of_mem Prod.fst he)
      simp only [List.find?_cons, hne, decide_False]
      exact find?_of_nodup_keys Ls hn.2 e he

/-- In a tree whose leaves carry distinct symbols, `codeLength` is the length
of the path to the leaf of the symbol. -/
theorem Node.codeLength_of_mem (root : Node) (hn : (root.entries.map Prod.fst).Nodup)
    (e : Nat × List Nat) (he : e ∈ root.leafCodes []) : root.codeLength e.1 = e.2.length := by
  have h := find?_of_nodup_keys (root.leafCodes []) (by rw [Node.leafCodes_map_fst]; exact hn) e he
  simp only [Node.codeLength, h]

theorem weightedLength_perm {T1 T2 : List (Nat × Int)} (L : Nat → Nat) (h : List.Perm T1 T2) :
    weightedLength T1 L = weightedLength T2 L :=
  (h.map _).sum_eq

theorem exists_length_bound : ∀ (C : List (List Bool)), ∃ D, ∀ c ∈ C, c.length ≤ D
  | [] => ⟨0, by simp⟩
  | c :: C => by
    obtain ⟨D, hD⟩ := exists_length_bound C
    refine ⟨max c.length D, ?_⟩
    intro x hx
    rcases List.mem_cons.mp hx with rfl | hx
    · exact le_max_left _ _
    · exact le_trans (hD x hx) (le_max_right _ _)

/-- C2, as stated, fails: for the table `a:5, b:9, c:12, d:13, e:16, f:45`
`printCodesIntoFile` ends with an exception after the leaves `f` and `c`; it
derives no code, and so no code length, for `d` (nor for `a`, `b`, `e`). -/
theorem example_code_lengths_not_derived :
    buildHuffmanTree [97, 98, 99, 100, 101, 102] [5, 9, 12, 13, 16, 45] = .ok exampleRoot
    ∧ printCodesIntoFile exampleRoot 0 ⟨[], List.replicate 100 0, []⟩
        = .error (.invalidArgument, exampleEnd)
    ∧ exampleEnd.huffmanCode.at? 100 = none ∧ exampleEnd.huffmanCode.at? 97 = none
    ∧ exampleEnd.huffmanCode.at? 98 = none ∧ exampleEnd.huffmanCode.at? 101 = none :=
  ⟨buildHuffmanTree_example, printCodes_example, by decide, by decide, by decide, by decide⟩

/-- The tree of `buildHuffmanTree` is optimal.  For every table with unique
symbols and counts that are not negative and sum to less than `2 ^ 31` (every
`int` sum is then exact), the lengths `codeLength` of the root-to-leaf paths
of the tree returned by `buildHuffmanTree` minimise the weighted code length:
the sum of frequency times length is at most that of every binary code `c` in
which no code word of a symbol of the table is a prefix of that of another.
Every code that `printCodesIntoFile` assigns in `huffmanCode` has this
length. -/
theorem huffman_tree_optimal (arr : List Nat) (freq : List Int) (root : Node)
    (c : Nat → List Bool) (hroot : buildHuffmanTree arr freq = .ok root) (hnodup : arr.Nodup)
    (hnn : ∀ f ∈ freq, 0 ≤ f) (hb : ((arr.zip freq).map Prod.snd).sum < 2147483648)
    (hc : ∀ a ∈ arr, ∀ b ∈ arr, a ≠ b → ¬ c a <+: c b) :
    weightedLength (arr.zip freq) root.codeLength
        ≤ weightedLength (arr.zip freq) (fun s => (c s).length)
    ∧ ∀ (outFile code : List Nat) (s : Nat) (cs : List Nat),
        (finalState (printCodesIntoFile root 0 ⟨outFile, code, []⟩)).huffmanCode.at? s = some cs →
          cs.length = root.codeLength s := by
  obtain ⟨hlen, -, hperm, hex⟩ := buildHuffmanTree_facts arr freq root hroot
  have habs : (arr.zip freq).map (fun e => |e.2|) = (arr.zip freq).map Prod.snd := by
    apply List.map_congr_left
    intro e he
    exact abs_of_nonneg (hnn e.2 (List.of_mem_zip he).2)
  have hopt := (hex (by rw [habs]; exact hb)).2
  have hfst : (arr.zip freq).map Prod.fst = arr := List.map_fst_zip arr freq hlen
  have hn : (root.entries.map Prod.fst).Nodup :=
    (hperm.map Prod.fst).nodup_iff.mpr (hfst.symm ▸ hnodup)
  constructor
  · have hL : weightedLength (arr.zip freq) root.codeLength = root.cost := by
      rw [← weightedLength_perm root.codeLength hperm,
        Node.weightedLength_entries root.codeLength root []
          (fun e he => Node.codeLength_of_mem root hn e he)]
      simp
    have hpw : (arr.map c).Pairwise Incomparable :=
      List.pairwise_map.mpr
        (List.Pairwise.imp_of_mem (fun {a b} ha hb hne => ⟨hc a ha b hb hne, hc b hb a ha (Ne.symm hne)⟩)
          hnodup)
    obtain ⟨D, hD⟩ := exists_length_bound (arr.map c)
    have hk := kraft_of_prefix_free D (arr.map c) hD hpw
    have hR := hopt hnn ((arr.zip freq).map (fun e => (e.2, (c e.1).length)))
      (by rw [List.map_map]; exact List.Perm.refl _)
      (by
        have e : ((arr.zip freq).map (fun e => (e.2, (c e.1).length))).map Prod.snd
            = (arr.map c).map List.length := by
          conv_rhs => rw [← hfst]
          simp only [List.map_map]
          rfl
        rw [e]
        exact hk)
    rw [hL]
    have e2 : wsum ((arr.zip freq).map (fun e => (e.2, (c e.1).length)))
        = weightedLength (arr.zip freq) (fun s => (c s).length) := by
      simp only [wsum, weightedLength, List.map_map]
      rfl
    rw [← e2]
    exact hR
  · intro outFile code s cs h
    obtain ⟨-, -, done, h3, h4, -⟩ := printCodes_traces root 0 ⟨outFile, code, []⟩ (Nat.zero_le _)
    simp only [List.take_zero] at h3 h4
    rw [h4] at h
    rcases CodeMap.at?_assignAll done [] s cs h with h1 | h1
    · exact (Node.codeLength_of_mem root hn (s, cs) (h3.subset h1)).symm
    · simp [CodeMap.at?] at h1

/-- The optimality of the tree at the table of `main` against the fixed-length
code of three bits. -/
theorem huffman_tree_optimal_witness :
    weightedLength (([97, 98, 99, 100, 101, 102] : List Nat).zip [5, 9, 12, 13, 16, 45])
        exampleRoot.codeLength
      ≤ weightedLength (([97, 98, 99, 100, 101, 102] : List Nat).zip [5, 9, 12, 13, 16, 45])
        (fun s => (threeBitCode s).length) :=
  (huffman_tree_optimal [97, 98, 99, 100, 101, 102] [5, 9, 12, 13, 16, 45] exampleRoot
    threeBitCode buildHuffmanTree_example (by decide) (by decide) (by decide) (by decide)).1

/-- The weighted code length of the tree of the table of `main` is 224 bits;
that of the fixed-length code of three bits is 300. -/
theorem example_weighted_length :
    weightedLength (([97, 98, 99, 100, 101, 102] : List Nat).zip [5, 9, 12, 13, 16, 45])
        exampleRoot.codeLength = 224
    ∧ weightedLength (([97, 98, 99, 100, 101, 102] : List Nat).zip [5, 9, 12, 13, 16, 45])
        (fun s => (threeBitCode s).length) = 300 := by
  constructor <;> decide

/-! ## Prefix-freeness of the code mapping -/

/-- C3. Prefix-free: for every table, with `root` the tree returned by
`buildHuffmanTree`: in the map `huffmanCode` that `printCodesIntoFile`,
started at depth 0 with an empty map, fills from `root` (the map in the state
in which the call ends), the codes of two distinct symbols are not prefixes
of one another; every symbol of the table has a leaf in `root`, and the
paths that the traversal of `printCodesIntoFile` takes to the leaves of two
distinct symbols are not prefixes of one another either. -/
theorem huffmanCode_prefix_free (arr : List Nat) (freq : List Int) (root : Node)
    (outFile code : List Nat) (hroot : buildHuffmanTree arr freq = .ok root) :
    (∀ (a b : Nat) (ca cb : List Nat), a ≠ b →
      (finalState (printCodesIntoFile root 0 ⟨outFile, code, []⟩)).huffmanCode.at? a = some ca →
      (finalState (printCodesIntoFile root 0 ⟨outFile, code, []⟩)).huffmanCode.at? b = some cb →
      ¬ ca <+: cb ∧ ¬ cb <+: ca)
    ∧ (∀ a ∈ arr, ∃ ca, (a, ca) ∈ root.leafCodes [])
    ∧ (∀ (a b : Nat) (ca cb : List Nat), a ≠ b →
      (a, ca) ∈ root.leafCodes [] → (b, cb) ∈ root.leafCodes [] → ¬ ca <+: cb ∧ ¬ cb <+: ca) := by
  refine ⟨?_, ?_, ?_⟩
  · intro a b ca cb hab ha hb
    exact ⟨huffmanCode_entries_prefix_free root outFile code a b ca cb hab ha hb,
      huffmanCode_entries_prefix_free root outFile code b a cb ca (Ne.symm hab) hb ha⟩
  · intro a ha
    obtain ⟨hlen, -, hperm, -⟩ := buildHuffmanTree_facts arr freq root hroot
    have h1 : a ∈ (root.leafCodes []).map Prod.fst := by
      rw [Node.leafCodes_map_fst]
      exact (hperm.map Prod.fst).symm.subset (by rw [List.map_fst_zip arr freq hlen]; exact ha)
    obtain ⟨e, he, rfl⟩ := List.mem_map.mp h1
    exact ⟨e.2, he⟩
  · intro a b ca cb hab ha hb
    exact ⟨fun h => hab (Node.leafCodes_prefix_free root [] a b ca cb ha hb h),
      fun h => hab (Node.leafCodes_prefix_free root [] b a cb ca hb ha h).symm⟩

/-- C3 at the table of `main`. -/
theorem huffmanCode_prefix_free_witness :
    (∀ (a b : Nat) (ca cb : List Nat), a ≠ b →
      (finalState (printCodesIntoFile exampleRoot 0
        ⟨[], List.replicate 100 0, []⟩)).huffmanCode.at? a = some ca →
      (finalState (printCodesIntoFile exampleRoot 0
        ⟨[], List.replicate 100 0, []⟩)).huffmanCode.at? b = some cb →
      ¬ ca <+: cb ∧ ¬ cb <+: ca)
    ∧ (∀ a ∈ ([97, 98, 99, 100, 101, 102] : List Nat), ∃ ca, (a, ca) ∈ exampleRoot.leafCodes [])
    ∧ (∀ (a b : Nat) (ca cb : List Nat), a ≠ b →
      (a, ca) ∈ exampleRoot.leafCodes [] → (b, cb) ∈ exampleRoot.leafCodes [] →
      ¬ ca <+: cb ∧ ¬ cb <+: ca) :=
  huffmanCode_prefix_free [97, 98, 99, 100, 101, 102] [5, 9, 12, 13, 16, 45] exampleRoot []
    (List.replicate 100 0) buildHuffmanTree_example

/-! ## Unknown symbols and the empty table -/

/-- A byte without an entry in the mapping makes the main loop of
`compressFile` throw. -/
theorem packInput_unknown (huffmanCode : CodeMap) :
    ∀ (inFile : List Nat) (a h : Nat) (outFile : List Nat),
      (∃ b ∈ inFile, huffmanCode.at? b = none) →
      packInput huffmanCode inFile a h outFile = .error .outOfRange
  | [], _, _, _, hex => by
    obtain ⟨b, hb, -⟩ := hex
    simp at hb
  | n :: inFile, a, h, outFile, hex => by
    cases hc : huffmanCode.at? n with
    | none => simp [packInput, hc]
    | some code =>
      simp only [packInput, hc]
      apply packInput_unknown huffmanCode inFile
      obtain ⟨b, hb, hnone⟩ := hex
      rcases List.mem_cons.mp hb with rfl | hb
      · rw [hc] at hnone; simp at hnone
      · exact ⟨b, hb, hnone⟩

/-- When every byte has an entry the concatenation of the codes exists. -/
theorem codeBits_isSome (huffmanCode : CodeMap) :
    ∀ (inFile : List Nat), (∀ b ∈ inFile, ∃ code, huffmanCode.at? b = some code) →
      ∃ B, codeBits huffmanCode inFile = some B
  | [], _ => ⟨[], rfl⟩
  | n :: inFile, h => by
    obtain ⟨code, hc⟩ := h n (List.mem_cons_self _ _)
    obtain ⟨B, hB⟩ := codeBits_isSome huffmanCode inFile
      (fun b hb => h b (List.mem_cons_of_mem _ hb))
    exact ⟨code ++ B, by simp [codeBits, hc, hB]⟩

/-- C11. Unknown symbol: for every mapping and every input, `compressFile`
fails with the `std::out_of_range` of `huffmanCode.at` if some input byte has
no entry in the mapping, and it returns a payload without failing when every
input byte has an entry. -/
theorem compressFile_unknown_symbol (huffmanCode : CodeMap) (inFile outFile : List Nat) :
    ((∃ b ∈ inFile, huffmanCode.at? b = none) →
      compressFile inFile outFile huffmanCode = .error .outOfRange)
    ∧ ((∀ b ∈ inFile, ∃ code, huffmanCode.at? b = some code) →
      ∃ out, compressFile inFile outFile huffmanCode = .ok out) := by
  constructor
  · intro hex
    simp only [compressFile, packInput_unknown huffmanCode inFile 0 0 outFile hex]
  · intro hall
    obtain ⟨B, hB⟩ := codeBits_isSome huffmanCode inFile hall
    obtain ⟨a1, h1, out1, e, -, -⟩ :=
      packInput_length huffmanCode inFile 0 0 outFile B (by omega) hB
    exact ⟨out1 ++ [padShift (7 - h1) a1], by simp only [compressFile, e]⟩

/-- C11 at the mapping `a ↦ 1`: the input `"ab"` fails, the input `"a"` is packed. -/
theorem compressFile_unknown_symbol_witness :
    compressFile [97, 98] [] [(97, [1])] = .error .outOfRange
    ∧ ∃ out, compressFile [97] [] [(97, [1])] = .ok out :=
  ⟨(compressFile_unknown_symbol [(97, [1])] [97, 98] []).1 ⟨98, by decide, by decide⟩,
    (compressFile_unknown_symbol [(97, [1])] [97] []).2 (by simp [CodeMap.at?])⟩

/-- C12 fails on the code: with an empty table the queue is empty, its size
0 is not 1, and the loop of `buildHuffmanTree` calls `top()` on the empty
queue. -/
theorem empty_table_reads_empty_queue :
    createAndBuildMinHeap [] [] = .ok []
    ∧ MinHeap.top [] = none
    ∧ buildHuffmanTree [] [] = .error .emptyQueue := by
  refine ⟨rfl, rfl, ?_⟩
  simp only [buildHuffmanTree, createAndBuildMinHeap, createAndBuildMinHeapFrom, mergeLoop_nil]

/-- C14 fails on the code: at the leaf `c` of the example table (code 100,
depth 3) `printCodesIntoFile` writes the symbol and the length 3 and throws
`std::invalid_argument` in place of writing the value 4; at a leaf with the
code 01 it writes the value 0 in place of 1. -/
theorem code_value_not_written :
    cStr [1, 0, 0] = [1] ∧ bitset32OfCStr [1] = .error .invalidArgument
    ∧ printLeaf 99 3 ⟨[102, 1, 0, 0, 0, 0, 0, 0, 0], 1 :: List.replicate 99 0, [(102, [0])]⟩
        = .error (.invalidArgument, exampleEnd)
    ∧ printLeaf 98 2 ⟨[], [0, 1], []⟩
        = .ok ⟨[98, 2, 0, 0, 0, 0, 0, 0, 0], [0, 1], [(98, [0, 1])]⟩ := by
  refine ⟨by decide, by simp [bitset32OfCStr], ?_, ?_⟩
  · simp [printLeaf, exampleEnd, bitset32OfCStr, cStr, CodeMap.assign, intBytes, List.replicate]
  · simp [printLeaf, bitset32OfCStr, cStr, CodeMap.assign, intBytes, toInt32]

/-! ## Shape of the tree and length of the merge loop -/

theorem Node.Wf_ne_nil : ∀ (t : Node), t.Wf → t ≠ .nil
  | .nil, h => by simp [Node.Wf] at h
  | .node _ _ _ _, _ => by simp

theorem Node.Wf_isLeaf_false (left right : Node)
    (h : left.Wf) : isLeaf left right = false := by
  cases left with
  | nil => simp [Node.Wf] at h
  | node _ _ _ _ => simp [isLeaf, Node.isNull]

/-- The counts of a well-formed tree. -/
theorem Node.Wf_counts : ∀ (t : Node), t.Wf →
    t.leafCount = t.entries.length ∧ t.internalCount + 1 = t.leafCount
  | .nil, h => by simp [Node.Wf] at h
  | .node c f left right, h => by
    simp only [Node.Wf] at h
    rcases h with ⟨rfl, rfl⟩ | ⟨hl, hr⟩
    · simp [Node.leafCount, Node.internalCount, Node.entries, isLeaf, Node.isNull]
    · have hleaf := Node.Wf_isLeaf_false left right hl
      obtain ⟨l1, l2⟩ := Node.Wf_counts left hl
      obtain ⟨r1, r2⟩ := Node.Wf_counts right hr
      refine ⟨?_, ?_⟩
      · simp [Node.leafCount, Node.entries, hleaf, l1, r1]
      · simp only [Node.leafCount, Node.internalCount, hleaf, Bool.false_eq_true, if_false]
        omega

/-- The shape of a well-formed tree whose frequencies are exact. -/
theorem Node.Wf_shape : ∀ (t : Node), t.Wf → t.Exact → t.Shape
  | .nil, h, _ => by simp [Node.Wf] at h
  | .node c f left right, h, he => by
    simp only [Node.Wf] at h
    rcases h with ⟨rfl, rfl⟩ | ⟨hl, hr⟩
    · simp [Node.Shape, isLeaf, Node.isNull]
    · have hleaf := Node.Wf_isLeaf_false left right hl
      simp only [Node.Exact, hleaf, Bool.false_eq_true, false_or] at he
      obtain ⟨hf, el, er⟩ := he
      simp only [Node.Shape]
      exact Or.inr ⟨Node.Wf_ne_nil left hl, Node.Wf_ne_nil right hr,
        by rw [hf, Node.getFreq_eq_weight left el, Node.getFreq_eq_weight right er],
        Node.Wf_shape left hl el, Node.Wf_shape right hr er⟩

theorem Node.Wf_single : ∀ (t : Node), t.Wf → t.leafCount = 1 →
    ∃ c f, t = Node.leaf c f
  | .nil, h, _ => by simp [Node.Wf] at h
  | .node c f left right, h, h1 => by
    simp only [Node.Wf] at h
    rcases h with ⟨rfl, rfl⟩ | ⟨hl, hr⟩
    · exact ⟨c, f, rfl⟩
    · exfalso
      have hleaf := Node.Wf_isLeaf_false left right hl
      have l2 := (Node.Wf_counts left hl).2
      have r2 := (Node.Wf_counts right hr).2
      simp only [Node.leafCount, hleaf, Bool.false_eq_true, if_false] at h1
      omega

theorem createAndBuildMinHeapFrom_total : ∀ (arr : List Nat) (freq : List Int) (h : MinHeap),
    arr.length ≤ freq.length →
      createAndBuildMinHeapFrom arr freq h
        = .ok (h ++ (arr.zip freq).map (fun e => Node.leaf e.1 e.2))
  | [], _, h, _ => by simp [createAndBuildMinHeapFrom]
  | a :: arr, [], h, hl => by simp at hl
  | a :: arr, f :: freq, h, hl => by
    simp only [createAndBuildMinHeapFrom]
    rw [createAndBuildMinHeapFrom_total arr freq _ (by simpa using hl)]
    simp [MinHeap.push]

/-- For a table that is not empty `buildHuffmanTree` returns a tree. -/
theorem buildHuffmanTree_total (arr : List Nat) (freq : List Int) (hne : arr ≠ [])
    (hlen : arr.length ≤ freq.length) :
    ∃ heap root, createAndBuildMinHeap arr freq = .ok heap ∧ heap.length = arr.length
      ∧ (∀ t ∈ heap, t.Wf) ∧ buildHuffmanTree arr freq = .ok root := by
  have hc := createAndBuildMinHeapFrom_total arr freq [] hlen
  rw [List.nil_append] at hc
  have hl : ((arr.zip freq).map (fun e => Node.leaf e.1 e.2)).length = arr.length := by
    rw [List.length_map, List.length_zip, Nat.min_eq_left hlen]
  have hwf : ∀ t ∈ (arr.zip freq).map (fun e => Node.leaf e.1 e.2), t.Wf := by
    intro t ht
    obtain ⟨e, -, rfl⟩ := List.mem_map.mp ht
    simp [Node.leaf, Node.Wf]
  obtain ⟨n, hn⟩ : ∃ n, arr.length = n + 1 :=
    ⟨arr.length - 1, by have := List.length_pos.mpr hne; omega⟩
  obtain ⟨root, r1, -⟩ := mergeLoop_optimal n _ (hl.trans hn) hwf
  exact ⟨_, root, hc, hl, hwf, by simp only [buildHuffmanTree, createAndBuildMinHeap, hc, r1]⟩

/-- C17, as stated, fails: for the table `a:2147483647, b:1` the `int` sum
`left->freq + right->freq` of the one merge overflows; the root of the tree
returned by `buildHuffmanTree` has the frequency `-2147483648`, which is not
the sum `2147483648` of the frequencies of its two children. -/
theorem tree_shape_overflow :
    buildHuffmanTree [97, 98] [2147483647, 1]
        = .ok (Node.node 36 (-2147483648) (Node.leaf 98 1) (Node.leaf 97 2147483647))
    ∧ (Node.leaf 98 1).getFreq + (Node.leaf 97 2147483647).getFreq = 2147483648
    ∧ ¬ (Node.node 36 (-2147483648) (Node.leaf 98 1) (Node.leaf 97 2147483647)).Shape := by
  refine ⟨?_, by decide, ?_⟩
  · simp [buildHuffmanTree, createAndBuildMinHeap, createAndBuildMinHeapFrom, mergeLoop,
      MinHeap.push, MinHeap.top, MinHeap.popTop, Compare, Node.getFreq, Node.leaf, addInt]
  · simp [Node.Shape, Node.leaf, Node.getFreq, isLeaf, Node.isNull]

/-- C17, amended. Tree shape: for every table with `N ≥ 1` entries the tree
returned by `buildHuffmanTree` has exactly `N` leaves, which carry exactly the
(symbol, frequency) entries of the table, and exactly `N - 1` internal nodes,
each of which has both children (`Wf`); when the absolute values of the
frequencies sum to less than `2 ^ 31`, so that no `int` sum overflows, the
frequency of each internal node is the sum of the frequencies of its two
children (`Shape`); for `N = 1` the root is a single leaf. -/
theorem tree_shape (arr : List Nat) (freq : List Int) (hne : arr ≠ [])
    (hlen : arr.length = freq.length) :
    ∃ root, buildHuffmanTree arr freq = .ok root
      ∧ List.Perm root.entries (arr.zip freq)
      ∧ root.leafCount = arr.length
      ∧ root.internalCount = arr.length - 1
      ∧ root.Wf
      ∧ ((freq.map (fun f => |f|)).sum < 2147483648 → root.Shape)
      ∧ (arr.length = 1 → ∃ s c, root = Node.leaf s c ∧ arr = [s] ∧ freq = [c]) := by
  obtain ⟨heap, root, -, -, -, hroot⟩ := buildHuffmanTree_total arr freq hne (le_of_eq hlen)
  obtain ⟨-, hwf, hperm, hex⟩ := buildHuffmanTree_facts arr freq root hroot
  obtain ⟨c1, c2⟩ := Node.Wf_counts root hwf
  have hN : root.leafCount = arr.length := by
    rw [c1, hperm.length_eq, List.length_zip, ← hlen, Nat.min_self]
  have habs : (arr.zip freq).map (fun e => |e.2|) = freq.map (fun f => |f|) := by
    have h2 : (arr.zip freq).map Prod.snd = freq := List.map_snd_zip arr freq (ge_of_eq hlen)
    conv_rhs => rw [← h2]
    rw [List.map_map]
    rfl
  refine ⟨root, hroot, hperm, hN, by omega, hwf,
    fun hb => Node.Wf_shape root hwf (hex (by rw [habs]; exact hb)).1, ?_⟩
  intro h1
  obtain ⟨s, c, rfl⟩ := Node.Wf_single root hwf (hN.trans h1)
  obtain ⟨a, rfl⟩ := List.length_eq_one.mp h1
  obtain ⟨f, rfl⟩ := List.length_eq_one.mp (hlen ▸ h1 : freq.length = 1)
  have : (s, c) = (a, f) := by
    simpa [Node.leaf, Node.entries, isLeaf, Node.isNull] using hperm
  simp only [Prod.mk.injEq] at this
  exact ⟨s, c, rfl, by rw [this.1], by rw [this.2]⟩

/-- C17, amended, at the table of `main`, whose frequencies sum to 100. -/
theorem tree_shape_witness :
    (([5, 9, 12, 13, 16, 45] : List Int).map (fun f => |f|)).sum < 2147483648
    ∧ ∃ root, buildHuffmanTree [97, 98, 99, 100, 101, 102] [5, 9, 12, 13, 16, 45] = .ok root
      ∧ List.Perm root.entries
          (([97, 98, 99, 100, 101, 102] : List Nat).zip [5, 9, 12, 13, 16, 45])
      ∧ root.leafCount = ([97, 98, 99, 100, 101, 102] : List Nat).length
      ∧ root.internalCount = ([97, 98, 99, 100, 101, 102] : List Nat).length - 1
      ∧ root.Wf
      ∧ ((([5, 9, 12, 13, 16, 45] : List Int).map (fun f => |f|)).sum < 2147483648 → root.Shape)
      ∧ (([97, 98, 99, 100, 101, 102] : List Nat).length = 1 →
          ∃ s c, root = Node.leaf s c ∧ ([97, 98, 99, 100, 101, 102] : List Nat) = [s]
            ∧ ([5, 9, 12, 13, 16, 45] : List Int) = [c]) :=
  ⟨by decide,
    tree_shape [97, 98, 99, 100, 101, 102] [5, 9, 12, 13, 16, 45] (by decide) (by decide)⟩

/-- The loop of `buildHuffmanTree` on a queue of `n + 1` nodes: the body runs
`n` times, the queue loses one node each time, and the node left is returned. -/
theorem mergeTimes_spec : ∀ (n : Nat) (heap : MinHeap), heap.length = n + 1 →
    ∃ root, mergeTimes n heap = .ok [root] ∧ mergeLoop heap = .ok root
      ∧ ∀ k, k ≤ n → ∃ hk, mergeTimes k heap = .ok hk ∧ hk.length = n + 1 - k
  | 0, heap, hlen => by
    obtain ⟨t, rfl⟩ := List.length_eq_one.mp hlen
    refine ⟨t, rfl, mergeLoop_single t, ?_⟩
    intro k hk
    have : k = 0 := by omega
    subst this
    exact ⟨[t], rfl, rfl⟩
  | n + 1, heap, hlen => by
    have hne : heap ≠ [] := by intro h; simp [h] at hlen
    obtain ⟨x, h1, hx⟩ := MinHeap.popTop_isSome heap hne
    have hl1 := MinHeap.popTop_length heap x h1 hx
    have hne1 : h1 ≠ [] := by intro h; simp [h] at hl1; omega
    obtain ⟨y, h2, hy⟩ := MinHeap.popTop_isSome h1 hne1
    have hl2 := MinHeap.popTop_length h1 y h2 hy
    have hstep : mergeOnce heap
        = .ok (MinHeap.push h2 (Node.node 36 (addInt x.getFreq y.getFreq) x y)) := by
      simp only [mergeOnce, hx, hy]
    have hlen2 : (MinHeap.push h2 (Node.node 36 (addInt x.getFreq y.getFreq) x y)).length = n + 1 := by
      simp only [MinHeap.push, List.length_append, List.length_singleton]; omega
    obtain ⟨root, r1, r2, r3⟩ := mergeTimes_spec n _ hlen2
    refine ⟨root, by simp only [mergeTimes, hstep]; exact r1, ?_, ?_⟩
    · rw [mergeLoop_step heap x y h1 h2 (by omega) hx hy]
      exact r2
    · intro k hk
      cases k with
      | zero => exact ⟨heap, rfl, by omega⟩
      | succ k =>
        obtain ⟨hk1, e1, e2⟩ := r3 k (by omega)
        exact ⟨hk1, by simp only [mergeTimes, hstep]; exact e1, by omega⟩

/-- C18. Termination of the tree construction: for every table with `N ≥ 1`
entries the loop of `buildHuffmanTree` ends after exactly `N - 1` merges: after
`k ≤ N - 1` executions of its body the queue has `N - k` nodes, so its size is
1 for the first time after `N - 1` of them, and the node then left is the
tree returned. -/
theorem merge_loop_length (arr : List Nat) (freq : List Int) (hne : arr ≠ [])
    (hlen : arr.length ≤ freq.length) :
    ∃ heap root, createAndBuildMinHeap arr freq = .ok heap ∧ heap.length = arr.length
      ∧ (∀ k, k ≤ arr.length - 1 →
          ∃ hk, mergeTimes k heap = .ok hk ∧ hk.length = arr.length - k)
      ∧ (∀ k, k < arr.length - 1 →
          ∃ hk, mergeTimes k heap = .ok hk ∧ hk.length ≠ 1)
      ∧ mergeTimes (arr.length - 1) heap = .ok [root]
      ∧ buildHuffmanTree arr freq = .ok root := by
  obtain ⟨heap, root0, hc, hl, -, -⟩ := buildHuffmanTree_total arr freq hne hlen
  obtain ⟨n, hn⟩ : ∃ n, arr.length = n + 1 :=
    ⟨arr.length - 1, by have := List.length_pos.mpr hne; omega⟩
  obtain ⟨root, r1, r2, r3⟩ := mergeTimes_spec n heap (hl.trans hn)
  have e : arr.length - 1 = n := by omega
  refine ⟨heap, root, hc, hl, ?_, ?_, by rw [e]; exact r1,
    by simp only [buildHuffmanTree, hc, r2]⟩
  · intro k hk
    obtain ⟨h1, e1, e2⟩ := r3 k (by omega)
    exact ⟨h1, e1, by omega⟩
  · intro k hk
    obtain ⟨h1, e1, e2⟩ := r3 k (by omega)
    exact ⟨h1, e1, by omega⟩

/-- C18 at the table of `main`: five merges. -/
theorem merge_loop_length_witness :
    ∃ heap root,
      createAndBuildMinHeap [97, 98, 99, 100, 101, 102] [5, 9, 12, 13, 16, 45] = .ok heap
      ∧ heap.length = ([97, 98, 99, 100, 101, 102] : List Nat).length
      ∧ (∀ k, k ≤ ([97, 98, 99, 100, 101, 102] : List Nat).length - 1 →
          ∃ hk, mergeTimes k heap = .ok hk
            ∧ hk.length = ([97, 98, 99, 100, 101, 102] : List Nat).length - k)
      ∧ (∀ k, k < ([97, 98, 99, 100, 101, 102] : List Nat).length - 1 →
          ∃ hk, mergeTimes k heap = .ok hk ∧ hk.length ≠ 1)
      ∧ mergeTimes (([97, 98, 99, 100, 101, 102] : List Nat).length - 1) heap = .ok [root]
      ∧ buildHuffmanTree [97, 98, 99, 100, 101, 102] [5, 9, 12, 13, 16, 45] = .ok root :=
  merge_loop_length [97, 98, 99, 100, 101, 102] [5, 9, 12, 13, 16, 45] (by decide) (by decide)

/-! ## The output of the unpacker -/

/-- What a walk adds to the output: as many symbols as the count goes down,
each the symbol of a terminal node of the tree. -/
theorem walk_output (tree : Tree) :
    ∀ (m : Nat) (bs : List Nat) (n : Nat) (temp : Tree) (outFile : List Nat),
      bs.length + n ≤ m → (∀ g ∈ temp.symbols, g ∈ tree.symbols) →
      ∀ (n1 : Nat) (temp1 : Tree) (out1 : List Nat),
        walk tree bs n temp outFile = .ok (n1, temp1, out1) →
        ∃ emitted, out1 = outFile ++ emitted ∧ emitted.length + n1 = n
          ∧ (∀ g ∈ emitted, g ∈ tree.symbols) := by
  intro m
  induction m with
  | zero =>
    intro bs n temp outFile hm _ n1 temp1 out1 h
    have h1 : bs = [] := List.length_eq_zero.mp (by omega)
    subst h1
    simp only [walk, Except.ok.injEq, Prod.mk.injEq] at h
    obtain ⟨rfl, -, rfl⟩ := h
    exact ⟨[], by simp, by simp, by simp⟩
  | succ m ih =>
    intro bs n temp outFile hm hsub n1 temp1 out1 h
    cases bs with
    | nil =>
      simp only [walk, Except.ok.injEq, Prod.mk.injEq] at h
      obtain ⟨rfl, -, rfl⟩ := h
      exact ⟨[], by simp, by simp, by simp⟩
    | cons b bs =>
      cases n with
      | zero =>
        simp only [walk, Except.ok.injEq, Prod.mk.injEq] at h
        obtain ⟨rfl, -, rfl⟩ := h
        exact ⟨[], by simp, by simp, by simp⟩
      | succ n =>
        cases temp with
        | nil => simp [walk] at h
        | node g len dec left right =>
          rw [walk] at h
          by_cases hr : isRoot left right
          · simp only [hr, Bool.not_true, Bool.false_eq_true, if_false] at h
            obtain ⟨em, e1, e2, e3⟩ := ih (b :: bs) n tree (outFile ++ [g])
              (by simp only [List.length_cons] at hm ⊢; omega) (fun _ hg => hg) n1 temp1 out1 h
            have hg : g ∈ tree.symbols := hsub g (by simp [Tree.symbols, hr])
            refine ⟨g :: em, by rw [e1]; simp, by simp only [List.length_cons]; omega, ?_⟩
            intro x hx
            rcases List.mem_cons.mp hx with rfl | hx
            · exact hg
            · exact e3 x hx
          · simp only [hr, Bool.not_false, if_true] at h
            refine ih bs (n + 1) _ outFile (by simp only [List.length_cons] at hm; omega) ?_
              n1 temp1 out1 h
            intro x hx
            apply hsub
            simp only [Tree.symbols, hr, Bool.false_eq_true, if_false, List.mem_append]
            split at hx
            · exact Or.inl hx
            · exact Or.inr hx

/-- C19. Output bound: for every decoder tree whose non-terminal nodes have
both children, every payload and every `fileLength = M ≥ 0`, `decompressFile`
returns an output of at most `M` symbols, each the symbol stored at a
childless node of the tree; once `M` symbols are out, further payload bytes
(padding or extra bytes) add nothing to the output. -/
theorem decompress_output_bound (tree : Tree) (payload : List Nat) (M : Int)
    (hT : tree.Full) (hM : 0 ≤ M) :
    ∃ out, decompressFile ⟨payload, false⟩ [] tree M = .ok out
      ∧ (out.length : Int) ≤ M
      ∧ (∀ g ∈ out, g ∈ tree.symbols)
      ∧ ((out.length : Int) = M →
          ∀ extra, decompressFile ⟨payload ++ extra, false⟩ [] tree M = .ok out) := by
  obtain ⟨n1, temp1, out1, hw, -⟩ :=
    walk_full tree hT _ (payloadBits payload) M.toNat tree [] (le_refl _) hT
  obtain ⟨em, e1, e2, e3⟩ := walk_output tree _ (payloadBits payload) M.toNat tree []
    (le_refl _) (fun _ hg => hg) n1 temp1 out1 hw
  rw [List.nil_append] at e1
  subst e1
  refine ⟨out1, by rw [decompressFile_eq_walk, hw]; rfl, by omega, e3, ?_⟩
  intro hfull extra
  have hn1 : n1 = 0 := by omega
  subst hn1
  have hP : payloadBits (payload ++ extra) = payloadBits payload ++ payloadBits extra := by
    simp [payloadBits]
  rw [decompressFile_eq_walk, hP,
    walk_append tree (payloadBits extra) _ (payloadBits payload) M.toNat tree [] (le_refl _), hw]
  cases payloadBits extra <;> simp [walk, Except.map]

/-- C19 at the two-leaf tree, the payload `0x00` and `M = 3`. -/
theorem decompress_output_bound_witness :
    ∃ out, decompressFile ⟨[0], false⟩ []
        (.node 0 0 0 (.node 97 1 0 .nil .nil) (.node 98 1 1 .nil .nil)) 3 = .ok out
      ∧ (out.length : Int) ≤ 3
      ∧ (∀ g ∈ out,
          g ∈ Tree.symbols (.node 0 0 0 (.node 97 1 0 .nil .nil) (.node 98 1 1 .nil .nil)))
      ∧ ((out.length : Int) = 3 →
          ∀ extra, decompressFile ⟨[0] ++ extra, false⟩ []
            (.node 0 0 0 (.node 97 1 0 .nil .nil) (.node 98 1 1 .nil .nil)) 3 = .ok out) :=
  decompress_output_bound _ [0] 3 (by simp [Tree.Full]) (by decide)

/-! ## The full bytes of the packer -/

theorem shl_or_bit (a b : Nat) (hb : b ≤ 1) : a <<< 1 ||| b = 2 * a + b := by
  have h1 : a <<< 1 = 2 ^ 1 * a := by rw [Nat.shiftLeft_eq, Nat.mul_comm]
  rw [h1, ← Nat.mul_add_lt_is_or (by omega) a]

theorem bitsVal_snoc (r : List Nat) (b : Nat) : bitsVal (r ++ [b]) = 2 * bitsVal r + b := by
  simp [bitsVal, List.foldl_append]

theorem bitsVal_lt (r : List Nat) : (∀ b ∈ r, b ≤ 1) → bitsVal r < 2 ^ r.length := by
  induction r using List.reverseRecOn with
  | nil => intro _; simp [bitsVal]
  | append_singleton r b ih =>
    intro h
    have h1 := ih (fun x hx => h x (List.mem_append_left _ hx))
    have h2 : b ≤ 1 := h b (by simp)
    rw [bitsVal_snoc, List.length_append, List.length_singleton, pow_succ]
    omega

/-- What one more bit does to the full bytes and to the bits left over. -/
theorem fullBytes_snoc (L : List Nat) (b : Nat) :
    (L.length % 8 < 7 →
      fullBytes (L ++ [b]) = fullBytes L
      ∧ (L ++ [b]).drop (8 * ((L ++ [b]).length / 8)) = L.drop (8 * (L.length / 8)) ++ [b])
    ∧ (L.length % 8 = 7 →
      fullBytes (L ++ [b]) = fullBytes L ++ [bitsVal (L.drop (8 * (L.length / 8)) ++ [b])]
      ∧ (L ++ [b]).drop (8 * ((L ++ [b]).length / 8)) = []) := by
  have hlen : (L ++ [b]).length = L.length + 1 := by simp
  have hcongr : ∀ j ∈ List.range (L.length / 8),
      bitsVal (((L ++ [b]).drop (8 * j)).take 8) = bitsVal ((L.drop (8 * j)).take 8) := by
    intro j hj
    have hj1 : j < L.length / 8 := List.mem_range.mp hj
    have h8 : 8 * j + 8 ≤ L.length := by omega
    rw [List.drop_append_of_le_length (by omega),
      List.take_append_of_le_length (by rw [List.length_drop]; omega)]
  constructor
  · intro h7
    have hq : (L.length + 1) / 8 = L.length / 8 := by omega
    constructor
    · simp only [fullBytes, hlen, hq]
      exact List.map_congr_left hcongr
    · rw [hlen, hq, List.drop_append_of_le_length (by omega)]
  · intro h7
    have hq : (L.length + 1) / 8 = L.length / 8 + 1 := by omega
    constructor
    · simp only [fullBytes, hlen, hq, List.range_succ, List.map_append, List.map_cons,
        List.map_nil]
      rw [List.map_congr_left hcongr, List.drop_append_of_le_length (by omega),
        List.take_of_length_le (by
          rw [List.length_append, List.length_drop, List.length_singleton]; omega)]
    · rw [hlen, hq]
      exact List.drop_eq_nil_of_le (by rw [hlen]; omega)

/-- The inner loop of `compressFile`, started after the bits `L`, has put the
full bytes of `L ++ code` and keeps the bits left over. -/
theorem packCode_spec (out0 : List Nat) :
    ∀ (code L : List Nat) (a h : Nat) (outFile : List Nat),
      (∀ b ∈ code, b ≤ 1) → (∀ b ∈ L, b ≤ 1) → h = L.length % 8 →
      a = bitsVal (L.drop (8 * (L.length / 8))) → outFile = out0 ++ fullBytes L →
      packCode code a h outFile
        = (bitsVal ((L ++ code).drop (8 * ((L ++ code).length / 8))), (L ++ code).length % 8,
            out0 ++ fullBytes (L ++ code))
  | [], L, a, h, outFile, _, _, hh, ha, ho => by
    simp only [packCode, List.append_nil, hh, ha, ho]
  | b :: code, L, a, h, outFile, hc, hL, hh, ha, ho => by
    have hb : b ≤ 1 := hc b (List.mem_cons_self _ _)
    have hL1 : ∀ x ∈ L ++ [b], x ≤ 1 := by
      intro x hx
      rcases List.mem_append.mp hx with hx | hx
      · exact hL x hx
      · rw [List.mem_singleton.mp hx]; exact hb
    have hrem : ∀ x ∈ L.drop (8 * (L.length / 8)), x ≤ 1 :=
      fun x hx => hL x (List.mem_of_mem_drop hx)
    have hlt := bitsVal_lt _ hrem
    have hrl : (L.drop (8 * (L.length / 8))).length = L.length % 8 := by
      rw [List.length_drop]; omega
    rw [hrl] at hlt
    have hpow : 2 ^ (L.length % 8) ≤ 2 ^ 7 :=
      Nat.pow_le_pow_right (by omega) (by omega)
    have hbyte : (a <<< 1 ||| b) % 256 = bitsVal (L.drop (8 * (L.length / 8)) ++ [b]) := by
      rw [shl_or_bit a b hb, bitsVal_snoc, ← ha]
      apply Nat.mod_eq_of_lt
      rw [ha]
      omega
    have happ : L ++ b :: code = (L ++ [b]) ++ code := by simp
    obtain ⟨s1, s2⟩ := fullBytes_snoc L b
    rw [packCode, happ]
    by_cases h7 : h < 7
    · simp only [h7, if_true]
      obtain ⟨f1, f2⟩ := s1 (by omega)
      exact packCode_spec out0 code (L ++ [b]) _ _ outFile
        (fun x hx => hc x (List.mem_cons_of_mem _ hx)) hL1
        (by rw [List.length_append, List.length_singleton]; omega)
        (by rw [hbyte, f2]) (by rw [f1]; exact ho)
    · simp only [h7, if_false]
      obtain ⟨f1, f2⟩ := s2 (by omega)
      exact packCode_spec out0 code (L ++ [b]) _ _ _
        (fun x hx => hc x (List.mem_cons_of_mem _ hx)) hL1
        (by rw [List.length_append, List.length_singleton]; omega)
        (by rw [f2]; rfl) (by rw [f1, hbyte, ho, List.append_assoc])

/-- The main loop of `compressFile`, started after the bits `L`, has put the
full bytes of `L ++ B`, with `B` the code bits of the input. -/
theorem packInput_spec (huffmanCode : CodeMap) (out0 : List Nat) :
    ∀ (inFile L : List Nat) (a h : Nat) (outFile B : List Nat),
      codeBits huffmanCode inFile = some B → (∀ b ∈ B, b ≤ 1) → (∀ b ∈ L, b ≤ 1) →
      h = L.length % 8 → a = bitsVal (L.drop (8 * (L.length / 8))) →
      outFile = out0 ++ fullBytes L →
      packInput huffmanCode inFile a h outFile
        = .ok (bitsVal ((L ++ B).drop (8 * ((L ++ B).length / 8))), (L ++ B).length % 8,
            out0 ++ fullBytes (L ++ B))
  | [], L, a, h, outFile, B, hB, _, _, hh, ha, ho => by
    simp only [codeBits, Option.some.injEq] at hB
    subst hB
    simp only [packInput, List.append_nil, hh, ha, ho]
  | n :: inFile, L, a, h, outFile, B, hB, hbits, hL, hh, ha, ho => by
    simp only [codeBits] at hB
    cases hc : huffmanCode.at? n with
    | none => simp [hc] at hB
    | some code =>
      cases hr : codeBits huffmanCode inFile with
      | none => simp [hc, hr] at hB
      | some rest =>
        simp only [hc, hr, Option.some.injEq] at hB
        subst hB
        have hcode : ∀ b ∈ code, b ≤ 1 := fun b hb => hbits b (List.mem_append_left _ hb)
        have hrest : ∀ b ∈ rest, b ≤ 1 := fun b hb => hbits b (List.mem_append_right _ hb)
        have hLc : ∀ b ∈ L ++ code, b ≤ 1 := by
          intro b hb
          rcases List.mem_append.mp hb with hb | hb
          · exact hL b hb
          · exact hcode b hb
        simp only [packInput, hc, packCode_spec out0 code L a h outFile hcode hL hh ha ho]
        rw [← List.append_assoc]
        exact packInput_spec huffmanCode out0 inFile (L ++ code) _ _ _ rest hr hrest hLc rfl rfl rfl

/-- C15. Full packed bytes: for every input and mapping covering it whose
codes are made of the bits 0 and 1, with `B` the concatenation of the codes of
the input bytes in input order, for every `j < |B| / 8` the `j`-th byte that
`compressFile` appends to `outFile` is `B[8j] ... B[8j+7]` read as a binary
number with `B[8j]` as the most significant bit. -/
theorem full_packed_bytes (huffmanCode : CodeMap) (inFile outFile B : List Nat)
    (hB : codeBits huffmanCode inFile = some B) (hbits : ∀ b ∈ B, b ≤ 1) :
    ∃ out, compressFile inFile outFile huffmanCode = .ok out
      ∧ ∀ j, j < B.length / 8 →
          out[outFile.length + j]? = some (bitsVal ((B.drop (8 * j)).take 8)) := by
  have h := packInput_spec huffmanCode outFile inFile [] 0 0 outFile B hB hbits (by simp)
    (by simp) (by simp [bitsVal]) (by simp [fullBytes])
  rw [List.nil_append] at h
  refine ⟨outFile ++ fullBytes B
      ++ [padShift (7 - B.length % 8) (bitsVal (List.drop (8 * (B.length / 8)) B))],
    by simp only [compressFile, h], ?_⟩
  intro j hj
  have hlen : (fullBytes B).length = B.length / 8 := by simp [fullBytes]
  rw [List.append_assoc, List.getElem?_append_right (by omega), Nat.add_sub_cancel_left,
    List.getElem?_append_left (by omega)]
  simp only [fullBytes, List.getElem?_map, List.getElem?_range hj, Option.map_some']

/-- C15 at the mapping `a ↦ 10` and the input of four bytes `a`: the byte
`10101010`. -/
theorem full_packed_bytes_witness :
    ∃ out, compressFile [97, 97, 97, 97] [] [(97, [1, 0])] = .ok out
      ∧ ∀ j, j < ([1, 0, 1, 0, 1, 0, 1, 0] : List Nat).length / 8 →
          out[([] : List Nat).length + j]?
            = some (bitsVal ((([1, 0, 1, 0, 1, 0, 1, 0] : List Nat).drop (8 * j)).take 8)) :=
  full_packed_bytes [(97, [1, 0])] [97, 97, 97, 97] [] [1, 0, 1, 0, 1, 0, 1, 0]
    (by decide) (by decide)

/-! ## Reading the code table back -/

theorem intOfBytes_intBytes (v : Int) (h1 : -2147483648 ≤ v) (h2 : v < 2147483648) :
    intOfBytes (intBytes v) = v := by
  simp only [intOfBytes, intBytes, List.getD_cons_zero, List.getD_cons_succ, toInt32]
  have hn : ((v % 4294967296).toNat : Int) = v % 4294967296 :=
    Int.toNat_of_nonneg (Int.emod_nonneg _ (by decide))
  generalize hnn : (v % 4294967296).toNat = n at hn
  have hlt : n < 4294967296 := by omega
  have hsum : n % 256 + 256 * (n / 256 % 256) + 65536 * (n / 65536 % 256)
      + 16777216 * (n / 16777216 % 256) = n := by omega
  rw [hsum, Nat.mod_eq_of_lt hlt]
  split <;> omega

/-- The string `bin_str` that `rebuildHuffmanTree` computes for a record is
its bit path, as characters. -/
theorem substrFrom_path (r : CodeRecord) (h0 : 0 ≤ r.len) (h32 : r.len ≤ 32) :
    substrFrom (bitset32ToString r.dec) r.len = .ok (r.path.map (fun b => 48 + b)) := by
  obtain ⟨g, len, dec⟩ := r
  simp only at h0 h32
  obtain ⟨n, rfl⟩ := Int.eq_ofNat_of_zero_le h0
  have hn : n ≤ 32 := by omega
  simp only [substrFrom, h0, h32, and_self, if_true, CodeRecord.path, Int.toNat_ofNat,
    bitset32ToString, Except.ok.injEq]
  have e : ((32 : Int) - (n : Int)).toNat = 32 - n := by omega
  rw [e]
  interval_cases n <;> rfl

theorem IFStream.read_four (a b c d : Nat) (rest : List Nat) :
    IFStream.read ⟨a :: b :: c :: d :: rest, false⟩ 4 = ([a, b, c, d], ⟨rest, false⟩) := by
  have h : ¬ (rest.length + 1 + 1 + 1 + 1 < 4) := by omega
  simp [IFStream.read, h]

theorem extractCodesFromFile_bytes (r : CodeRecord) (hr : r.Valid) (rest : List Nat) :
    extractCodesFromFile ⟨r.bytes ++ rest, false⟩ = ((r.g, r.len, r.dec), ⟨rest, false⟩) := by
  obtain ⟨h0, h32, d1, d2⟩ := hr
  have hl := intOfBytes_intBytes r.len (by omega) (by omega)
  have hd := intOfBytes_intBytes r.dec d1 d2
  simp only [intBytes] at hl hd
  simp only [extractCodesFromFile, CodeRecord.bytes, intBytes, List.cons_append,
    List.nil_append, IFStream.get, Bool.false_eq_true, if_false, IFStream.read_four, hl, hd,
    Option.getD_some]

/-- The loop of `rebuildHuffmanTree` over a stream that starts with the bytes
of the records `rs` inserts the records one by one and leaves the stream
after them. -/
theorem rebuildLoop_records (rest : List Nat) :
    ∀ (rs : List CodeRecord) (tree : Tree), (∀ r ∈ rs, r.Valid) →
      rebuildLoop rs.length ⟨rs.flatMap CodeRecord.bytes ++ rest, false⟩ tree
        = .ok (⟨rest, false⟩, rs.foldl insertRecord tree)
  | [], tree, _ => by simp [rebuildLoop]
  | r :: rs, tree, h => by
    have hr := h r (List.mem_cons_self _ _)
    simp only [List.length_cons, rebuildLoop, List.flatMap_cons, List.append_assoc,
      extractCodesFromFile_bytes r hr, substrFrom_path r hr.1 hr.2.1, List.foldl_cons]
    exact rebuildLoop_records rest rs _ (fun x hx => h x (List.mem_cons_of_mem _ hx))

theorem rebuildHuffmanTree_records (rs : List CodeRecord) (rest : List Nat)
    (h : ∀ r ∈ rs, r.Valid) :
    rebuildHuffmanTree ⟨rs.flatMap CodeRecord.bytes ++ rest, false⟩ rs.length
      = .ok (⟨rest, false⟩, rs.foldl insertRecord Tree.new) := by
  simp only [rebuildHuffmanTree, Int.toNat_ofNat]
  exact rebuildLoop_records rest rs Tree.new h

/-- C13, as stated, fails: for the records (`a`, length 1, value 0) and
(`b`, length 2, value 1), where the code 0 of `a` is a prefix of the code 01 of
`b`, `rebuildHuffmanTree` does not fail: it returns the tree in which the node
of `a` has the node of `b` as its right child. -/
theorem corrupt_table_accepted :
    CodeRecord.path ⟨97, 1, 0⟩ = [0] ∧ CodeRecord.path ⟨98, 2, 1⟩ = [0, 1]
    ∧ rebuildHuffmanTree ⟨[97, 1, 0, 0, 0, 0, 0, 0, 0, 98, 2, 0, 0, 0, 1, 0, 0, 0], false⟩ 2
      = .ok (⟨[], false⟩,
          .node 0 0 0 (.node 97 1 0 .nil (.node 98 2 1 .nil .nil)) .nil) := by
  refine ⟨by decide, by decide, ?_⟩
  have h := rebuildHuffmanTree_records [⟨97, 1, 0⟩, ⟨98, 2, 1⟩] []
    (by simp [CodeRecord.Valid])
  have e : ([⟨97, 1, 0⟩, ⟨98, 2, 1⟩] : List CodeRecord).foldl insertRecord Tree.new
      = .node 0 0 0 (.node 97 1 0 .nil (.node 98 2 1 .nil .nil)) .nil := by decide
  rw [e] at h
  simpa [CodeRecord.bytes, intBytes] using h

/-- C13, amended: for every sequence of records with lengths from 0 to 32,
prefix-free or not, `rebuildHuffmanTree` returns normally: its tree is the
result of inserting the records one after the other along their bit paths,
without any check of the nodes passed or overwritten. -/
theorem rebuild_accepts_any_table (rs : List CodeRecord) (rest : List Nat)
    (h : ∀ r ∈ rs, r.Valid) :
    rebuildHuffmanTree ⟨rs.flatMap CodeRecord.bytes ++ rest, false⟩ rs.length
      = .ok (⟨rest, false⟩, rs.foldl insertRecord Tree.new) :=
  rebuildHuffmanTree_records rs rest h

/-- C13, amended, at the records (`a`, 1, 0) and (`b`, 2, 1). -/
theorem rebuild_accepts_any_table_witness :
    rebuildHuffmanTree
        ⟨([⟨97, 1, 0⟩, ⟨98, 2, 1⟩] : List CodeRecord).flatMap CodeRecord.bytes ++ [], false⟩
        ([⟨97, 1, 0⟩, ⟨98, 2, 1⟩] : List CodeRecord).length
      = .ok (⟨[], false⟩,
          ([⟨97, 1, 0⟩, ⟨98, 2, 1⟩] : List CodeRecord).foldl insertRecord Tree.new) :=
  rebuild_accepts_any_table [⟨97, 1, 0⟩, ⟨98, 2, 1⟩] [] (by simp [CodeRecord.Valid])

/-! ## The terminal nodes of the rebuilt tree -/

theorem insertCode_isNull : ∀ (t : Tree) (bits : List Nat) (g : Nat) (len dec : Int),
    t.isNull = false → (insertCode t bits g len dec).isNull = false
  | .nil, _, _, _, _, h => by simp [Tree.isNull] at h
  | .node _ _ _ _ _, [], _, _, _, _ => by simp [insertCode, Tree.isNull]
  | .node _ _ _ _ _, b :: bits, _, _, _, _ => by
    simp only [insertCode]
    split <;> simp [Tree.isNull]

theorem Tree.orNew_isNull (t : Tree) : t.orNew.isNull = false := by
  cases t <;> simp [Tree.orNew, Tree.new, Tree.isNull]

theorem Tree.orNew_of_not_null (t : Tree) (h : t.isNull = false) : t.orNew = t := by
  cases t with
  | nil => simp [Tree.isNull] at h
  | node _ _ _ _ _ => rfl

theorem Tree.terminals_ne_nil : ∀ (t : Tree), t.isNull = false → t.terminals ≠ []
  | .nil, h => by simp [Tree.isNull] at h
  | .node g len dec left right, _ => by
    simp only [Tree.terminals]
    by_cases hr : isRoot left right
    · simp [hr]
    · simp only [hr, Bool.false_eq_true, if_false, ne_eq, List.append_eq_nil, List.map_eq_nil_iff,
        not_and]
      intro hl
      have hln : left.isNull = true := by
        by_contra hc
        exact Tree.terminals_ne_nil left (by simpa using hc) hl
      have hrn : right.isNull = false := by
        simp only [isRoot, hln, Bool.true_and] at hr
        simpa using hr
      exact Tree.terminals_ne_nil right hrn

/-- Inserting a code below a childless node leaves one terminal node, at the
end of the code. -/
theorem insertCode_childless (g : Nat) (len dec : Int) :
    ∀ (p : List Nat) (g0 : Nat) (len0 dec0 : Int), (∀ b ∈ p, b ≤ 1) →
      (insertCode (.node g0 len0 dec0 .nil .nil) (p.map (fun b => 48 + b)) g len dec).terminals
        = [(p, g)]
  | [], g0, len0, dec0, _ => by
    simp [insertCode, Tree.terminals, isRoot, Tree.isNull]
  | b :: p, g0, len0, dec0, h => by
    have hb : b ≤ 1 := h b (List.mem_cons_self _ _)
    have ih := insertCode_childless g len dec p 0 0 0 (fun x hx => h x (List.mem_cons_of_mem _ hx))
    have hnn : (insertCode (.node 0 0 0 .nil .nil) (p.map (fun b => 48 + b)) g len dec).isNull
        = false := insertCode_isNull _ _ _ _ _ rfl
    simp only [List.map_cons, insertCode, Tree.orNew, Tree.new]
    have hnil : Tree.isNull .nil = true := rfl
    rcases Nat.le_one_iff_eq_zero_or_eq_one.mp hb with rfl | rfl
    · simp [Tree.terminals, isRoot, hnn, ih, hnil]
    · simp [Tree.terminals, isRoot, hnn, ih, hnil]

/-- Inserting a code that is incomparable with the paths of all terminal nodes
of a tree adds one terminal node, at the end of the code, and keeps the
others. -/
theorem insertCode_terminals (g : Nat) (len dec : Int) :
    ∀ (p : List Nat) (T : Tree), T.isNull = false → (∀ b ∈ p, b ≤ 1) →
      (∀ e ∈ T.terminals, ¬ e.1 <+: p ∧ ¬ p <+: e.1) →
      ∀ x, x ∈ (insertCode T (p.map (fun b => 48 + b)) g len dec).terminals
        ↔ x ∈ T.terminals ∨ x = (p, g)
  | _, .nil, hT, _, _ => by simp [Tree.isNull] at hT
  | [], .node g0 len0 dec0 left right, hT, _, hinc => by
    exfalso
    obtain ⟨e, he⟩ := List.exists_mem_of_ne_nil _ (Tree.terminals_ne_nil _ hT)
    exact (hinc e he).2 List.nil_prefix
  | b :: p, .node g0 len0 dec0 left right, _, hp, hinc => by
    have hb : b ≤ 1 := hp b (List.mem_cons_self _ _)
    have hp1 : ∀ x ∈ p, x ≤ 1 := fun x hx => hp x (List.mem_cons_of_mem _ hx)
    have hr : isRoot left right = false := by
      by_contra hc
      have hc1 : isRoot left right = true := by simpa using hc
      exact (hinc ([], g0) (by simp [Tree.terminals, hc1])).1 List.nil_prefix
    have hterm : (Tree.node g0 len0 dec0 left right).terminals
        = left.terminals.map (fun e => (0 :: e.1, e.2))
          ++ right.terminals.map (fun e => (1 :: e.1, e.2)) := by
      simp [Tree.terminals, hr]
    rw [hterm] at hinc ⊢
    -- the step into one child
    have key : ∀ (child : Tree) (c : Nat),
        (∀ e ∈ child.terminals, ¬ (c :: e.1) <+: (c :: p) ∧ ¬ (c :: p) <+: (c :: e.1)) →
        (insertCode child.orNew (p.map (fun b => 48 + b)) g len dec).isNull = false
        ∧ ∀ x, x ∈ (insertCode child.orNew (p.map (fun b => 48 + b)) g len dec).terminals
            ↔ x ∈ child.terminals ∨ x = (p, g) := by
      intro child c hch
      refine ⟨insertCode_isNull _ _ _ _ _ (Tree.orNew_isNull child), ?_⟩
      by_cases hn : child.isNull
      · have : child = .nil := by cases child <;> simp_all [Tree.isNull]
        subst this
        intro x
        simp [Tree.orNew, Tree.new, insertCode_childless g len dec p 0 0 0 hp1, Tree.terminals]
      · have hn1 : child.isNull = false := by simpa using hn
        rw [Tree.orNew_of_not_null child hn1]
        apply insertCode_terminals g len dec p child hn1 hp1
        intro e he
        have := hch e he
        simpa [List.cons_prefix_cons] using this
    intro x
    rcases Nat.le_one_iff_eq_zero_or_eq_one.mp hb with rfl | rfl
    · obtain ⟨k1, k2⟩ := key left 0 (fun e he =>
        hinc (0 :: e.1, e.2) (List.mem_append_left _ (List.mem_map_of_mem _ he)))
      have hroot : isRoot (insertCode left.orNew (p.map (fun b => 48 + b)) g len dec) right
          = false := by simp [isRoot, k1]
      simp only [List.map_cons, insertCode, Nat.add_zero, if_true, Tree.terminals, hroot,
        Bool.false_eq_true, if_false, List.mem_append, List.mem_map, k2]
      constructor
      · rintro (⟨e, he | rfl, rfl⟩ | h)
        · exact Or.inl (Or.inl ⟨e, he, rfl⟩)
        · exact Or.inr rfl
        · exact Or.inl (Or.inr h)
      · rintro ((⟨e, he, rfl⟩ | h) | rfl)
        · exact Or.inl ⟨e, Or.inl he, rfl⟩
        · exact Or.inr h
        · exact Or.inl ⟨(p, g), Or.inr rfl, rfl⟩
    · obtain ⟨k1, k2⟩ := key right 1 (fun e he =>
        hinc (1 :: e.1, e.2) (List.mem_append_right _ (List.mem_map_of_mem _ he)))
      have hroot : isRoot left (insertCode right.orNew (p.map (fun b => 48 + b)) g len dec)
          = false := by simp [isRoot, k1]
      have h49 : ¬ (48 + 1 = 48) := by omega
      simp only [List.map_cons, insertCode, h49, if_false, Tree.terminals, hroot,
        Bool.false_eq_true, List.mem_append, List.mem_map, k2]
      constructor
      · rintro (h | ⟨e, he | rfl, rfl⟩)
        · exact Or.inl (Or.inl h)
        · exact Or.inl (Or.inr ⟨e, he, rfl⟩)
        · exact Or.inr rfl
      · rintro ((h | ⟨e, he, rfl⟩) | rfl)
        · exact Or.inl h
        · exact Or.inr ⟨e, Or.inl he, rfl⟩
        · exact Or.inr ⟨(p, g), Or.inr rfl, rfl⟩

theorem CodeRecord.path_binary (r : CodeRecord) : ∀ b ∈ r.path, b ≤ 1 := by
  intro b hb
  simp only [CodeRecord.path, List.mem_map] at hb
  obtain ⟨i, -, rfl⟩ := hb
  omega

/-- The path of a terminal node leads to it. -/
theorem Tree.symbolAt_of_mem_terminals : ∀ (t : Tree) (w : List Nat) (g : Nat),
    (w, g) ∈ t.terminals → t.symbolAt w = some g
  | .nil, _, _, h => by simp [Tree.terminals] at h
  | .node g0 len0 dec0 left right, w, g, h => by
    simp only [Tree.terminals] at h
    by_cases hr : isRoot left right
    · simp only [hr, if_true, List.mem_singleton, Prod.mk.injEq] at h
      obtain ⟨rfl, rfl⟩ := h
      simp [Tree.symbolAt, hr]
    · simp only [hr, Bool.false_eq_true, if_false, List.mem_append, List.mem_map,
        Prod.mk.injEq] at h
      rcases h with ⟨e, he, rfl, rfl⟩ | ⟨e, he, rfl, rfl⟩
      · simp only [Tree.symbolAt, hr, Bool.false_eq_true, if_false, if_true]
        exact Tree.symbolAt_of_mem_terminals left e.1 e.2 he
      · simp only [Tree.symbolAt, hr, Bool.false_eq_true, if_false, Nat.one_ne_zero]
        exact Tree.symbolAt_of_mem_terminals right e.1 e.2 he

/-- Inserting records whose paths are incomparable with one another and with
those of the terminal nodes present adds their end nodes as terminal nodes. -/
theorem foldl_insertRecord_terminals :
    ∀ (rs done : List CodeRecord) (T : Tree), T.isNull = false →
      (∀ x, x ∈ T.terminals ↔ ∃ r ∈ done, x = (r.path, r.g)) →
      (∀ r ∈ rs, ∀ d ∈ done, ¬ d.path <+: r.path ∧ ¬ r.path <+: d.path) →
      rs.Pairwise (fun r1 r2 => ¬ r1.path <+: r2.path ∧ ¬ r2.path <+: r1.path) →
      ∀ x, x ∈ (rs.foldl insertRecord T).terminals ↔ ∃ r ∈ done ++ rs, x = (r.path, r.g)
  | [], done, T, _, hT, _, _ => by simpa using hT
  | r :: rs, done, T, hn, hT, hdone, hpw => by
    rw [List.pairwise_cons] at hpw
    have h1 := insertCode_terminals r.g r.len r.dec r.path T hn r.path_binary (by
      intro e he
      obtain ⟨d, hd, rfl⟩ := (hT e).mp he
      exact hdone r (List.mem_cons_self _ _) d hd)
    have h2 := foldl_insertRecord_terminals rs (done ++ [r]) (insertRecord T r)
      (insertCode_isNull _ _ _ _ _ hn)
      (by
        intro x
        rw [insertRecord, h1 x, hT x]
        constructor
        · rintro (⟨d, hd, rfl⟩ | rfl)
          · exact ⟨d, List.mem_append_left _ hd, rfl⟩
          · exact ⟨r, by simp, rfl⟩
        · rintro ⟨d, hd, rfl⟩
          rcases List.mem_append.mp hd with hd | hd
          · exact Or.inl ⟨d, hd, rfl⟩
          · rw [List.mem_singleton.mp hd]; exact Or.inr rfl)
      (by
        intro r1 hr1 d hd
        rcases List.mem_append.mp hd with hd | hd
        · exact hdone r1 (List.mem_cons_of_mem _ hr1) d hd
        · rw [List.mem_singleton.mp hd]; exact hpw.1 r1 hr1)
      hpw.2
    intro x
    rw [List.foldl_cons, h2 x]
    simp

/-- C16, as stated, fails for `N = 0`: with no record at all the tree returned
is the root alone, a childless node that is the end node of no record. -/
theorem rebuild_empty_table_has_terminal :
    rebuildHuffmanTree ⟨[], false⟩ 0 = .ok (⟨[], false⟩, Tree.new)
    ∧ Tree.new.terminals = [([], 0)] := by
  constructor
  · simp [rebuildHuffmanTree, rebuildLoop]
  · simp [Tree.new, Tree.terminals, isRoot, Tree.isNull]

/-- C16, amended: for every sequence of `N ≥ 1` records with lengths from 0 to
32 and bit paths of which none is a prefix of another, `rebuildHuffmanTree`
with size `N` returns a tree whose childless nodes are exactly the end nodes
of the records: the bit path of each record leads from the root to a
childless node that holds its symbol, and every childless node is at the end
of the path of a record and holds its symbol. -/
theorem rebuild_terminals (rs : List CodeRecord) (rest : List Nat) (hne : rs ≠ [])
    (hv : ∀ r ∈ rs, r.Valid)
    (hpf : rs.Pairwise (fun r1 r2 => ¬ r1.path <+: r2.path ∧ ¬ r2.path <+: r1.path)) :
    ∃ tree, rebuildHuffmanTree ⟨rs.flatMap CodeRecord.bytes ++ rest, false⟩ rs.length
        = .ok (⟨rest, false⟩, tree)
      ∧ (∀ r ∈ rs, tree.symbolAt r.path = some r.g)
      ∧ (∀ x, x ∈ tree.terminals ↔ ∃ r ∈ rs, x = (r.path, r.g)) := by
  have hterm : ∀ x, x ∈ (rs.foldl insertRecord Tree.new).terminals
      ↔ ∃ r ∈ rs, x = (r.path, r.g) := by
    cases rs with
    | nil => exact absurd rfl hne
    | cons r1 rs1 =>
      rw [List.pairwise_cons] at hpf
      have h1 : (insertRecord Tree.new r1).terminals = [(r1.path, r1.g)] :=
        insertCode_childless r1.g r1.len r1.dec r1.path 0 0 0 r1.path_binary
      have h2 := foldl_insertRecord_terminals rs1 [r1] (insertRecord Tree.new r1)
        (insertCode_isNull _ _ _ _ _ rfl) (by intro x; simp [h1])
        (by
          intro r hr d hd
          rw [List.mem_singleton.mp hd]
          exact hpf.1 r hr)
        hpf.2
      intro x
      rw [List.foldl_cons, h2 x]
      simp
  refine ⟨_, rebuildHuffmanTree_records rs rest hv, ?_, hterm⟩
  intro r hr
  exact Tree.symbolAt_of_mem_terminals _ _ _ ((hterm _).mpr ⟨r, hr, rfl⟩)

/-- C16, amended, at the records (`a`, 1, 0), (`b`, 2, 2) and (`c`, 2, 3): the
codes 0, 10 and 11. -/
theorem rebuild_terminals_witness :
    ∃ tree,
      rebuildHuffmanTree
          ⟨([⟨97, 1, 0⟩, ⟨98, 2, 2⟩, ⟨99, 2, 3⟩] : List CodeRecord).flatMap CodeRecord.bytes
            ++ [], false⟩
          ([⟨97, 1, 0⟩, ⟨98, 2, 2⟩, ⟨99, 2, 3⟩] : List CodeRecord).length
        = .ok (⟨[], false⟩, tree)
      ∧ (∀ r ∈ ([⟨97, 1, 0⟩, ⟨98, 2, 2⟩, ⟨99, 2, 3⟩] : List CodeRecord),
          tree.symbolAt r.path = some r.g)
      ∧ (∀ x, x ∈ tree.terminals
          ↔ ∃ r ∈ ([⟨97, 1, 0⟩, ⟨98, 2, 2⟩, ⟨99, 2, 3⟩] : List CodeRecord), x = (r.path, r.g)) :=
  rebuild_terminals [⟨97, 1, 0⟩, ⟨98, 2, 2⟩, ⟨99, 2, 3⟩] [] (by decide)
    (by simp [CodeRecord.Valid]) (by decide)

/-! ## The decoder tree of a Huffman tree -/

/-- The bits of a binary number are its digits. -/
theorem bitsVal_digit : ∀ (p : List Nat), (∀ b ∈ p, b ≤ 1) →
    ∀ i, i < p.length → bitsVal p / 2 ^ (p.length - 1 - i) % 2 = p.getD i 0 := by
  intro p
  induction p using List.reverseRecOn with
  | nil => intro _ i hi; simp at hi
  | append_singleton q b ih =>
    intro h i hi
    have hb : b ≤ 1 := h b (by simp)
    have hq : ∀ x ∈ q, x ≤ 1 := fun x hx => h x (List.mem_append_left _ hx)
    rw [List.length_append, List.length_singleton] at hi
    rw [bitsVal_snoc, List.length_append, List.length_singleton]
    by_cases hiq : i < q.length
    · have e1 : q.length + 1 - 1 - i = (q.length - 1 - i) + 1 := by omega
      rw [e1, pow_succ]
      have e2 : (2 * bitsVal q + b) / (2 ^ (q.length - 1 - i) * 2)
          = bitsVal q / 2 ^ (q.length - 1 - i) := by
        rw [Nat.mul_comm (2 ^ (q.length - 1 - i)) 2, ← Nat.div_div_eq_div_mul]
        have e3 : (2 * bitsVal q + b) / 2 = bitsVal q := by omega
        rw [e3]
      rw [e2, ih hq i hiq, List.getD_append _ _ _ _ hiq]
    · have e1 : i = q.length := by omega
      subst e1
      have e2 : q.length + 1 - 1 - q.length = 0 := by omega
      rw [e2, pow_zero, Nat.div_one, List.getD_append_right _ _ _ _ (le_refl _)]
      simp only [Nat.sub_self, List.getD_cons_zero]
      omega

/-- The bit path of the true record of a code is the code. -/
theorem trueRecord_path (e : Nat × List Nat) (hb : ∀ b ∈ e.2, b ≤ 1) (hl : e.2.length ≤ 32) :
    (trueRecord e).path = e.2 := by
  obtain ⟨g, p⟩ := e
  simp only at hb hl
  have hlt := bitsVal_lt p hb
  have hpow : 2 ^ p.length ≤ 2 ^ 32 := Nat.pow_le_pow_right (by omega) hl
  have hmod : (toInt32 (bitsVal p) % 4294967296).toNat = bitsVal p := by
    have h32 : bitsVal p < 4294967296 := by omega
    simp only [toInt32, Nat.mod_eq_of_lt h32]
    split <;> omega
  simp only [trueRecord, CodeRecord.path, Int.toNat_ofNat, hmod]
  apply List.ext_getElem
  · simp
  · intro i h1 h2
    simp only [List.getElem_map, List.getElem_range]
    rw [bitsVal_digit p hb i h2]
    simp [List.getD_eq_getElem?_getD, h2]

theorem trueRecord_valid (e : Nat × List Nat) (hl : e.2.length ≤ 32) : (trueRecord e).Valid := by
  refine ⟨?_, ?_, ?_, ?_⟩
  · simp [trueRecord]
  · simp only [trueRecord]; omega
  · simp only [trueRecord, toInt32]; split <;> omega
  · simp only [trueRecord, toInt32]; split <;> omega

theorem insertBelow_isNull (k : Nat) (t : Tree) (e : Nat × List Nat) (h : t.isNull = false) :
    (insertBelow k t e).isNull = false :=
  insertCode_isNull _ _ _ _ _ h

/-- The insertion of a code that goes on with the bit `c` enters the left
child for `c = 0` and the right child for `c = 1`. -/
theorem insertBelow_node (pre : List Nat) (c : Nat) (e : Nat × List Nat)
    (hpre : pre ++ [c] <+: e.2) (g0 : Nat) (len0 dec0 : Int) (L R : Tree) :
    insertBelow pre.length (.node g0 len0 dec0 L R) e
      = if c = 0 then .node g0 len0 dec0 (insertBelow (pre.length + 1) L.orNew e) R
        else .node g0 len0 dec0 L (insertBelow (pre.length + 1) R.orNew e) := by
  obtain ⟨s, hs⟩ := hpre
  have h1 : e.2.drop pre.length = c :: s := by
    rw [← hs, List.append_assoc, List.drop_left]
    rfl
  have h2 : e.2.drop (pre.length + 1) = s := by
    rw [← hs]
    have : pre.length + 1 = (pre ++ [c]).length := by simp
    rw [this, List.drop_left]
  simp only [insertBelow, h1, h2, List.map_cons, insertCode]
  by_cases hc : c = 0
  · simp [hc]
  · have : ¬ (48 + c = 48) := by omega
    simp [hc, this]

/-- Codes that go on with the bit 0 are inserted into the left child. -/
theorem foldl_insertBelow_left (pre : List Nat) (g0 : Nat) (len0 dec0 : Int) (R : Tree) :
    ∀ (E : List (Nat × List Nat)) (L : Tree), (∀ e ∈ E, pre ++ [0] <+: e.2) →
      (E ≠ [] ∨ L.isNull = false) →
      E.foldl (insertBelow pre.length) (.node g0 len0 dec0 L R)
        = .node g0 len0 dec0 (E.foldl (insertBelow (pre.length + 1)) L.orNew) R
  | [], L, _, h => by
    rcases h with h | h
    · exact absurd rfl h
    · simp [Tree.orNew_of_not_null L h]
  | e :: E, L, hE, _ => by
    have h1 := insertBelow_node pre 0 e (hE e (List.mem_cons_self _ _)) g0 len0 dec0 L R
    simp only [if_true] at h1
    have hnn := insertBelow_isNull (pre.length + 1) L.orNew e (Tree.orNew_isNull L)
    rw [List.foldl_cons, List.foldl_cons, h1,
      foldl_insertBelow_left pre g0 len0 dec0 R E _
        (fun x hx => hE x (List.mem_cons_of_mem _ hx)) (Or.inr hnn),
      Tree.orNew_of_not_null _ hnn]

/-- Codes that go on with the bit 1 are inserted into the right child. -/
theorem foldl_insertBelow_right (pre : List Nat) (g0 : Nat) (len0 dec0 : Int) (L : Tree) :
    ∀ (E : List (Nat × List Nat)) (R : Tree), (∀ e ∈ E, pre ++ [1] <+: e.2) →
      (E ≠ [] ∨ R.isNull = false) →
      E.foldl (insertBelow pre.length) (.node g0 len0 dec0 L R)
        = .node g0 len0 dec0 L (E.foldl (insertBelow (pre.length + 1)) R.orNew)
  | [], R, _, h => by
    rcases h with h | h
    · exact absurd rfl h
    · simp [Tree.orNew_of_not_null R h]
  | e :: E, R, hE, _ => by
    have h1 := insertBelow_node pre 1 e (hE e (List.mem_cons_self _ _)) g0 len0 dec0 L R
    simp only [Nat.one_ne_zero, if_false] at h1
    have hnn := insertBelow_isNull (pre.length + 1) R.orNew e (Tree.orNew_isNull R)
    rw [List.foldl_cons, List.foldl_cons, h1,
      foldl_insertBelow_right pre g0 len0 dec0 L E _
        (fun x hx => hE x (List.mem_cons_of_mem _ hx)) (Or.inr hnn),
      Tree.orNew_of_not_null _ hnn]

theorem Node.leafCodes_ne_nil : ∀ (t : Node) (pre : List Nat), t.Wf → t.leafCodes pre ≠ []
  | .nil, _, h => by simp [Node.Wf] at h
  | .node c f left right, pre, h => by
    simp only [Node.Wf] at h
    rcases h with ⟨rfl, rfl⟩ | ⟨hl, -⟩
    · simp [Node.leafCodes, isLeaf, Node.isNull]
    · have hleaf := Node.Wf_isLeaf_false left right hl
      simp only [Node.leafCodes, hleaf, Bool.false_eq_true, if_false, ne_eq, List.append_eq_nil,
        not_and]
      intro h0
      exact absurd h0 (Node.leafCodes_ne_nil left _ hl)

/-- Inserting the true records of the leaves of a well-formed tree below a
childless node builds the decoder tree that mirrors it. -/
theorem foldl_insertBelow_decoder : ∀ (t : Node) (pre : List Nat) (g0 : Nat) (len0 dec0 : Int),
    t.Wf →
      (t.leafCodes pre).foldl (insertBelow pre.length) (.node g0 len0 dec0 .nil .nil)
        = t.decoder pre g0 len0 dec0
  | .nil, _, _, _, _, h => by simp [Node.Wf] at h
  | .node c f left right, pre, g0, len0, dec0, h => by
    simp only [Node.Wf] at h
    rcases h with ⟨rfl, rfl⟩ | ⟨hl, hr⟩
    · simp [Node.leafCodes, Node.decoder, isLeaf, Node.isNull, insertBelow, insertCode]
    · have hleaf := Node.Wf_isLeaf_false left right hl
      have ihl := foldl_insertBelow_decoder left (pre ++ [0]) 0 0 0 hl
      have ihr := foldl_insertBelow_decoder right (pre ++ [1]) 0 0 0 hr
      rw [List.length_append, List.length_singleton] at ihl ihr
      simp only [Node.leafCodes, Node.decoder, hleaf, Bool.false_eq_true, if_false,
        List.foldl_append]
      rw [foldl_insertBelow_left pre g0 len0 dec0 .nil _ .nil
          (fun e he => Node.leafCodes_prefix left _ e.1 e.2 he)
          (Or.inl (Node.leafCodes_ne_nil left _ hl)),
        foldl_insertBelow_right pre g0 len0 dec0 _ _ .nil
          (fun e he => Node.leafCodes_prefix right _ e.1 e.2 he)
          (Or.inl (Node.leafCodes_ne_nil right _ hr))]
      simp only [Tree.orNew, Tree.new, ihl, ihr]

theorem Node.decoder_full : ∀ (t : Node) (pre : List Nat) (g0 : Nat) (len0 dec0 : Int),
    t.Wf → (t.decoder pre g0 len0 dec0).Full
  | .nil, _, _, _, _, h => by simp [Node.Wf] at h
  | .node c f left right, pre, g0, len0, dec0, h => by
    simp only [Node.Wf] at h
    rcases h with ⟨rfl, rfl⟩ | ⟨hl, hr⟩
    · simp [Node.decoder, isLeaf, Node.isNull, Tree.Full]
    · have hleaf := Node.Wf_isLeaf_false left right hl
      simp only [Node.decoder, hleaf, Bool.false_eq_true, if_false, Tree.Full]
      exact Or.inr ⟨Node.decoder_full left _ 0 0 0 hl, Node.decoder_full right _ 0 0 0 hr⟩

theorem Node.leafCodes_binary : ∀ (t : Node) (pre : List Nat), (∀ b ∈ pre, b ≤ 1) →
    ∀ e ∈ t.leafCodes pre, ∀ b ∈ e.2, b ≤ 1
  | .nil, _, _, e, he => by simp [Node.leafCodes] at he
  | .node c f left right, pre, hpre, e, he => by
    have h0 : ∀ b ∈ pre ++ [0], b ≤ 1 := by
      intro b hb
      rcases List.mem_append.mp hb with hb | hb
      · exact hpre b hb
      · rw [List.mem_singleton.mp hb]; omega
    have h1 : ∀ b ∈ pre ++ [1], b ≤ 1 := by
      intro b hb
      rcases List.mem_append.mp hb with hb | hb
      · exact hpre b hb
      · rw [List.mem_singleton.mp hb]
    simp only [Node.leafCodes] at he
    by_cases hl : isLeaf left right
    · simp only [hl, if_true, List.mem_singleton] at he
      rw [he]
      exact hpre
    · simp only [hl, Bool.false_eq_true, if_false, List.mem_append] at he
      rcases he with he | he
      · exact Node.leafCodes_binary left _ h0 e he
      · exact Node.leafCodes_binary right _ h1 e he

theorem foldl_insertRecord_trueRecord :
    ∀ (E : List (Nat × List Nat)) (T : Tree),
      (∀ e ∈ E, (∀ b ∈ e.2, b ≤ 1) ∧ e.2.length ≤ 32) →
      (E.map trueRecord).foldl insertRecord T = E.foldl (insertBelow 0) T
  | [], _, _ => rfl
  | e :: E, T, h => by
    obtain ⟨hb, hl⟩ := h e (List.mem_cons_self _ _)
    have h1 : insertRecord T (trueRecord e) = insertBelow 0 T e := by
      simp only [insertRecord, trueRecord_path e hb hl, insertBelow, List.drop_zero]
      rfl
    rw [List.map_cons, List.foldl_cons, List.foldl_cons, h1]
    exact foldl_insertRecord_trueRecord E _ (fun x hx => h x (List.mem_cons_of_mem _ hx))

/-! ## Independence of the order of the records -/

/-- Insertions of two codes of which neither is a prefix of the other can be
swapped. -/
theorem insertCode_comm (g1 : Nat) (len1 dec1 : Int) (g2 : Nat) (len2 dec2 : Int) :
    ∀ (p1 p2 : List Nat) (T : Tree), (∀ b ∈ p1, b ≤ 1) → (∀ b ∈ p2, b ≤ 1) →
      ¬ p1 <+: p2 → ¬ p2 <+: p1 →
      insertCode (insertCode T (p1.map (fun b => 48 + b)) g1 len1 dec1)
          (p2.map (fun b => 48 + b)) g2 len2 dec2
        = insertCode (insertCode T (p2.map (fun b => 48 + b)) g2 len2 dec2)
          (p1.map (fun b => 48 + b)) g1 len1 dec1
  | p1, p2, .nil, _, _, _, _ => by
    cases p1 <;> cases p2 <;> simp [insertCode]
  | [], _, .node _ _ _ _ _, _, _, h, _ => absurd List.nil_prefix h
  | _ :: _, [], .node _ _ _ _ _, _, _, _, h => absurd List.nil_prefix h
  | b1 :: q1, b2 :: q2, .node g0 len0 dec0 L R, h1, h2, n1, n2 => by
    have hb1 : b1 ≤ 1 := h1 b1 (List.mem_cons_self _ _)
    have hb2 : b2 ≤ 1 := h2 b2 (List.mem_cons_self _ _)
    have hq1 : ∀ b ∈ q1, b ≤ 1 := fun b hb => h1 b (List.mem_cons_of_mem _ hb)
    have hq2 : ∀ b ∈ q2, b ≤ 1 := fun b hb => h2 b (List.mem_cons_of_mem _ hb)
    have h49 : ¬ (48 + 1 = 48) := by omega
    have hL1 := insertCode_isNull L.orNew (q1.map (fun b => 48 + b)) g1 len1 dec1
      (Tree.orNew_isNull L)
    have hL2 := insertCode_isNull L.orNew (q2.map (fun b => 48 + b)) g2 len2 dec2
      (Tree.orNew_isNull L)
    have hR1 := insertCode_isNull R.orNew (q1.map (fun b => 48 + b)) g1 len1 dec1
      (Tree.orNew_isNull R)
    have hR2 := insertCode_isNull R.orNew (q2.map (fun b => 48 + b)) g2 len2 dec2
      (Tree.orNew_isNull R)
    rcases Nat.le_one_iff_eq_zero_or_eq_one.mp hb1 with rfl | rfl <;>
      rcases Nat.le_one_iff_eq_zero_or_eq_one.mp hb2 with rfl | rfl
    · simp only [List.cons_prefix_cons, true_and] at n1 n2
      simp only [List.map_cons, insertCode, Nat.add_zero, if_true,
        Tree.orNew_of_not_null _ hL1, Tree.orNew_of_not_null _ hL2]
      rw [insertCode_comm g1 len1 dec1 g2 len2 dec2 q1 q2 L.orNew hq1 hq2 n1 n2]
    · simp only [List.map_cons, insertCode, Nat.add_zero, if_true, h49, if_false]
    · simp only [List.map_cons, insertCode, Nat.add_zero, if_true, h49, if_false]
    · simp only [List.cons_prefix_cons, true_and] at n1 n2
      simp only [List.map_cons, insertCode, h49, if_false,
        Tree.orNew_of_not_null _ hR1, Tree.orNew_of_not_null _ hR2]
      rw [insertCode_comm g1 len1 dec1 g2 len2 dec2 q1 q2 R.orNew hq1 hq2 n1 n2]

/-- Two leaves of a tree of which one has a path that is a prefix of the path
of the other have the same path. -/
theorem Node.leafCodes_prefix_eq : ∀ (t : Node) (path : List Nat) (a b : Nat) (ca cb : List Nat),
    (a, ca) ∈ t.leafCodes path → (b, cb) ∈ t.leafCodes path → ca <+: cb → ca = cb
  | .nil, _, _, _, _, _, h, _, _ => by simp [Node.leafCodes] at h
  | .node c f left right, path, a, b, ca, cb, ha, hb, hpre => by
    simp only [Node.leafCodes] at ha hb
    by_cases hl : isLeaf left right
    · simp only [hl, if_true, List.mem_singleton, Prod.mk.injEq] at ha hb
      rw [ha.2, hb.2]
    · simp only [hl, Bool.false_eq_true, if_false] at ha hb
      have hdiff : ∀ (x y : List Nat), path ++ [0] <+: x → path ++ [1] <+: y →
          ¬ x <+: y ∧ ¬ y <+: x := by
        intro x y hx hy
        constructor
        · intro hxy
          have h1 := List.prefix_of_prefix_length_le (hx.trans hxy) hy (by simp)
          have := List.IsPrefix.eq_of_length h1 (by simp)
          simp at this
        · intro hyx
          have h1 := List.prefix_of_prefix_length_le hx (hy.trans hyx) (by simp)
          have := List.IsPrefix.eq_of_length h1 (by simp)
          simp at this
      rcases List.mem_append.mp ha with ha1 | ha1 <;> rcases List.mem_append.mp hb with hb1 | hb1
      · exact Node.leafCodes_prefix_eq left _ a b ca cb ha1 hb1 hpre
      · exact absurd hpre (hdiff ca cb (Node.leafCodes_prefix left _ a ca ha1)
          (Node.leafCodes_prefix right _ b cb hb1)).1
      · exact absurd hpre (hdiff cb ca (Node.leafCodes_prefix left _ b cb hb1)
          (Node.leafCodes_prefix right _ a ca ha1)).2
      · exact Node.leafCodes_prefix_eq right _ a b ca cb ha1 hb1 hpre

/-- The tree built from the true records of a tree does not depend on the
order of the records. -/
theorem foldl_insertRecord_perm (root : Node) (rs : List CodeRecord)
    (hdepth : ∀ e ∈ root.leafCodes [], e.2.length ≤ 32) (hp : List.Perm rs root.records)
    (T : Tree) : rs.foldl insertRecord T = root.records.foldl insertRecord T := by
  refine (List.Perm.foldl_eq' hp.symm ?_ T).symm
  intro x hx y hy z
  by_cases hxy : x = y
  · rw [hxy]
  · obtain ⟨e1, he1, rfl⟩ := List.mem_map.mp hx
    obtain ⟨e2, he2, rfl⟩ := List.mem_map.mp hy
    have hb1 := Node.leafCodes_binary root [] (by simp) e1 he1
    have hb2 := Node.leafCodes_binary root [] (by simp) e2 he2
    have hne : e1.2 ≠ e2.2 := by
      intro h
      have hs := Node.leafCodes_prefix_free root [] e1.1 e2.1 e1.2 e2.2 he1 he2 (h ▸ List.prefix_refl _)
      exact hxy (by simp only [trueRecord, hs, h])
    have n1 : ¬ e1.2 <+: e2.2 := fun h =>
      hne (Node.leafCodes_prefix_eq root [] e1.1 e2.1 e1.2 e2.2 he1 he2 h)
    have n2 : ¬ e2.2 <+: e1.2 := fun h =>
      hne (Node.leafCodes_prefix_eq root [] e2.1 e1.1 e2.2 e1.2 he2 he1 h).symm
    simp only [insertRecord, trueRecord_path e1 hb1 (hdepth e1 he1),
      trueRecord_path e2 hb2 (hdepth e2 he2)]
    exact insertCode_comm _ _ _ _ _ _ e1.2 e2.2 z hb1 hb2 n1 n2
/-- C20. Traversal safety: for the tree `root` that `buildHuffmanTree` returns
for a table, of depth at most 32, the decoder tree that `rebuildHuffmanTree`
builds from the records that carry the true length and bits of the code of
each leaf, in any order, mirrors `root`: every non-terminal node has both
children.  So for
every payload and every `fileLength` the descent of `decompressFile` never
moves to a missing child: the walk returns, at a node of the tree, and
`decompressFile` returns normally. -/
theorem rebuilt_tree_traversal_safe (arr : List Nat) (freq : List Int) (root : Node)
    (rs : List CodeRecord) (rest : List Nat) (hroot : buildHuffmanTree arr freq = .ok root)
    (hdepth : ∀ e ∈ root.leafCodes [], e.2.length ≤ 32) (hrs : List.Perm rs root.records) :
    ∃ tree, rebuildHuffmanTree ⟨rs.flatMap CodeRecord.bytes ++ rest, false⟩
        rs.length = .ok (⟨rest, false⟩, tree)
      ∧ tree = root.decoder [] 0 0 0
      ∧ tree.Full
      ∧ ∀ (payload outFile : List Nat) (fileLength : Int),
          ∃ n temp out, walk tree (payloadBits payload) fileLength.toNat tree outFile
              = .ok (n, temp, out) ∧ temp.Full
            ∧ decompressFile ⟨payload, false⟩ outFile tree fileLength = .ok out := by
  obtain ⟨-, hwf, -, -⟩ := buildHuffmanTree_facts arr freq root hroot
  have hE : ∀ e ∈ root.leafCodes [], (∀ b ∈ e.2, b ≤ 1) ∧ e.2.length ≤ 32 :=
    fun e he => ⟨Node.leafCodes_binary root [] (by simp) e he, hdepth e he⟩
  have hv : ∀ r ∈ rs, r.Valid := by
    intro r hr
    obtain ⟨e, he, rfl⟩ := List.mem_map.mp (hrs.subset hr)
    exact trueRecord_valid e (hdepth e he)
  have htree : rs.foldl insertRecord Tree.new = root.decoder [] 0 0 0 := by
    rw [foldl_insertRecord_perm root rs hdepth hrs, Node.records,
      foldl_insertRecord_trueRecord _ _ hE]
    exact foldl_insertBelow_decoder root [] 0 0 0 hwf
  have hfull : (root.decoder [] 0 0 0).Full := Node.decoder_full root [] 0 0 0 hwf
  refine ⟨root.decoder [] 0 0 0, ?_, rfl, hfull, ?_⟩
  · rw [rebuildHuffmanTree_records rs rest hv, htree]
  · intro payload outFile fileLength
    obtain ⟨n, temp, out, h, hF⟩ := walk_full _ hfull _ (payloadBits payload) fileLength.toNat
      (root.decoder [] 0 0 0) outFile (le_refl _) hfull
    exact ⟨n, temp, out, h, hF, by rw [decompressFile_eq_walk, h]; rfl⟩

/-- C20 at the table of `main`, whose tree has depth 4, with the records in
the order of `printCodesIntoFile`. -/
theorem rebuilt_tree_traversal_safe_witness :
    ∃ tree, rebuildHuffmanTree ⟨exampleRoot.records.flatMap CodeRecord.bytes ++ [], false⟩
        exampleRoot.records.length = .ok (⟨[], false⟩, tree)
      ∧ tree = exampleRoot.decoder [] 0 0 0
      ∧ tree.Full
      ∧ ∀ (payload outFile : List Nat) (fileLength : Int),
          ∃ n temp out, walk tree (payloadBits payload) fileLength.toNat tree outFile
              = .ok (n, temp, out) ∧ temp.Full
            ∧ decompressFile ⟨payload, false⟩ outFile tree fileLength = .ok out :=
  rebuilt_tree_traversal_safe [97, 98, 99, 100, 101, 102] [5, 9, 12, 13, 16, 45] exampleRoot
    exampleRoot.records [] buildHuffmanTree_example (by decide) (List.Perm.refl _)

end FileCompressor
